import Mathlib

/-!
# ProDy `msaio.c`: FASTA and SELEX/Stockholm alignment readers and writers

A shallow embedding of `Docker_Image/dock_single/ProDy/prody/sequence/msaio.c` and the
properties of its four entry points `parseFasta`, `writeFasta`, `parseSelex`,
`writeSelex` and of their helpers `intcat` and `parseLabel`.

Conventions of the embedding.

* A byte is a natural number below 256.  The C code reads bytes through `char`,
  which is signed on the x86-64 Linux target of the Docker image; `cchar` gives the
  value the comparisons `ch < 32`, `ch == '/'` see.
* A file is the list of its bytes.  `fgetsAll size bytes []` is the list of lines that
  successive calls `fgets(line, size, file)` return until the first `NULL`.
* The line buffer is a function from offsets to bytes; `fgetsStore` is what one `fgets`
  leaves in it (the line, a NUL, and the older content behind it).  The content of a
  freshly allocated buffer is a parameter (`junk`).
* The caller's matrix buffer has `cap` bytes; `data` lists the bytes stored so far, so
  the write cursor `index` is `data.length`.
* `long`/`int` counters are natural numbers or integers; they do not wrap for inputs
  below 2 GiB, which is the range the embedding covers.  The wrap width and the label
  field width of the writers are natural numbers.
* Python object allocation and text conversion are taken to succeed, so `parseLabel`
  always registers its label and returns 1.  Labels are the lists of their bytes.
* The matrix handed to a writer is given by its dimensions and the memory from its
  data pointer on.
* Behaviour that C leaves undefined (a store past the caller's matrix buffer, a read
  outside the line buffer, an integer division by zero) is an explicit `fault` outcome.

The file has three parts: the embedding and the notions used in the statements, the
lemmas, and the properties C1 to C20 with their concrete instances.
-/

namespace Msaio

/-! ## Constants and bytes -/

/-- `#define LENLABEL 100` -/
def LENLABEL : Nat := 100

/-- `#define FASTALINELEN 1000` -/
def FASTALINELEN : Nat := 1000

/-- `#define SELEXLINELEN 10000` -/
def SELEXLINELEN : Nat := 10000

/-- Value of a byte read into a (signed) `char`. -/
def cchar (b : Nat) : Int := if b < 128 then (b : Int) else (b : Int) - 256

/-- Undefined behaviour the C code can run into. -/
inductive Fault where
  | divByZero
  | bufferOverrun
  | outOfBoundsRead
  deriving DecidableEq, Repr

/-! ## `intcat` -/

/-- Conversion of a `long` to the `int` parameter of `intcat`. -/
def toInt32 (x : Int) : Int := (x + 2147483648) % 4294967296 - 2147483648

/-- Decimal text that `%i` prints. -/
def decimal (i : Int) : List Char :=
  if i < 0 then '-' :: Nat.toDigits 10 i.natAbs else Nat.toDigits 10 i.natAbs

/-- `intcat(msg, line)`: `snprintf(lnum, 10, "%i", line)` keeps at most nine characters,
which `strcat` appends to the message. -/
def intcat (msg : List Char) (line : Int) : List Char :=
  msg ++ (decimal (toInt32 line)).take 9

/-- `errmsg` of `parseFasta`. -/
def fastaErrmsg : List Char := "failed to parse FASTA file at line ".toList

/-- `errmsg` of `parseSelex`. -/
def selexErrmsg : List Char := "failed to parse SELEX/Stockholm file at line ".toList

/-- Message of the `ValueError` both writers raise. -/
def sizeErrmsg : List Char := "size of labels and msa array does not match".toList

/-! ## `fgets` and the line buffer -/

/-- Lines returned by successive `fgets(line, size, file)` calls: each call takes bytes
until it has taken a newline or `size - 1` bytes or the file ends; `cur` is the part
of the current line already taken. -/
def fgetsAll (size : Nat) : List Nat → List Nat → List (List Nat)
  | [], cur => if cur.isEmpty then [] else [cur]
  | b :: rest, cur =>
      if b = 10 ∨ cur.length + 2 = size then (cur ++ [b]) :: fgetsAll size rest []
      else fgetsAll size rest (cur ++ [b])

/-- Buffer content after `fgets` stored the line `c`: the line, a terminating NUL, and
behind it whatever the buffer held before. -/
def fgetsStore (old : Nat → Nat) (c : List Nat) : Nat → Nat :=
  fun i => if i < c.length then c.getD i 0 else if i = c.length then 0 else old i

/-- Bytes `p[0..n)` of a buffer. -/
def bytesOf (p : Nat → Nat) (n : Nat) : List Nat := (List.range n).map p

/-- Loop `for (; i < size; i++) if (stop(line[i])) break;` with `n = size - i` iterations
left; returns the final `i`. -/
def scanFrom (stop : Nat → Bool) (line : Nat → Nat) : Nat → Nat → Nat
  | 0, i => i
  | n + 1, i => if stop (line i) then i else scanFrom stop line n (i + 1)

/-! ## Label registry and `parseLabel` -/

/-- Value stored in the `mapping` dictionary: a bare index or a list of indices. -/
inductive Entry where
  | index (i : Nat)
  | group (l : List Nat)
  deriving DecidableEq, Repr

/-- `mapping` dictionary: keys in insertion order. -/
abbrev Registry := List (List Nat × Entry)

/-- `PyDict_GetItem(mapping, key)`. -/
def registryFind : Registry → List Nat → Option Entry
  | [], _ => none
  | (k, e) :: m, key => if k = key then some e else registryFind m key

/-- Lines 67-83 of `parseLabel`: append to a list entry, turn a bare index into a
two-element list, or store a new bare index. -/
def registryAdd : Registry → List Nat → Nat → Registry
  | [], key, idx => [(key, Entry.index idx)]
  | (k, e) :: m, key, idx =>
      if k = key then
        (k, match e with
            | Entry.index i => Entry.group [i, idx]
            | Entry.group l => Entry.group (l ++ [idx])) :: m
      else (k, e) :: registryAdd m key idx

/-- Scanning loop of `parseLabel` (lines 27-37) with `n = length - i` iterations left;
returns the final `(i, slash, dash)`. -/
def labelScan (line : Nat → Nat) : Nat → Nat → Nat → Nat → Nat × Nat × Nat
  | 0, i, slash, dash => (i, slash, dash)
  | n + 1, i, slash, dash =>
      let ch := cchar (line i)
      if ch < 32 ∧ ch ≠ 20 then (i, slash, dash)
      else if ch = 47 ∧ slash = 0 ∧ dash = 0 then labelScan line n (i + 1) i dash
      else if ch = 45 ∧ slash > 0 ∧ dash = 0 then labelScan line n (i + 1) slash i
      else labelScan line n (i + 1) slash dash

/-- Text appended to `labels` by `parseLabel`. -/
def labelText (line : Nat → Nat) (length : Nat) : List Nat :=
  bytesOf line (labelScan line length 0 0 0).1

/-- Dictionary key used by `parseLabel` (lines 58-65). -/
def labelKey (line : Nat → Nat) (length : Nat) : List Nat :=
  let r := labelScan line length 0 0 0
  if r.2.1 > 0 ∧ r.2.2 > r.2.1 then bytesOf line r.2.1 else bytesOf line r.1

/-- `parseLabel(labels, mapping, line, length)`: new `labels`, new `mapping` and the
return value. -/
def parseLabel (labels : List (List Nat)) (mapping : Registry) (line : Nat → Nat)
    (length : Nat) : List (List Nat) × Registry × Nat :=
  (labels ++ [labelText line length],
   registryAdd mapping (labelKey line length) labels.length, 1)

/-! ## Parse results -/

/-- What a parser hands back: the resized matrix, `labels`, `mapping`, `count`. -/
structure Alignment where
  rows : Nat
  cols : Nat
  data : List Nat
  labels : List (List Nat)
  mapping : Registry
  count : Nat
  deriving DecidableEq, Repr

/-- Outcome of a parser call. -/
inductive Parsed (α : Type) where
  | ok (a : α)
  | ioError (msg : List Char)
  | fault (f : Fault)
  deriving DecidableEq, Repr

/-- Continue with `f` after a step that returned normally; an error or a fault ends
the call. -/
def Parsed.andThen {α β : Type} : Parsed α → (α → Parsed β) → Parsed β
  | Parsed.ok a, f => f a
  | Parsed.ioError m, _ => Parsed.ioError m
  | Parsed.fault e, _ => Parsed.fault e

/-! ## `parseFasta` -/

/-- Local variables of the reading loop of `parseFasta`; `data` lists the bytes stored
so far, so `index` is `data.length`. -/
structure FastaState where
  labels : List (List Nat)
  mapping : Registry
  count : Nat
  data : List Nat
  iline : Nat
  seqlen : Nat
  curlen : Nat
  deriving DecidableEq, Repr

/-- Copy loop of lines 135-143 with `n = FASTALINELEN - i` iterations left: the bytes
stored into `data`. -/
def fastaCopy (line : Nat → Nat) : Nat → Nat → List Nat
  | 0, _ => []
  | n + 1, i => if cchar (line i) < 32 then [] else line i :: fastaCopy line n (i + 1)

/-- Body of the `while (fgets ...)` loop of `parseFasta` (lines 118-144) for one line
held in the buffer `line`; `cap` is the size of the caller's matrix buffer. -/
def fastaLine (cap : Nat) (line : Nat → Nat) (s : FastaState) : Parsed FastaState :=
  if cchar (line 0) = 62 then
    if s.seqlen ≠ s.curlen ∧ s.seqlen ≠ 0 then
      Parsed.ioError (intcat fastaErrmsg ((s.iline : Int) + 1))
    else
      let r := parseLabel s.labels s.mapping (fun i => line (i + 1)) FASTALINELEN
      Parsed.ok
        { labels := r.1, mapping := r.2.1, count := s.count + r.2.2, data := s.data,
          iline := s.iline + 1,
          seqlen := if s.seqlen ≠ s.curlen then s.curlen else s.seqlen,
          curlen := 0 }
  else
    let bytes := fastaCopy line FASTALINELEN 0
    if cap < s.data.length + bytes.length then Parsed.fault Fault.bufferOverrun
    else
      Parsed.ok
        { s with data := s.data ++ bytes, iline := s.iline + 1,
                 curlen := s.curlen + bytes.length }

/-- The `while (fgets ...)` loop of `parseFasta` over the lines still to be read. -/
def fastaLoop (cap : Nat) : List (List Nat) → (Nat → Nat) → FastaState → Parsed FastaState
  | [], _, s => Parsed.ok s
  | c :: cs, line, s =>
      (fastaLine cap (fgetsStore line c) s).andThen (fastaLoop cap cs (fgetsStore line c))

/-- State of `parseFasta` before the first line. -/
def fastaInit : FastaState :=
  { labels := [], mapping := [], count := 0, data := [], iline := 0, seqlen := 0,
    curlen := 0 }

/-- Lines 146-162 of `parseFasta`: the final length check and the resize to
`index / seqlen` rows of `seqlen` columns. -/
def fastaFinish (s : FastaState) : Parsed Alignment :=
  if s.seqlen ≠ s.curlen then Parsed.ioError (intcat fastaErrmsg (s.iline : Int))
  else if s.seqlen = 0 then Parsed.fault Fault.divByZero
  else
    Parsed.ok
      { rows := s.data.length / s.seqlen, cols := s.seqlen,
        data := s.data.take (s.data.length / s.seqlen * s.seqlen),
        labels := s.labels, mapping := s.mapping, count := s.count }

/-- `parseFasta(filename, msa)`: `file` is the content of the file, `cap` the number of
bytes of the array `msa`, `junk` the content of the freshly allocated line buffer. -/
def parseFasta (cap : Nat) (junk : Nat → Nat) (file : List Nat) : Parsed Alignment :=
  (fastaLoop cap (fgetsAll FASTALINELEN file []) junk fastaInit).andThen fastaFinish

/-! ## `parseSelex` -/

/-- Test `line[0] == '#' || line[0] == '/' || line[0] == '%'`. -/
def isSelexComment (b : Nat) : Bool := b = 35 ∨ b = 47 ∨ b = 37

/-- What the first loop of `parseSelex` (lines 260-277) leaves behind. -/
structure SelexGeom where
  line : Nat → Nat
  iline : Int
  pos : Nat
  beg : Nat
  endCol : Nat
  seqlen : Nat

/-- First loop of `parseSelex`: skip comment lines, then measure the first other line;
`pos` counts the bytes read from the file. -/
def selexGeometry (size : Nat) : List (List Nat) → (Nat → Nat) → Int → Nat → SelexGeom
  | [], line, iline, pos =>
      { line := line, iline := iline, pos := pos, beg := 0, endCol := 0, seqlen := 0 }
  | c :: cs, line, iline, pos =>
      let cur := fgetsStore line c
      if isSelexComment (cur 0) then selexGeometry size cs cur (iline + 1) (pos + c.length)
      else
        let i := scanFrom (fun b => b == 32) cur size 0
        let beg := scanFrom (fun b => b != 32) cur (size - i) i
        let en := scanFrom (fun b => decide (cchar b < 32)) cur (size - beg) beg
        { line := cur, iline := iline + 1, pos := pos + c.length, beg := beg, endCol := en,
          seqlen := en - beg }

/-- Local variables of the second loop of `parseSelex`. -/
structure SelexState where
  labels : List (List Nat)
  mapping : Registry
  count : Nat
  data : List Nat
  iline : Int
  deriving DecidableEq, Repr

/-- Body of the second loop of `parseSelex` (lines 285-299) for one line held in the
buffer `line`. -/
def selexLine (cap beg en : Nat) (line : Nat → Nat) (s : SelexState) : Parsed SelexState :=
  if isSelexComment (line 0) then Parsed.ok { s with iline := s.iline + 1 }
  else if beg = 0 then Parsed.fault Fault.outOfBoundsRead
  else if line (beg - 1) ≠ 32 then Parsed.ioError (intcat selexErrmsg (s.iline + 1))
  else
    let r := parseLabel s.labels s.mapping line (beg - 1)
    let bytes := (List.range (en - beg)).map (fun k => line (beg + k))
    if cap < s.data.length + bytes.length then Parsed.fault Fault.bufferOverrun
    else
      Parsed.ok
        { labels := r.1, mapping := r.2.1, count := s.count + r.2.2,
          data := s.data ++ bytes, iline := s.iline + 1 }

/-- Second loop of `parseSelex` over the lines still to be read. -/
def selexLoop (cap beg en : Nat) : List (List Nat) → (Nat → Nat) → SelexState →
    Parsed SelexState
  | [], _, s => Parsed.ok s
  | c :: cs, line, s =>
      (selexLine cap beg en (fgetsStore line c) s).andThen
        (selexLoop cap beg en cs (fgetsStore line c))

/-- Lines 301-312 of `parseSelex`: the resize to `index / seqlen` rows of `seqlen`
columns. -/
def selexFinish (seqlen : Nat) (s : SelexState) : Parsed Alignment :=
  if seqlen = 0 then Parsed.fault Fault.divByZero
  else
    Parsed.ok
      { rows := s.data.length / seqlen, cols := seqlen,
        data := s.data.take (s.data.length / seqlen * seqlen),
        labels := s.labels, mapping := s.mapping, count := s.count }

/-- `parseSelex(filename, msa)`: `file` is the content of the file, `cap` the number of
bytes of the array `msa`, `junk` the content of the freshly allocated line buffer.
After the first loop the file is moved back by `strlen(line)` bytes (a move before the
start of the file fails and leaves the position alone). -/
def parseSelex (cap : Nat) (junk : Nat → Nat) (file : List Nat) : Parsed Alignment :=
  let size := SELEXLINELEN + 1
  let g := selexGeometry size (fgetsAll size file []) junk 0 0
  let len := scanFrom (fun b => b == 0) g.line size 0
  if len = size then Parsed.fault Fault.outOfBoundsRead
  else
    let pos := if len ≤ g.pos then g.pos - len else g.pos
    (selexLoop cap g.beg g.endCol (fgetsAll size (file.drop pos) []) g.line
        { labels := [], mapping := [], count := 0, data := [], iline := g.iline - 1 }).andThen
      (selexFinish g.seqlen)

/-! ## Writers -/

/-- Outcome of a writer call: a `ValueError` raised before the file is opened, or the
bytes written to the opened file, or undefined behaviour. -/
inductive Written where
  | valueError (msg : List Char)
  | file (out : List Nat)
  | fault (f : Fault)
  deriving DecidableEq, Repr

/-- Output of a call that began with `pre` and, if all goes well, ends with `post`. -/
def Written.wrap (pre post : List Nat) : Written → Written
  | Written.file out => Written.file (pre ++ out ++ post)
  | Written.valueError m => Written.valueError m
  | Written.fault f => Written.fault f

/-- Bytes of a C string: everything before the first NUL. -/
def cstr (s : List Nat) : List Nat := s.takeWhile (fun b => b != 0)

/-- Loop `for (k = 0; k < n; k++) if (count < lenmsa) fprintf(file, "%c", seq[count++]);`:
the bytes printed and the new `count`. -/
def emitChars (seq : List Nat) (lenmsa : Nat) : Nat → Nat → List Nat × Nat
  | 0, count => ([], count)
  | n + 1, count =>
      if count < lenmsa then
        let r := emitChars seq lenmsa n (count + 1)
        (seq.getD count 0 :: r.1, r.2)
      else emitChars seq lenmsa n count

/-- Loop `for (j = 0; j < nlines; j++)` of `writeFasta` (lines 218-223): `nlines` times
sixty guarded characters and a newline. -/
def emitLines (seq : List Nat) (lenmsa : Nat) : Nat → Nat → List Nat × Nat
  | 0, count => ([], count)
  | j + 1, count =>
      let r := emitChars seq lenmsa 60 count
      let t := emitLines seq lenmsa j r.2
      (r.1 ++ [10] ++ t.1, t.2)

/-- Loop over the rows of `writeFasta` (lines 205-231), one label per row. -/
def writeFastaRows (seq : List Nat) (lenmsa nlines remainder : Nat) :
    List (List Nat) → Nat → List Nat
  | [], _ => []
  | label :: rest, count =>
      let body := emitLines seq lenmsa nlines count
      let last := emitChars seq lenmsa remainder body.2
      [62] ++ cstr label ++ [10] ++ body.1 ++ last.1 ++ [10]
        ++ writeFastaRows seq lenmsa nlines remainder rest last.2

/-- `writeFasta(filename, labels, msa, line_length)`: `numseq` and `lenseq` are the
dimensions of `msa`, `seq` the memory from its data pointer on (the C string that
`strlen(seq)` measures ends at its first NUL, or where the list ends). -/
def writeFasta (labels : List (List Nat)) (numseq lenseq : Nat) (seq : List Nat)
    (line_length : Nat) : Written :=
  if numseq ≠ labels.length then Written.valueError sizeErrmsg
  else if line_length = 0 then Written.fault Fault.divByZero
  else
    let nlines := lenseq / line_length
    let remainder := lenseq - line_length * nlines
    Written.file (writeFastaRows seq (cstr seq).length nlines remainder labels 0)

/-- The buffer `outline` of `writeSelex` after one pass of the row loop (lines 373-382):
`strcpy` of the label, the space padding, the row bytes. -/
def selexOutline (label_length lenseq : Nat) (old : Nat → Nat) (label row : List Nat) :
    Nat → Nat :=
  let n := (cstr label).length
  let copied : Nat → Nat :=
    fun j => if j < n then (cstr label).getD j 0 else if j = n then 0 else old j
  let padded : Nat → Nat :=
    fun j => if n < label_length ∧ n ≤ j ∧ j < label_length then 32 else copied j
  fun j => if label_length ≤ j ∧ j < label_length + lenseq then row.getD (j - label_length) 0
           else padded j

/-- Row loop of `writeSelex` (lines 363-385); `seq` is the part of the matrix not yet
written.  A label that does not fit `outline` with its NUL overruns the buffer. -/
def writeSelexRows (label_length lenseq : Nat) :
    List (List Nat) → List Nat → (Nat → Nat) → Written
  | [], _, _ => Written.file []
  | label :: rest, seq, outline =>
      if label_length + lenseq + 2 < (cstr label).length + 1 then
        Written.fault Fault.bufferOverrun
      else
        (writeSelexRows label_length lenseq rest (seq.drop lenseq)
            (selexOutline label_length lenseq outline label (seq.take lenseq))).wrap
          (cstr (bytesOf (selexOutline label_length lenseq outline label (seq.take lenseq))
            (label_length + lenseq + 2))) []

/-- `writeSelex(filename, labels, msa, stockholm, label_length)`: `numseq` and `lenseq`
are the dimensions of `msa`, `seq` its bytes, `junk` the content of the freshly
allocated `outline`. -/
def writeSelex (labels : List (List Nat)) (numseq lenseq : Nat) (seq : List Nat)
    (stockholm : Bool) (label_length : Nat) (junk : Nat → Nat) : Written :=
  if numseq ≠ labels.length then Written.valueError sizeErrmsg
  else
    (writeSelexRows label_length lenseq labels seq
        (fun j => if j = label_length + lenseq then 10
                  else if j = label_length + lenseq + 1 then 0 else junk j)).wrap
      (if stockholm then [35, 32, 83, 84, 79, 67, 75, 72, 79, 76, 77, 32, 49, 46, 48, 10] else [])
      (if stockholm then [47, 47, 10] else [])

/-! ## Auxiliary notions used in the statements -/

/-- The test that ends the scan of `parseLabel`. -/
def labelStop (b : Nat) : Bool := decide (cchar b < 32 ∧ cchar b ≠ 20)

/-- Bytes `p[i..i+n)` of a buffer. -/
def seg (p : Nat → Nat) (i n : Nat) : List Nat := bytesOf (fun k => p (i + k)) n

/-- Bytes that the scan of `parseLabel` passes over when it starts at offset `i` with
`n` iterations left. -/
def labelRun (p : Nat → Nat) (i n : Nat) : List Nat :=
  (seg p i n).takeWhile (fun b => !labelStop b)

/-- Text that the SELEX writer is specified to produce for the rows: each label padded
with spaces to the field width, the row bytes, a newline. -/
def selexRowsSpec (w lenseq : Nat) : List (List Nat) → List Nat → List Nat
  | [], _ => []
  | label :: rest, seq =>
      label ++ List.replicate (w - label.length) 32 ++ seq.take lenseq ++ [10]
        ++ selexRowsSpec w lenseq rest (seq.drop lenseq)

/-- The first `q` chunks of `w` bytes of a row. -/
def chunksOf (w : Nat) : Nat → List Nat → List (List Nat)
  | 0, _ => []
  | q + 1, row => row.take w :: chunksOf w q (row.drop w)

/-- Sequence lines that the FASTA writer is specified to produce for one row at wrap
width `w`: the full chunks of `w` bytes, then the remaining bytes (possibly none). -/
def fastaRowLines (w : Nat) (row : List Nat) : List (List Nat) :=
  chunksOf w (row.length / w) row ++ [row.drop (w * (row.length / w))]

/-- Text of one FASTA record: the header line and the sequence lines. -/
def recordText (label : List Nat) (lines : List (List Nat)) : List Nat :=
  [62] ++ label ++ [10] ++ (lines.map (fun l => l ++ [10])).flatten

/-- Text of a FASTA file given as a list of records. -/
def fastaText (recs : List (List Nat × List (List Nat))) : List Nat :=
  (recs.map (fun r => recordText r.1 r.2)).flatten

/-- Records that the FASTA writer is specified to produce at wrap width `w` for a matrix
of rows of `lenseq` bytes: one record per label, holding the lines of its row. -/
def fastaRecordsSpec (w lenseq : Nat) : List (List Nat) → List Nat →
    List (List Nat × List (List Nat))
  | [], _ => []
  | label :: rest, seq =>
      (label, fastaRowLines w (seq.take lenseq)) :: fastaRecordsSpec w lenseq rest (seq.drop lenseq)

/-- Registry key of a label text: what `parseLabel` computes when the label is all that
the scan passes over. -/
def keyOfLabel (l : List Nat) : List Nat := labelKey (fun i => l.getD i 0) l.length

/-- Positions, counted from `i`, of the labels whose registry key is `k`, in increasing
order. -/
def keyPositions (k : List Nat) : List (List Nat) → Nat → List Nat
  | [], _ => []
  | l :: ls, i =>
      if keyOfLabel l = k then i :: keyPositions k ls (i + 1) else keyPositions k ls (i + 1)

/-- Dictionary value that stands for a list of positions: nothing, a bare index, or
the list. -/
def entryOf : List Nat → Option Entry
  | [] => none
  | [i] => some (Entry.index i)
  | i :: j :: l => some (Entry.group (i :: j :: l))

/-- The registry lists, for every key, the positions of the labels with that key. -/
def RegistryOk (labels : List (List Nat)) (mapping : Registry) : Prop :=
  ∀ k, registryFind mapping k = entryOf (keyPositions k labels 0)

/-- Label that `parseFasta` takes from the header line `c`: the bytes after `>` up to
the first byte that ends the scan. -/
def headerLabel (c : List Nat) : List Nat := (c.drop 1).takeWhile (fun b => !labelStop b)

/-- Bytes that `parseFasta` copies from the sequence line `c`: the bytes before the
first one below 32. -/
def seqBytes (c : List Nat) : List Nat := c.takeWhile (fun b => decide (32 ≤ cchar b))

/-- The loop body of `parseFasta` as a function of the line just read. -/
def fastaStep (cap : Nat) (c : List Nat) (s : FastaState) : Parsed FastaState :=
  if cchar (c.getD 0 0) = 62 then
    if s.seqlen ≠ s.curlen ∧ s.seqlen ≠ 0 then
      Parsed.ioError (intcat fastaErrmsg ((s.iline : Int) + 1))
    else
      Parsed.ok
        { labels := s.labels ++ [headerLabel c],
          mapping := registryAdd s.mapping (keyOfLabel (headerLabel c)) s.labels.length,
          count := s.count + 1, data := s.data, iline := s.iline + 1,
          seqlen := if s.seqlen ≠ s.curlen then s.curlen else s.seqlen,
          curlen := 0 }
  else if cap < s.data.length + (seqBytes c).length then Parsed.fault Fault.bufferOverrun
  else
    Parsed.ok
      { s with data := s.data ++ seqBytes c, iline := s.iline + 1,
               curlen := s.curlen + (seqBytes c).length }

/-- The reading loop of `parseFasta` as a function of the lines read. -/
def fastaSteps (cap : Nat) : List (List Nat) → FastaState → Parsed FastaState
  | [], s => Parsed.ok s
  | c :: cs, s =>
      (fastaStep cap c s).andThen (fastaSteps cap cs)

/-- A label that the scan of `parseLabel` passes over whole and that fits the line
buffer of `parseFasta` together with its `>`. -/
def LabelOk (l : List Nat) : Prop := l.length ≤ 998 ∧ ∀ b ∈ l, labelStop b = false

/-- A sequence line that `parseFasta` copies whole: at most 998 bytes, none below 32
as a `char`, the first one not `>`. -/
def LineOk (l : List Nat) : Prop :=
  l.length ≤ 998 ∧ (∀ b ∈ l, 32 ≤ cchar b) ∧ cchar (l.getD 0 0) ≠ 62

/-- Lines that `fgets` returns for the header `>label\n`: the newline comes alone when
the header fills the buffer. -/
def headerChunks (label : List Nat) : List (List Nat) :=
  if label.length = 998 then [62 :: label, [10]] else [62 :: label ++ [10]]

/-- Lines that `fgets` returns for one record. -/
def recordChunks (r : List Nat × List (List Nat)) : List (List Nat) :=
  headerChunks r.1 ++ r.2.map (fun l => l ++ [10])

/-- Registry after `parseLabel` has registered the labels `ls` at positions `i`, `i+1`, ... -/
def registerAll : Registry → Nat → List (List Nat) → Registry
  | m, _, [] => m
  | m, i, l :: ls => registerAll (registryAdd m (keyOfLabel l) i) (i + 1) ls

/-- Sequence bytes of a list of records, record after record. -/
def recordsData (recs : List (List Nat × List (List Nat))) : List Nat :=
  (recs.map (fun r => r.2.flatten)).flatten

/-- Number of lines `fgets` returns for a list of records. -/
def recordsLines (recs : List (List Nat × List (List Nat))) : Nat :=
  ((recs.map recordChunks).flatten).length

/-- The body of the second loop of `parseSelex` as a function of the line just read,
for a line that reaches the columns the loop reads. -/
def selexStep (cap beg en : Nat) (c : List Nat) (s : SelexState) : Parsed SelexState :=
  if isSelexComment (c.getD 0 0) then Parsed.ok { s with iline := s.iline + 1 }
  else if c.getD (beg - 1) 0 ≠ 32 then Parsed.ioError (intcat selexErrmsg (s.iline + 1))
  else if cap < s.data.length + ((c.drop beg).take (en - beg)).length then
    Parsed.fault Fault.bufferOverrun
  else
    Parsed.ok
      { labels := s.labels ++ [(c.take (beg - 1)).takeWhile (fun b => !labelStop b)],
        mapping := registryAdd s.mapping
          (keyOfLabel ((c.take (beg - 1)).takeWhile (fun b => !labelStop b))) s.labels.length,
        count := s.count + 1, data := s.data ++ (c.drop beg).take (en - beg),
        iline := s.iline + 1 }

/-- The second loop of `parseSelex` as a function of the lines read. -/
def selexSteps (cap beg en : Nat) : List (List Nat) → SelexState → Parsed SelexState
  | [], s => Parsed.ok s
  | c :: cs, s =>
      (selexStep cap beg en c s).andThen (selexSteps cap beg en cs)

/-- A line that reaches the columns the second loop of `parseSelex` reads: a comment,
or a line with a byte at column `beg - 1` that is not a space, or with a space there
and bytes up to column `en`. -/
def SelexInRange (beg en : Nat) (c : List Nat) : Prop :=
  c ≠ [] ∧ (isSelexComment (c.getD 0 0) = true ∨
    (beg ≤ c.length ∧ (c.getD (beg - 1) 0 ≠ 32 ∨ en ≤ c.length)))

/-- A line of a SELEX file without its newline: a comment, or a data line made of the
field before the sequence column (label and padding), one space, and the sequence. -/
inductive SelexLine where
  | comment (text : List Nat)
  | data (field seq : List Nat)
  deriving DecidableEq, Repr

/-- Bytes of a SELEX line. -/
def SelexLine.text : SelexLine → List Nat
  | SelexLine.comment t => t
  | SelexLine.data f s => f ++ [32] ++ s

/-- Bytes of a SELEX file given as a list of lines, each ended by a newline. -/
def selexText (lines : List SelexLine) : List Nat :=
  (lines.map (fun l => l.text ++ [10])).flatten

/-- Label fields of the data lines. -/
def selexFields : List SelexLine → List (List Nat)
  | [] => []
  | SelexLine.comment _ :: ls => selexFields ls
  | SelexLine.data f _ :: ls => f :: selexFields ls

/-- Sequence bytes of the data lines, line after line. -/
def selexSeqs : List SelexLine → List Nat
  | [] => []
  | SelexLine.comment _ :: ls => selexSeqs ls
  | SelexLine.data _ s :: ls => s ++ selexSeqs ls

/-- A comment line: it begins with `#`, `/` or `%`, and fits the line buffer with its
newline. -/
def CommentOk (t : List Nat) : Prop :=
  isSelexComment (t.getD 0 0) = true ∧ 10 ∉ t ∧ t.length + 1 ≤ SELEXLINELEN

/-- A data line with the sequence at columns `[beg, beg + L)`: the field before the
sequence column has `beg - 1` bytes that the label scan passes over, the sequence has
`L` bytes, none below 32 as a `char`, the line does not begin like a comment and fits
the line buffer with its newline. -/
def DataOk (beg L : Nat) (f s : List Nat) : Prop :=
  f.length + 1 = beg ∧ s.length = L ∧ (∀ b ∈ f, labelStop b = false) ∧
    (∀ b ∈ s, 32 ≤ cchar b) ∧ isSelexComment ((f ++ [32]).getD 0 0) = false ∧
    beg + L + 1 ≤ SELEXLINELEN

/-- A line of a SELEX file with the sequence at columns `[beg, beg + L)`. -/
def SelexLineOk (beg L : Nat) : SelexLine → Prop
  | SelexLine.comment t => CommentOk t
  | SelexLine.data f s => DataOk beg L f s

/-- A comment line. -/
def SelexLine.isComment : SelexLine → Prop
  | SelexLine.comment _ => True
  | SelexLine.data _ _ => False

/-- What the reading loop of `parseFasta` keeps true of its variables, whatever the
file: the stored bytes are at least 32 as a `char`, the labels are texts that the
label scan passes over whole, the registry and the count follow from the labels, and
the bytes of the reference record and of the current record are among the stored
bytes. -/
def FastaInv (cap : Nat) (s : FastaState) : Prop :=
  (∀ b ∈ s.data, 32 ≤ cchar b) ∧ (∀ l ∈ s.labels, LabelOk l) ∧
    s.mapping = registerAll [] 0 s.labels ∧ s.count = s.labels.length ∧
    s.seqlen + s.curlen ≤ s.data.length ∧ s.data.length ≤ cap

/-- Rows of the matrix of an alignment. -/
def Alignment.rowList (a : Alignment) : List (List Nat) := chunksOf a.cols a.rows a.data

/-- Where a line of a row wrapped at width `w` starts: the line is empty or starts at a
column of the row that is a multiple of `w`. -/
def LineOf (w : Nat) (row line : List Nat) : Prop :=
  (∀ b ∈ line, b ∈ row) ∧ line.length ≤ w ∧
    (line = [] ∨ ∃ k, w * k < row.length ∧ line.getD 0 0 = row.getD (w * k) 0)

/-- Data lines of a SELEX file: the lines without the comment lines. -/
def dataLines : List SelexLine → List SelexLine
  | [] => []
  | SelexLine.comment _ :: ls => dataLines ls
  | SelexLine.data f s :: ls => SelexLine.data f s :: dataLines ls

/-- A run of calls `count += parseLabel(labels, mapping, line, length)`, one for each
buffer and length of the list, from the state `(labels, mapping, count)`. -/
def parseLabelCalls : List ((Nat → Nat) × Nat) → List (List Nat) × Registry × Nat →
    List (List Nat) × Registry × Nat
  | [], st => st
  | c :: cs, st =>
      let r := parseLabel st.1 st.2.1 c.1 c.2
      parseLabelCalls cs (r.1, r.2.1, st.2.2 + r.2.2)

/-- Consistency of a registry with the label list and the count: under every key the
registry holds the positions of the labels with that key (nothing when there is none, a
bare index when there is one, the list otherwise); these positions are in strictly
increasing order and are exactly the positions of the labels with that key; the count
is the number of labels. -/
def RegistryConsistent (labels : List (List Nat)) (mapping : Registry) (count : Nat) : Prop :=
  (∀ k, registryFind mapping k = entryOf (keyPositions k labels 0)) ∧
  (∀ k, (keyPositions k labels 0).Pairwise (fun a b => a < b)) ∧
  (∀ k i, i ∈ keyPositions k labels 0 ↔ ∃ l, labels[i]? = some l ∧ keyOfLabel l = k) ∧
  count = labels.length

/-- Numbers of sequence bytes that `parseFasta` copies from the stretches of lines that
the header lines delimit: first the lines before the first header line, then one entry
for each header line (the lines after it up to the next header line); `cur` counts the
bytes of the current stretch. -/
def fastaRecordSizes : List (List Nat) → Nat → List Nat
  | [], cur => [cur]
  | c :: cs, cur =>
      if cchar (c.getD 0 0) = 62 then cur :: fastaRecordSizes cs 0
      else fastaRecordSizes cs (cur + (seqBytes c).length)

/-- A label right-padded with spaces to `w - 1` bytes: the label field that
`parseSelex` reads back from a line that `writeSelex` wrote at field width `w`. -/
def padField (w : Nat) (label : List Nat) : List Nat :=
  label ++ List.replicate (w - 1 - label.length) 32

/-- Lines of the SELEX text of a matrix of rows of `L` bytes at field width `w`: for
each label a data line made of the padded label, a space and the row. -/
def selexRowLines (w L : Nat) : List (List Nat) → List Nat → List SelexLine
  | [], _ => []
  | label :: rest, seq =>
      SelexLine.data (padField w label) (seq.take L) :: selexRowLines w L rest (seq.drop L)

/-- Label field of a line of `writeSelex` at field width `w`: the first `w` bytes of a
label longer than `w`, and a shorter label padded with spaces to `w` bytes. -/
def selexField (w : Nat) (label : List Nat) : List Nat :=
  if w < label.length then label.take w else label ++ List.replicate (w - label.length) 32

/-- Text of the rows with labels cut or padded to the field width: for each row the
label field, the row bytes, a newline. -/
def selexRowsCut (w L : Nat) : List (List Nat) → List Nat → List Nat
  | [], _ => []
  | label :: rest, seq =>
      selexField w label ++ seq.take L ++ [10] ++ selexRowsCut w L rest (seq.drop L)

/-- Sequence bytes that `parseFasta` copies from the stretches of lines that the header
lines delimit: first the lines before the first header line, then one entry for each
header line (the record of that header); `cur` holds the bytes of the current
stretch. -/
def fastaRecordBytes : List (List Nat) → List Nat → List (List Nat)
  | [], cur => [cur]
  | c :: cs, cur =>
      if cchar (c.getD 0 0) = 62 then cur :: fastaRecordBytes cs []
      else fastaRecordBytes cs (cur ++ seqBytes c)

/-- Labels of the header lines of a file, in the order of the lines. -/
def fastaHeaders : List (List Nat) → List (List Nat)
  | [] => []
  | c :: cs =>
      if cchar (c.getD 0 0) = 62 then headerLabel c :: fastaHeaders cs else fastaHeaders cs

instance (l : List Nat) : Decidable (LabelOk l) := by unfold LabelOk; infer_instance

instance (l : List Nat) : Decidable (LineOk l) := by unfold LineOk; infer_instance

instance (t : List Nat) : Decidable (CommentOk t) := by unfold CommentOk; infer_instance

instance (beg L : Nat) (f s : List Nat) : Decidable (DataOk beg L f s) := by
  unfold DataOk; infer_instance

instance (beg L : Nat) (l : SelexLine) : Decidable (SelexLineOk beg L l) := by
  cases l <;> unfold SelexLineOk <;> infer_instance

/-! ## Concrete inputs used below -/

/-- Line buffer that holds NUL bytes only. -/
def zeroBuf : Nat → Nat := fun _ => 0

/-- The file `>a`, `ACGT`, `>b`, `ACGG`. -/
def exPairFile : List Nat := [62, 97, 10, 65, 67, 71, 84, 10, 62, 98, 10, 65, 67, 71, 71, 10]

/-- What `parseFasta` returns on `exPairFile`. -/
def exPairParsed : Alignment :=
  { rows := 2, cols := 4, data := [65, 67, 71, 84, 65, 67, 71, 71], labels := [[97], [98]],
    mapping := [([97], Entry.index 0), ([98], Entry.index 1)], count := 2 }

/-- Two records `a` and `b` whose one sequence line is sixty `A` and a `>`. -/
def exWrapFile : List Nat :=
  [62, 97, 10] ++ List.replicate 60 65 ++ [62, 10] ++ [62, 98, 10] ++ List.replicate 60 65
    ++ [62, 10]

/-- What `parseFasta` returns on `exWrapFile`. -/
def exWrapParsed : Alignment :=
  { rows := 2, cols := 61,
    data := List.replicate 60 65 ++ [62] ++ List.replicate 60 65 ++ [62],
    labels := [[97], [98]], mapping := [([97], Entry.index 0), ([98], Entry.index 1)],
    count := 2 }

/-- What `writeFasta` writes for `exWrapParsed` at width 60. -/
def exWrapWritten : List Nat :=
  [62, 97, 10] ++ List.replicate 60 65 ++ [10, 62, 10] ++ [62, 98, 10] ++ List.replicate 60 65
    ++ [10, 62, 10]

/-- The file `>a`, `>b`, `AC`, `>c`, `AC`: the record `a` has no sequence line. -/
def exEmptyRecordFile : List Nat := [62, 97, 10, 62, 98, 10, 65, 67, 10, 62, 99, 10, 65, 67, 10]

/-- What `parseFasta` returns on `exEmptyRecordFile`: two rows and three labels. -/
def exEmptyRecordParsed : Alignment :=
  { rows := 2, cols := 2, data := [65, 67, 65, 67], labels := [[97], [98], [99]],
    mapping := [([97], Entry.index 0), ([98], Entry.index 1), ([99], Entry.index 2)],
    count := 3 }

/-- The file `>a`, `AC`, `>b`, `A`, `>c`, `AC`: the record `b`, whose header is line 3,
is one byte short. -/
def exUnevenFile : List Nat :=
  [62, 97, 10, 65, 67, 10, 62, 98, 10, 65, 10, 62, 99, 10, 65, 67, 10]

/-- The file `>seqA/1-2`, `AC`, `>x`, `AC`, `>seqA/3-4`, `AC`. -/
def exSharedFile : List Nat :=
  [62, 115, 101, 113, 65, 47, 49, 45, 50, 10, 65, 67, 10, 62, 120, 10, 65, 67, 10,
   62, 115, 101, 113, 65, 47, 51, 45, 52, 10, 65, 67, 10]

/-- What `parseFasta` returns on `exSharedFile`. -/
def exSharedParsed : Alignment :=
  { rows := 3, cols := 2, data := [65, 67, 65, 67, 65, 67],
    labels := [[115, 101, 113, 65, 47, 49, 45, 50], [120], [115, 101, 113, 65, 47, 51, 45, 52]],
    mapping := [([115, 101, 113, 65], Entry.group [0, 2]), ([120], Entry.index 1)],
    count := 3 }

/-- The SELEX file `a  AC`, `b   AC`: the second line has one space more. -/
def exShiftRightFile : List Nat := [97, 32, 32, 65, 67, 10, 98, 32, 32, 32, 65, 67, 10]

/-- The SELEX file `a  AC`, `b AC`: the second line has one space fewer. -/
def exShiftLeftFile : List Nat := [97, 32, 32, 65, 67, 10, 98, 32, 65, 67, 10]

/-- The SELEX file `# x`, `ab  ACGT`, `//`, `cd  TTTT`. -/
def exSelexFile : List Nat :=
  [35, 32, 120, 10, 97, 98, 32, 32, 65, 67, 71, 84, 10, 47, 47, 10,
   99, 100, 32, 32, 84, 84, 84, 84, 10]

/-- A SELEX file of one data line of 10002 bytes: `a`, a space, 9999 times `A`, newline. -/
def exLongLineFile : List Nat := 97 :: 32 :: (List.replicate 9998 65 ++ [65, 10])

/-- Buffer that holds the label `a-b/1-2`. -/
def exDashLabel : Nat → Nat := fun i => [97, 45, 98, 47, 49, 45, 50].getD i 0

/-- Buffer that holds the label `/1-2`. -/
def exSlashLabel : Nat → Nat := fun i => [47, 49, 45, 50].getD i 0

/-- Buffer that holds the label `seqA/1-2`. -/
def exRegionLabel : Nat → Nat := fun i => [115, 101, 113, 65, 47, 49, 45, 50].getD i 0

/-- Buffer that holds `a` and the two bytes 0xC3 0xA9 (the UTF-8 text `aé`). -/
def exHighLabel : Nat → Nat := fun i => [97, 195, 169].getD i 0

/-- The SELEX file `a AC`, `b GT`. -/
def exSelexPairFile : List Nat := [97, 32, 65, 67, 10, 98, 32, 71, 84, 10]

/-- The file `AC`, `>a`, `AC`: a sequence line comes before the first header. -/
def exLeadingFile : List Nat := [65, 67, 10, 62, 97, 10, 65, 67, 10]

/-- What `parseFasta` returns on `exLeadingFile`: two rows and one label. -/
def exLeadingParsed : Alignment :=
  { rows := 2, cols := 2, data := [65, 67, 65, 67], labels := [[97]],
    mapping := [([97], Entry.index 0)], count := 1 }

/-- The file `>a`, `>b`, `AC`, `>b`, `AG`: the record `a` has no sequence line, so the
two records `b` are the rows 0 and 1 of the matrix and the labels 1 and 2. -/
def exShiftedFile : List Nat := [62, 97, 10, 62, 98, 10, 65, 67, 10, 62, 98, 10, 65, 71, 10]

/-- What `parseFasta` returns on `exShiftedFile`. -/
def exShiftedParsed : Alignment :=
  { rows := 2, cols := 2, data := [65, 67, 65, 71], labels := [[97], [98], [98]],
    mapping := [([97], Entry.index 0), ([98], Entry.group [1, 2])], count := 3 }

/-- The SELEX file `ab  ACGT` followed by an empty line. -/
def exBlankFile : List Nat := [97, 98, 32, 32, 65, 67, 71, 84, 10, 10]

/-- The file `exBlankFile` with the comment line `#=GC foo` before the empty line. -/
def exBlankCommentFile : List Nat :=
  [97, 98, 32, 32, 65, 67, 71, 84, 10, 35, 61, 71, 67, 32, 102, 111, 111, 10, 10]

/-! ## Notions used for the comment lines of a SELEX file -/

/-- How a call ended, with the text of an error message left out: the result (seen
through `f`), a format error, or the same fault. -/
def Parsed.forget {α β : Type} (f : α → β) : Parsed α → Parsed β
  | Parsed.ok a => Parsed.ok (f a)
  | Parsed.ioError _ => Parsed.ioError []
  | Parsed.fault e => Parsed.fault e

/-- What the second loop of `parseSelex` has built: labels, registry, count and stored
bytes (the line counter left out). -/
def SelexState.result (s : SelexState) : List (List Nat) × Registry × Nat × List Nat :=
  (s.labels, s.mapping, s.count, s.data)

/-- Bytes of a file given as a list of lines, each ended by a newline. -/
def textOfLines (ls : List (List Nat)) : List Nat := (ls.map (fun l => l ++ [10])).flatten

/-- A line that `parseSelex` does not skip: its first byte, the newline if the line is
empty, is none of `#`, `/`, `%`. -/
def isDataLine (l : List Nat) : Bool := !isSelexComment ((l ++ [10]).getD 0 0)

/-- Column geometry that the first loop of `parseSelex` derives from the line `d` when
it is the first data line (computed here in a zeroed line buffer). -/
def selexColumns (d : List Nat) : SelexGeom :=
  selexGeometry (SELEXLINELEN + 1) [d ++ [10]] zeroBuf 0 0

/-! ## Outcomes -/

@[simp] theorem Parsed.andThen_ok {α β : Type} (a : α) (f : α → Parsed β) :
    (Parsed.ok a).andThen f = f a := rfl

@[simp] theorem Parsed.andThen_ioError {α β : Type} (m : List Char) (f : α → Parsed β) :
    (Parsed.ioError m : Parsed α).andThen f = Parsed.ioError m := rfl

@[simp] theorem Parsed.andThen_fault {α β : Type} (e : Fault) (f : α → Parsed β) :
    (Parsed.fault e : Parsed α).andThen f = Parsed.fault e := rfl

/-! ## Buffers and the label scan -/

theorem bytesOf_zero (p : Nat → Nat) : bytesOf p 0 = [] := rfl

theorem bytesOf_succ (p : Nat → Nat) (n : Nat) :
    bytesOf p (n + 1) = p 0 :: bytesOf (fun k => p (k + 1)) n := by
  simp [bytesOf, List.range_succ_eq_map, List.map_map, Function.comp_def]

theorem length_bytesOf (p : Nat → Nat) (n : Nat) : (bytesOf p n).length = n := by
  simp [bytesOf]

theorem seg_zero (p : Nat → Nat) (i : Nat) : seg p i 0 = [] := rfl

theorem seg_succ (p : Nat → Nat) (i n : Nat) : seg p i (n + 1) = p i :: seg p (i + 1) n := by
  simp only [seg, bytesOf_succ, Nat.add_zero]
  congr 2
  funext k
  congr 1
  omega

theorem length_seg (p : Nat → Nat) (i n : Nat) : (seg p i n).length = n := by
  simp [seg, length_bytesOf]

theorem bytesOf_eq_seg (p : Nat → Nat) (n : Nat) : bytesOf p n = seg p 0 n := by
  simp [seg]

theorem seg_add (p : Nat → Nat) (i m n : Nat) :
    seg p i (m + n) = seg p i m ++ seg p (i + m) n := by
  induction m generalizing i with
  | zero => simp [seg_zero]
  | succ m ih =>
    rw [show m + 1 + n = (m + n) + 1 by omega, seg_succ, seg_succ, ih]
    simp only [List.cons_append]
    congr 3
    omega

theorem take_seg (p : Nat → Nat) (i m n : Nat) (h : m ≤ n) : (seg p i n).take m = seg p i m := by
  obtain ⟨k, rfl⟩ := Nat.exists_eq_add_of_le h
  rw [seg_add, List.take_append_of_le_length (by simp [length_seg]), List.take_of_length_le (by simp [length_seg])]

theorem cchar_eq_iff (b c : Nat) (hb : b < 256) (hc : c < 128) : cchar b = (c : Int) ↔ b = c := by
  unfold cchar
  split <;> omega

theorem labelRun_zero (p : Nat → Nat) (i : Nat) : labelRun p i 0 = [] := rfl

theorem labelRun_succ (p : Nat → Nat) (i n : Nat) :
    labelRun p i (n + 1) = if labelStop (p i) then [] else p i :: labelRun p (i + 1) n := by
  simp only [labelRun, seg_succ, List.takeWhile_cons]
  cases labelStop (p i) <;> simp

theorem labelScan_fst (p : Nat → Nat) (n i s d : Nat) :
    (labelScan p n i s d).1 = i + (labelRun p i n).length := by
  induction n generalizing i s d with
  | zero => simp [labelScan, labelRun_zero]
  | succ n ih =>
    simp only [labelScan, labelRun_succ, labelStop]
    by_cases h : cchar (p i) < 32 ∧ cchar (p i) ≠ 20
    · simp [h]
    · simp only [h, if_false, decide_False, Bool.false_eq_true]
      split
      · rw [ih]; simp; omega
      · split
        · rw [ih]; simp; omega
        · rw [ih]; simp; omega

theorem labelScan_dashed (p : Nat → Nat) (n i s d : Nat) (hd : 0 < d) :
    (labelScan p n i s d).2 = (s, d) := by
  induction n generalizing i with
  | zero => simp [labelScan]
  | succ n ih =>
    simp only [labelScan]
    have hd0 : ¬ d = 0 := by omega
    simp only [hd0, and_false, if_false]
    split
    · rfl
    · exact ih _

theorem labelScan_slashed (p : Nat → Nat) (hp : ∀ k, p k < 256) (n i s : Nat) (hs : 0 < s)
    (hi : 0 < i) :
    (labelScan p n i s 0).2 =
      (s, if 45 ∈ labelRun p i n then i + (labelRun p i n).indexOf 45 else 0) := by
  induction n generalizing i with
  | zero => simp [labelScan, labelRun_zero]
  | succ n ih =>
    simp only [labelScan, labelRun_succ, labelStop]
    have hs0 : ¬ s = 0 := by omega
    by_cases h : cchar (p i) < 32 ∧ cchar (p i) ≠ 20
    · simp [h]
    · simp only [h, if_false, decide_False, Bool.false_eq_true, hs0, false_and, and_false,
        hs, true_and, and_true]
      by_cases h45 : cchar (p i) = 45
      · have hb : p i = 45 := (cchar_eq_iff (p i) 45 (hp i) (by norm_num)).1 (by exact_mod_cast h45)
        simp only [h45, if_true]
        rw [labelScan_dashed p n (i + 1) s i hi]
        simp [hb]
      · have hb : p i ≠ 45 := fun e => h45 (by rw [e]; rfl)
        simp only [h45, if_false]
        rw [ih (i + 1) (by omega)]
        simp only [List.mem_cons, List.indexOf_cons_ne _ hb]
        have hb2 : ¬ (45 = p i) := fun e => hb e.symm
        simp only [hb2, false_or]
        split
        · congr 1; omega
        · rfl

theorem labelScan_fresh (p : Nat → Nat) (hp : ∀ k, p k < 256) (n i : Nat) (hi : 0 < i) :
    (labelScan p n i 0 0).2 =
      (if 47 ∈ labelRun p i n then i + (labelRun p i n).indexOf 47 else 0,
       if 47 ∈ labelRun p i n ∧ 45 ∈ (labelRun p i n).drop ((labelRun p i n).indexOf 47 + 1)
       then i + (labelRun p i n).indexOf 47 + 1 +
          ((labelRun p i n).drop ((labelRun p i n).indexOf 47 + 1)).indexOf 45
       else 0) := by
  induction n generalizing i with
  | zero => simp [labelScan, labelRun_zero]
  | succ n ih =>
    simp only [labelScan, labelRun_succ, labelStop]
    by_cases h : cchar (p i) < 32 ∧ cchar (p i) ≠ 20
    · simp [h]
    · simp only [h, if_false, decide_False, Bool.false_eq_true, and_self, and_true,
        lt_self_iff_false, false_and, and_false]
      by_cases h47 : cchar (p i) = 47
      · have hb : p i = 47 := (cchar_eq_iff (p i) 47 (hp i) (by norm_num)).1 (by exact_mod_cast h47)
        simp only [h47, if_true]
        rw [labelScan_slashed p hp n (i + 1) i hi (by omega)]
        simp only [hb, List.mem_cons, true_or, List.indexOf_cons_self, if_true, Nat.add_zero,
          zero_add, List.drop_succ_cons, List.drop_zero, true_and]
      · have hb : p i ≠ 47 := fun e => h47 (by rw [e]; rfl)
        have hb2 : ¬ (47 = p i) := fun e => hb e.symm
        simp only [h47, if_false]
        rw [ih (i + 1) (by omega)]
        simp only [List.mem_cons, List.indexOf_cons_ne _ hb, hb2, false_or, Nat.succ_eq_add_one,
          List.drop_succ_cons]
        congr 1
        · split
          · omega
          · rfl
        · split
          · omega
          · rfl

theorem takeWhile_eq_take_length {α : Type} (q : α → Bool) (l : List α) :
    l.takeWhile q = l.take (l.takeWhile q).length := by
  induction l with
  | nil => rfl
  | cons a l ih =>
    simp only [List.takeWhile_cons]
    split
    · simp only [List.length_cons, List.take_succ_cons]
      rw [← ih]
    · rfl

theorem length_takeWhile_le {α : Type} (q : α → Bool) (l : List α) :
    (l.takeWhile q).length ≤ l.length := by
  induction l with
  | nil => simp
  | cons a l ih =>
    simp only [List.takeWhile_cons]
    split <;> simp; omega

theorem length_labelRun_le (p : Nat → Nat) (i n : Nat) : (labelRun p i n).length ≤ n := by
  have := length_takeWhile_le (fun b => !labelStop b) (seg p i n)
  rw [length_seg] at this
  exact this

theorem labelRun_eq_seg (p : Nat → Nat) (i n : Nat) :
    labelRun p i n = seg p i (labelRun p i n).length := by
  have h := takeWhile_eq_take_length (fun b => !labelStop b) (seg p i n)
  have h2 := take_seg p i (labelRun p i n).length n (length_labelRun_le p i n)
  unfold labelRun at *
  rw [← h2, ← h]

theorem labelText_eq (p : Nat → Nat) (n : Nat) : labelText p n = labelRun p 0 n := by
  unfold labelText
  rw [labelScan_fst, Nat.zero_add, bytesOf_eq_seg, ← labelRun_eq_seg]

theorem bytesOf_eq_take_labelRun (p : Nat → Nat) (n s : Nat) (h : s ≤ (labelRun p 0 n).length) :
    bytesOf p s = (labelRun p 0 n).take s := by
  conv_rhs => rw [labelRun_eq_seg]
  rw [take_seg _ _ _ _ h, bytesOf_eq_seg]

theorem drop_indexOf_of_mem (a : Nat) (r : List Nat) (h : a ∈ r) :
    r.drop (r.indexOf a) = a :: r.drop (r.indexOf a + 1) := by
  induction r with
  | nil => simp at h
  | cons b r ih =>
    by_cases hb : b = a
    · subst hb; simp
    · have : a ∈ r := by
        rcases List.mem_cons.1 h with h | h
        · exact absurd h.symm hb
        · exact h
      rw [List.indexOf_cons_ne _ hb]
      simpa using ih this

/-- Registry key of `parseLabel` for a label that does not begin with `/`: the label is
cut before its first `/` exactly when a `-` follows that `/`. -/
theorem labelKey_eq (p : Nat → Nat) (hp : ∀ k, p k < 256) (n : Nat)
    (hfirst : (labelText p n).head? ≠ some 47) :
    labelKey p n =
      if 47 ∈ labelText p n ∧ 45 ∈ (labelText p n).drop ((labelText p n).indexOf 47)
      then (labelText p n).take ((labelText p n).indexOf 47) else labelText p n := by
  rw [labelText_eq] at hfirst ⊢
  cases n with
  | zero => simp [labelKey, labelScan, labelRun_zero, bytesOf_zero]
  | succ m =>
    rw [labelRun_succ] at hfirst ⊢
    by_cases hstop : labelStop (p 0) = true
    · have hs : cchar (p 0) < 32 ∧ cchar (p 0) ≠ 20 := by simpa [labelStop] using hstop
      simp [labelKey, labelScan, hstop, hs, bytesOf_zero]
    · have hs : ¬ (cchar (p 0) < 32 ∧ cchar (p 0) ≠ 20) := by simpa [labelStop] using hstop
      simp only [hstop, if_false, Bool.false_eq_true] at hfirst ⊢
      have hb : p 0 ≠ 47 := by simpa using hfirst
      have hb2 : ¬ (47 = p 0) := fun e => hb e.symm
      have h47 : ¬ cchar (p 0) = 47 := fun e =>
        hb ((cchar_eq_iff (p 0) 47 (hp 0) (by norm_num)).1 (by exact_mod_cast e))
      have hstep : labelScan p (m + 1) 0 0 0 = labelScan p m 1 0 0 := by
        simp [labelScan, hs, h47]
      have hsd := labelScan_fresh p hp m 1 (by norm_num)
      have hfst := labelScan_fst p m 1 0 0
      have hrun : labelRun p 0 (m + 1) = p 0 :: labelRun p 1 m := by
        rw [labelRun_succ]; simp [hstop]
      generalize hr : labelRun p 1 m = r at *
      unfold labelKey
      simp only [hstep]
      rw [show (labelScan p m 1 0 0).2.1 = _ from congrArg Prod.fst hsd,
        show (labelScan p m 1 0 0).2.2 = _ from congrArg Prod.snd hsd, hfst]
      simp only [List.mem_cons, hb2, false_or, List.indexOf_cons_ne _ hb, Nat.succ_eq_add_one,
        List.drop_succ_cons, List.take_succ_cons]
      by_cases hm : 47 ∈ r
      · have hlt : r.indexOf 47 < r.length := List.indexOf_lt_length.2 hm
        rw [drop_indexOf_of_mem 47 r hm]
        simp only [hm, if_true, true_and, List.mem_cons, show ¬ (45 = 47) by decide, false_or]
        by_cases hd : 45 ∈ r.drop (r.indexOf 47 + 1)
        · simp only [hd, if_true]
          rw [if_pos (by omega)]
          rw [bytesOf_eq_take_labelRun p (m + 1) _ (by rw [hrun]; simp; omega), hrun]
          rw [show 1 + List.indexOf 47 r = List.indexOf 47 r + 1 by omega, List.take_succ_cons]
        · simp only [hd, if_false]
          rw [if_neg (by omega)]
          rw [bytesOf_eq_take_labelRun p (m + 1) _ (by rw [hrun]; simp; omega), hrun]
          rw [show 1 + r.length = r.length + 1 by omega, List.take_succ_cons, List.take_length]
      · simp only [hm, if_false, false_and]
        rw [if_neg (by omega)]
        rw [bytesOf_eq_take_labelRun p (m + 1) _ (by rw [hrun]; simp; omega), hrun]
        rw [show 1 + r.length = r.length + 1 by omega, List.take_succ_cons, List.take_length]

/-! ## The writers -/

theorem cstr_eq_self (l : List Nat) (h : 0 ∉ l) : cstr l = l := by
  unfold cstr
  rw [List.takeWhile_eq_self_iff]
  intro x hx
  have : x ≠ 0 := fun e => h (e ▸ hx)
  simpa using this

theorem cstr_append_zero (l r : List Nat) (h : 0 ∉ l) : cstr (l ++ 0 :: r) = l := by
  unfold cstr
  rw [List.takeWhile_append_of_pos]
  · simp
  · intro x hx
    have : x ≠ 0 := fun e => h (e ▸ hx)
    simpa using this

theorem bytesOf_eq_of_getD (p : Nat → Nat) (l : List Nat)
    (h : ∀ i, i < l.length → p i = l.getD i 0) : bytesOf p l.length = l := by
  apply List.ext_getElem
  · simp [length_bytesOf]
  · intro n h1 h2
    simp only [bytesOf, List.getElem_map, List.getElem_range]
    rw [h n h2, List.getD_eq_getElem _ _ h2]

theorem getD_append_left (l r : List Nat) (i : Nat) (h : i < l.length) :
    (l ++ r).getD i 0 = l.getD i 0 := by
  rw [List.getD_eq_getElem _ _ (by simp; omega), List.getD_eq_getElem _ _ h,
    List.getElem_append_left h]

theorem getD_append_right (l r : List Nat) (i : Nat) (h : l.length ≤ i) :
    (l ++ r).getD i 0 = r.getD (i - l.length) 0 := by
  simp only [List.getD_eq_getElem?_getD]
  rw [List.getElem?_append_right h]

theorem getD_replicate (n i a : Nat) (h : i < n) : (List.replicate n a).getD i 0 = a := by
  rw [List.getD_eq_getElem _ _ (by simpa using h)]
  simp

/-- One pass of the row loop of `writeSelex` for a label that fits the field. -/
theorem selexOutline_line (w lenseq : Nat) (old : Nat → Nat) (label row : List Nat)
    (hL : 1 ≤ lenseq) (hlen : label.length ≤ w) (hlab : 0 ∉ label)
    (hrow : row.length = lenseq) (hrow0 : 0 ∉ row)
    (h1 : old (w + lenseq) = 10) (h2 : old (w + lenseq + 1) = 0) :
    cstr (bytesOf (selexOutline w lenseq old label row) (w + lenseq + 2))
        = label ++ List.replicate (w - label.length) 32 ++ row ++ [10]
      ∧ selexOutline w lenseq old label row (w + lenseq) = 10
      ∧ selexOutline w lenseq old label row (w + lenseq + 1) = 0 := by
  have hc : cstr label = label := cstr_eq_self label hlab
  refine ⟨?_, ?_, ?_⟩
  · have hb : bytesOf (selexOutline w lenseq old label row) (w + lenseq + 2)
        = (label ++ List.replicate (w - label.length) 32 ++ row ++ [10]) ++ 0 :: [] := by
      have hlen2 : (label ++ List.replicate (w - label.length) 32 ++ row ++ [10] ++ [0]).length
          = w + lenseq + 2 := by simp [hrow]; omega
      rw [← hlen2]
      apply bytesOf_eq_of_getD
      intro i hi
      rw [hlen2] at hi
      simp only [selexOutline, hc]
      by_cases c1 : w ≤ i ∧ i < w + lenseq
      · rw [if_pos c1]
        rw [getD_append_left _ _ _ (by simp [hrow]; omega),
          getD_append_left _ _ _ (by simp [hrow]; omega),
          getD_append_right _ _ _ (by simp; omega)]
        congr 1
        simp; omega
      · rw [if_neg c1]
        by_cases c2 : i < w
        · by_cases c3 : i < label.length
          · rw [if_neg (by omega), if_pos c3]
            rw [getD_append_left _ _ _ (by simp [hrow]; omega),
              getD_append_left _ _ _ (by simp [hrow]; omega),
              getD_append_left _ _ _ (by simp; omega),
              getD_append_left _ _ _ c3]
          · rw [if_pos (by omega)]
            rw [getD_append_left _ _ _ (by simp [hrow]; omega),
              getD_append_left _ _ _ (by simp [hrow]; omega),
              getD_append_left _ _ _ (by simp; omega),
              getD_append_right _ _ _ (by omega), getD_replicate _ _ _ (by omega)]
        · have c4 : w + lenseq ≤ i := by omega
          rw [if_neg (by omega), if_neg (by omega), if_neg (by omega)]
          by_cases c5 : i = w + lenseq
          · subst c5
            rw [h1, getD_append_left _ _ _ (by simp [hrow]; omega),
              getD_append_right _ _ _ (by simp [hrow]; omega)]
            have : w + lenseq - (label ++ List.replicate (w - label.length) 32 ++ row).length = 0 := by
              simp [hrow]; omega
            rw [this]; rfl
          · have c6 : i = w + lenseq + 1 := by omega
            subst c6
            rw [h2, getD_append_right _ _ _ (by simp [hrow]; omega)]
            have : w + lenseq + 1 - (label ++ List.replicate (w - label.length) 32 ++ row ++ [10]).length = 0 := by
              simp [hrow]; omega
            rw [this]; rfl
    rw [hb, cstr_append_zero]
    simp only [List.mem_append, List.mem_replicate, List.mem_singleton, not_or]
    refine ⟨⟨⟨hlab, ?_⟩, hrow0⟩, by decide⟩
    intro h; exact absurd h.2 (by decide)
  · simp only [selexOutline, hc]
    rw [if_neg (by omega), if_neg (by omega), if_neg (by omega), if_neg (by omega), h1]
  · simp only [selexOutline, hc]
    rw [if_neg (by omega), if_neg (by omega), if_neg (by omega), if_neg (by omega), h2]

theorem writeSelexRows_eq (w lenseq : Nat) (hL : 1 ≤ lenseq) (labels : List (List Nat))
    (seq : List Nat) (old : Nat → Nat)
    (hlab : ∀ l ∈ labels, l.length ≤ w ∧ 0 ∉ l)
    (hseq : seq.length = labels.length * lenseq) (hseq0 : 0 ∉ seq)
    (h1 : old (w + lenseq) = 10) (h2 : old (w + lenseq + 1) = 0) :
    writeSelexRows w lenseq labels seq old = Written.file (selexRowsSpec w lenseq labels seq) := by
  induction labels generalizing seq old with
  | nil => rfl
  | cons label rest ih =>
    have hl := hlab label (List.mem_cons_self _ _)
    have hc : cstr label = label := cstr_eq_self label hl.2
    have hlen : (seq.take lenseq).length = lenseq := by
      rw [List.length_take, hseq, List.length_cons, Nat.add_mul]; simp
    have h0 : 0 ∉ seq.take lenseq := fun h => hseq0 (List.mem_of_mem_take h)
    obtain ⟨e1, e2, e3⟩ := selexOutline_line w lenseq old label (seq.take lenseq) hL hl.1 hl.2
      hlen h0 h1 h2
    simp only [writeSelexRows, hc]
    rw [if_neg (by omega)]
    rw [ih (seq.drop lenseq) _ (fun l hl => hlab l (List.mem_cons_of_mem _ hl))
      (by rw [List.length_drop, hseq, List.length_cons, Nat.add_mul]; simp)
      (fun h => hseq0 (List.mem_of_mem_drop h)) e2 e3]
    simp only [e1, selexRowsSpec, Written.wrap, List.append_nil]

theorem length_selexRowsSpec (w lenseq : Nat) (labels : List (List Nat)) (seq : List Nat)
    (hlab : ∀ l ∈ labels, l.length ≤ w) (hseq : seq.length = labels.length * lenseq) :
    (selexRowsSpec w lenseq labels seq).length = labels.length * (w + lenseq + 1) := by
  induction labels generalizing seq with
  | nil => simp [selexRowsSpec]
  | cons label rest ih =>
    have hl := hlab label (List.mem_cons_self _ _)
    have hlen : (seq.take lenseq).length = lenseq := by
      rw [List.length_take, hseq, List.length_cons, Nat.add_mul]; simp
    simp only [selexRowsSpec, List.length_append, List.length_replicate, hlen, List.length_cons,
      List.length_nil]
    rw [ih (seq.drop lenseq) (fun l hl => hlab l (List.mem_cons_of_mem _ hl))
      (by rw [List.length_drop, hseq, List.length_cons, Nat.add_mul]; simp)]
    rw [Nat.add_mul]
    omega

theorem getD_eq_head_drop (l : List Nat) (i : Nat) (h : i < l.length) :
    l.drop i = l.getD i 0 :: l.drop (i + 1) := by
  rw [List.getD_eq_getElem _ _ h]
  exact List.drop_eq_getElem_cons h

theorem emitChars_eq (seq : List Nat) (lenmsa n count : Nat) (h1 : count + n ≤ lenmsa)
    (h2 : lenmsa ≤ seq.length) :
    emitChars seq lenmsa n count = ((seq.drop count).take n, count + n) := by
  induction n generalizing count with
  | zero => simp [emitChars]
  | succ n ih =>
    simp only [emitChars]
    rw [if_pos (by omega), ih (count + 1) (by omega)]
    rw [getD_eq_head_drop seq count (by omega)]
    simp only [List.take_succ_cons]
    congr 1
    omega

theorem emitLines_eq (seq : List Nat) (lenmsa q count : Nat) (h1 : count + 60 * q ≤ lenmsa)
    (h2 : lenmsa ≤ seq.length) :
    emitLines seq lenmsa q count
      = (((chunksOf 60 q (seq.drop count)).map (fun l => l ++ [10])).flatten, count + 60 * q) := by
  induction q generalizing count with
  | zero => simp [emitLines, chunksOf]
  | succ q ih =>
    simp only [emitLines, chunksOf]
    rw [emitChars_eq seq lenmsa 60 count (by omega) h2]
    simp only
    rw [ih (count + 60) (by omega)]
    simp only [List.map_cons, List.flatten_cons, List.drop_drop, List.append_assoc]
    congr 1
    omega

theorem chunksOf_take (w q L : Nat) (x : List Nat) (h : w * q ≤ L) :
    chunksOf w q (x.take L) = chunksOf w q x := by
  induction q generalizing x L with
  | zero => rfl
  | succ q ih =>
    simp only [chunksOf]
    have hw : w ≤ L := by
      calc w ≤ w * (q + 1) := Nat.le_mul_of_pos_right _ (by omega)
        _ ≤ L := h
    rw [List.take_take, Nat.min_eq_left hw]
    congr 1
    rw [List.drop_take, ih (L - w) (x.drop w) (by rw [Nat.mul_succ] at h; omega)]

/-- At wrap width 60 the row loop of `writeFasta` prints the specified records. -/
theorem writeFastaRows_sixty (lenseq : Nat) (labels : List (List Nat)) (seq : List Nat)
    (lenmsa count : Nat) (hlab : ∀ l ∈ labels, 0 ∉ l)
    (h1 : count + labels.length * lenseq ≤ lenmsa) (h2 : lenmsa ≤ seq.length) :
    writeFastaRows seq lenmsa (lenseq / 60) (lenseq - 60 * (lenseq / 60)) labels count
      = fastaText (fastaRecordsSpec 60 lenseq labels (seq.drop count)) := by
  induction labels generalizing count with
  | nil => rfl
  | cons label rest ih =>
    have hc : cstr label = label := cstr_eq_self label (hlab label (List.mem_cons_self _ _))
    have hq : 60 * (lenseq / 60) ≤ lenseq := Nat.mul_div_le lenseq 60
    have hN : count + lenseq + rest.length * lenseq ≤ lenmsa := by
      rw [List.length_cons, Nat.add_mul] at h1; omega
    have hlen : ((seq.drop count).take lenseq).length = lenseq := by
      rw [List.length_take, List.length_drop]; omega
    simp only [writeFastaRows, hc]
    rw [emitLines_eq seq lenmsa (lenseq / 60) count (by omega) h2]
    simp only
    rw [emitChars_eq seq lenmsa _ _ (by omega) h2]
    simp only
    rw [ih _ (fun l hl => hlab l (List.mem_cons_of_mem _ hl)) (by omega)]
    simp only [fastaRecordsSpec, fastaText, List.map_cons, List.flatten_cons, recordText,
      fastaRowLines, hlen, List.map_append, List.flatten_append, List.flatten_nil,
      List.append_nil, List.append_assoc, List.drop_drop, List.map_nil, List.cons_append,
      List.nil_append, List.singleton_append]
    rw [chunksOf_take 60 (lenseq / 60) lenseq _ hq]
    rw [List.drop_take, List.drop_drop,
      show count + 60 * (lenseq / 60) + (lenseq - 60 * (lenseq / 60)) = count + lenseq by omega]

theorem cstr_length_ge (data tail : List Nat) (h : 0 ∉ data) :
    data.length ≤ (cstr (data ++ tail)).length := by
  unfold cstr
  rw [List.takeWhile_append_of_pos]
  · simp
  · intro x hx
    have : x ≠ 0 := fun e => h (e ▸ hx)
    simpa using this

theorem cstr_length_le (l : List Nat) : (cstr l).length ≤ l.length :=
  length_takeWhile_le _ l

/-- `writeFasta` at the default width of 60 on a matrix without NUL bytes. -/
theorem writeFasta_sixty (labels : List (List Nat)) (numseq lenseq : Nat) (data tail : List Nat)
    (hn : numseq = labels.length) (hlab : ∀ l ∈ labels, 0 ∉ l)
    (hdata : data.length = numseq * lenseq) (h0 : 0 ∉ data) :
    writeFasta labels numseq lenseq (data ++ tail) 60
      = Written.file (fastaText (fastaRecordsSpec 60 lenseq labels (data ++ tail))) := by
  unfold writeFasta
  rw [if_neg (by omega), if_neg (by norm_num)]
  simp only
  rw [writeFastaRows_sixty lenseq labels (data ++ tail) _ 0 hlab
    (by have := cstr_length_ge data tail h0; rw [hn] at hdata; omega) (cstr_length_le _)]
  rfl

/-! ## The registry -/

theorem labelScan_congr (p q : Nat → Nat) (n i s d : Nat)
    (h : ∀ j, i ≤ j → j < i + (labelRun p i n).length → q j = p j) :
    labelScan q (labelRun p i n).length i s d = labelScan p n i s d := by
  induction n generalizing i s d with
  | zero => simp [labelRun_zero, labelScan]
  | succ n ih =>
    rw [labelRun_succ] at h ⊢
    by_cases hstop : labelStop (p i) = true
    · have hs : cchar (p i) < 32 ∧ cchar (p i) ≠ 20 := by simpa [labelStop] using hstop
      simp [hstop, labelScan, hs]
    · have hs : ¬ (cchar (p i) < 32 ∧ cchar (p i) ≠ 20) := by simpa [labelStop] using hstop
      simp only [hstop, if_false, Bool.false_eq_true, List.length_cons] at h ⊢
      have hq : q i = p i := h i (le_refl _) (by omega)
      have ih2 : ∀ s d, labelScan q (labelRun p (i + 1) n).length (i + 1) s d
          = labelScan p n (i + 1) s d :=
        fun s d => ih (i + 1) s d (fun j h1 h2 => h j (by omega) (by omega))
      simp only [labelScan, hq, hs, if_false, ih2]

theorem labelScan_slash_le (p : Nat → Nat) (n i s d : Nat) (h : s ≤ i) :
    (labelScan p n i s d).2.1 ≤ (labelScan p n i s d).1 := by
  induction n generalizing i s d with
  | zero => simpa [labelScan] using h
  | succ n ih =>
    simp only [labelScan]
    split
    · exact h
    · split
      · exact ih _ _ _ (by omega)
      · split
        · exact ih _ _ _ (by omega)
        · exact ih _ _ _ (by omega)

theorem bytesOf_congr (p q : Nat → Nat) (m : Nat) (h : ∀ j, j < m → p j = q j) :
    bytesOf p m = bytesOf q m := by
  unfold bytesOf
  apply List.map_congr_left
  intro j hj
  exact h j (List.mem_range.1 hj)

theorem seg_getD (p : Nat → Nat) (e j : Nat) (h : j < e) : (seg p 0 e).getD j 0 = p j := by
  rw [List.getD_eq_getElem _ _ (by simpa [length_seg] using h)]
  simp [seg, bytesOf]

theorem labelText_getD (p : Nat → Nat) (n j : Nat) (h : j < (labelText p n).length) :
    (labelText p n).getD j 0 = p j := by
  rw [labelText_eq] at h ⊢
  rw [labelRun_eq_seg]
  rw [labelRun_eq_seg, length_seg] at h
  exact seg_getD p _ j h

/-- The registry key depends on the label text only. -/
theorem labelKey_eq_keyOfLabel (p : Nat → Nat) (n : Nat) :
    labelKey p n = keyOfLabel (labelText p n) := by
  have hlen : (labelText p n).length = (labelRun p 0 n).length := by rw [labelText_eq]
  have hagree : ∀ j, j < (labelRun p 0 n).length → (fun i => (labelText p n).getD i 0) j = p j :=
    fun j hj => labelText_getD p n j (by rw [hlen]; exact hj)
  have hscan := labelScan_congr p (fun i => (labelText p n).getD i 0) n 0 0 0
    (fun j _ h2 => hagree j (by omega))
  have hfst := labelScan_fst p n 0 0 0
  have hsl := labelScan_slash_le p n 0 0 0 (le_refl _)
  unfold keyOfLabel labelKey
  rw [hlen, hscan]
  simp only
  rw [hfst] at hsl ⊢
  split
  · exact (bytesOf_congr _ _ _ (fun j hj => hagree j (by omega))).symm
  · exact (bytesOf_congr _ _ _ (fun j hj => hagree j (by omega))).symm

theorem parseLabel_eq (labels : List (List Nat)) (mapping : Registry) (p : Nat → Nat) (n : Nat) :
    parseLabel labels mapping p n
      = (labels ++ [labelText p n],
         registryAdd mapping (keyOfLabel (labelText p n)) labels.length, 1) := by
  unfold parseLabel
  rw [labelKey_eq_keyOfLabel]

theorem registryFind_add (m : Registry) (key : List Nat) (idx : Nat) (k : List Nat) :
    registryFind (registryAdd m key idx) k =
      if key = k then
        some (match registryFind m key with
              | none => Entry.index idx
              | some (Entry.index i) => Entry.group [i, idx]
              | some (Entry.group l) => Entry.group (l ++ [idx]))
      else registryFind m k := by
  induction m with
  | nil =>
    simp only [registryAdd, registryFind]
  | cons a m ih =>
    obtain ⟨k0, e⟩ := a
    simp only [registryAdd]
    by_cases h0 : k0 = key
    · subst h0
      simp only [if_true, registryFind]
      by_cases h1 : k0 = k
      · simp only [h1, if_true]
        cases e <;> rfl
      · simp only [h1, if_false]
    · simp only [h0, if_false, registryFind]
      by_cases h1 : k0 = k
      · have h2 : ¬ key = k := fun e => h0 (h1.trans e.symm)
        simp only [h1, if_true, h2, if_false]
      · simp only [h1, if_false, ih]

theorem keyPositions_append (k : List Nat) (ls : List (List Nat)) (l : List Nat) (i : Nat) :
    keyPositions k (ls ++ [l]) i =
      keyPositions k ls i ++ (if keyOfLabel l = k then [i + ls.length] else []) := by
  induction ls generalizing i with
  | nil =>
    simp only [List.nil_append, keyPositions, List.length_nil, Nat.add_zero]
  | cons a ls ih =>
    have : i + 1 + ls.length = i + (ls.length + 1) := by omega
    simp only [List.cons_append, keyPositions, List.length_cons]
    split
    · rw [List.append_eq, ih (i + 1), this]; simp
    · rw [List.append_eq, ih (i + 1), this]

theorem entryOf_snoc (ps : List Nat) (n : Nat) :
    entryOf (ps ++ [n]) =
      some (match entryOf ps with
            | none => Entry.index n
            | some (Entry.index i) => Entry.group [i, n]
            | some (Entry.group l) => Entry.group (l ++ [n])) := by
  match ps with
  | [] => rfl
  | [i] => rfl
  | i :: j :: l => rfl

theorem registryOk_nil : RegistryOk [] [] := fun _ => rfl

theorem registryOk_add (labels : List (List Nat)) (mapping : Registry) (l : List Nat)
    (h : RegistryOk labels mapping) :
    RegistryOk (labels ++ [l]) (registryAdd mapping (keyOfLabel l) labels.length) := by
  intro k
  rw [registryFind_add, keyPositions_append]
  by_cases hk : keyOfLabel l = k
  · simp only [hk, if_true, Nat.zero_add]
    rw [entryOf_snoc, ← h k]
  · simp only [hk, if_false, List.append_nil]
    exact h k

theorem registryOk_parseLabel (labels : List (List Nat)) (mapping : Registry) (p : Nat → Nat)
    (n : Nat) (h : RegistryOk labels mapping) :
    RegistryOk (parseLabel labels mapping p n).1 (parseLabel labels mapping p n).2.1 := by
  rw [parseLabel_eq]
  exact registryOk_add labels mapping _ h

theorem mem_keyPositions (k : List Nat) (ls : List (List Nat)) (i m : Nat) :
    m ∈ keyPositions k ls i ↔ ∃ j, ∃ h : j < ls.length, m = i + j ∧ keyOfLabel (ls.get ⟨j, h⟩) = k := by
  induction ls generalizing i with
  | nil => simp [keyPositions]
  | cons a ls ih =>
    simp only [keyPositions]
    constructor
    · intro hm
      by_cases ha : keyOfLabel a = k
      · simp only [ha, if_true, List.mem_cons] at hm
        rcases hm with rfl | hm
        · exact ⟨0, by simp, rfl, ha⟩
        · obtain ⟨j, hj, e1, e2⟩ := (ih (i + 1)).1 hm
          exact ⟨j + 1, by simp; omega, by omega, by simpa using e2⟩
      · simp only [ha, if_false] at hm
        obtain ⟨j, hj, e1, e2⟩ := (ih (i + 1)).1 hm
        exact ⟨j + 1, by simp; omega, by omega, by simpa using e2⟩
    · rintro ⟨j, hj, e1, e2⟩
      cases j with
      | zero =>
        have ha : keyOfLabel a = k := by simpa using e2
        simp [ha, e1]
      | succ j =>
        have hm : m ∈ keyPositions k ls (i + 1) :=
          (ih (i + 1)).2 ⟨j, by simpa using hj, by omega, by simpa using e2⟩
        split
        · exact List.mem_cons_of_mem _ hm
        · exact hm

/-! ## Lines and the line buffer -/

theorem fgetsAll_line (size : Nat) (l rest cur : List Nat) (h10 : 10 ∉ l)
    (hlen : cur.length + l.length + 2 ≤ size) :
    fgetsAll size (l ++ 10 :: rest) cur = (cur ++ l ++ [10]) :: fgetsAll size rest [] := by
  induction l generalizing cur with
  | nil => simp [fgetsAll]
  | cons b l ih =>
    have hb : b ≠ 10 := fun e => h10 (e ▸ List.mem_cons_self _ _)
    have hl : 10 ∉ l := fun h => h10 (List.mem_cons_of_mem _ h)
    simp only [List.length_cons] at hlen
    simp only [List.cons_append, fgetsAll, List.append_eq]
    rw [if_neg (by omega)]
    rw [ih (cur ++ [b]) hl (by simp; omega)]
    simp

theorem fgetsAll_full (size : Nat) (l rest cur : List Nat) (h10 : 10 ∉ l) (hl : l ≠ [])
    (hlen : cur.length + l.length + 1 = size) :
    fgetsAll size (l ++ rest) cur = (cur ++ l) :: fgetsAll size rest [] := by
  induction l generalizing cur with
  | nil => exact absurd rfl hl
  | cons b l ih =>
    have hb : b ≠ 10 := fun e => h10 (e ▸ List.mem_cons_self _ _)
    have hl2 : 10 ∉ l := fun h => h10 (List.mem_cons_of_mem _ h)
    simp only [List.length_cons] at hlen
    simp only [List.cons_append, fgetsAll, List.append_eq]
    cases l with
    | nil =>
      simp only [List.length_nil] at hlen
      rw [if_pos (Or.inr (by omega))]
      simp
    | cons b2 l2 =>
      simp only [List.length_cons] at hlen
      rw [if_neg (by omega)]
      rw [ih (cur ++ [b]) hl2 (by simp) (by simp; omega)]
      simp

theorem fgetsAll_chunk (size : Nat) (file cur c : List Nat) (hcur : cur.length + 2 ≤ size)
    (hc : c ∈ fgetsAll size file cur) :
    c ≠ [] ∧ c.length + 1 ≤ size ∧ ∀ b ∈ c, b ∈ cur ∨ b ∈ file := by
  induction file generalizing cur with
  | nil =>
    simp only [fgetsAll] at hc
    by_cases he : cur.isEmpty = true
    · simp [he] at hc
    · simp only [he, if_false, List.mem_singleton, Bool.false_eq_true] at hc
      subst hc
      refine ⟨fun e => he (by simp [e]), by omega, fun b hb => Or.inl hb⟩
  | cons b rest ih =>
    simp only [fgetsAll] at hc
    by_cases hbr : b = 10 ∨ cur.length + 2 = size
    · rw [if_pos hbr] at hc
      rcases List.mem_cons.1 hc with rfl | hc
      · refine ⟨by simp, by simp; omega, fun x hx => ?_⟩
        rcases List.mem_append.1 hx with h | h
        · exact Or.inl h
        · exact Or.inr (by simp at h; simp [h])
      · obtain ⟨h1, h2, h3⟩ := ih [] (by simp; omega) hc
        refine ⟨h1, h2, fun x hx => ?_⟩
        rcases h3 x hx with h | h
        · simp at h
        · exact Or.inr (List.mem_cons_of_mem _ h)
    · rw [if_neg hbr] at hc
      obtain ⟨h1, h2, h3⟩ := ih (cur ++ [b]) (by simp; omega) hc
      refine ⟨h1, h2, fun x hx => ?_⟩
      rcases h3 x hx with h | h
      · rcases List.mem_append.1 h with h | h
        · exact Or.inl h
        · exact Or.inr (by simp at h; simp [h])
      · exact Or.inr (List.mem_cons_of_mem _ h)

theorem fgetsAll_starts (size : Nat) (file cur : List Nat) (hcur : cur ≠ []) :
    ∃ c cs t, fgetsAll size file cur = c :: cs ∧ c = cur ++ t := by
  induction file generalizing cur with
  | nil =>
    refine ⟨cur, [], [], ?_, by simp⟩
    simp only [fgetsAll]
    rw [if_neg]
    simpa using hcur
  | cons b rest ih =>
    simp only [fgetsAll]
    by_cases hbr : b = 10 ∨ cur.length + 2 = size
    · rw [if_pos hbr]
      exact ⟨_, _, [b], rfl, rfl⟩
    · rw [if_neg hbr]
      obtain ⟨c, cs, t, e, hp⟩ := ih (cur ++ [b]) (by simp)
      exact ⟨c, cs, [b] ++ t, e, by rw [hp]; simp⟩

theorem fgetsAll_head (size : Nat) (b : Nat) (rest : List Nat) :
    ∃ c cs, fgetsAll size (b :: rest) [] = c :: cs ∧ c.getD 0 0 = b := by
  simp only [fgetsAll]
  by_cases hbr : b = 10 ∨ ([] : List Nat).length + 2 = size
  · rw [if_pos hbr]
    exact ⟨_, _, rfl, rfl⟩
  · rw [if_neg hbr]
    obtain ⟨c, cs, t, e, hp⟩ := fgetsAll_starts size rest ([] ++ [b]) (by simp)
    refine ⟨c, cs, e, ?_⟩
    rw [hp]
    rfl

theorem fgetsStore_lt (old : Nat → Nat) (c : List Nat) (i : Nat) (h : i < c.length) :
    fgetsStore old c i = c.getD i 0 := by
  simp [fgetsStore, h]

theorem fgetsStore_length (old : Nat → Nat) (c : List Nat) : fgetsStore old c c.length = 0 := by
  simp [fgetsStore]

theorem seg_fgetsStore (old : Nat → Nat) (c : List Nat) :
    seg (fgetsStore old c) 0 (c.length + 1) = c ++ [0] := by
  have h := bytesOf_eq_of_getD (fgetsStore old c) (c ++ [0]) (by
    intro i hi
    simp only [List.length_append, List.length_singleton] at hi
    by_cases h : i < c.length
    · rw [fgetsStore_lt _ _ _ h, getD_append_left _ _ _ h]
    · have : i = c.length := by omega
      subst this
      rw [fgetsStore_length, getD_append_right _ _ _ (le_refl _)]
      simp)
  simpa [bytesOf_eq_seg] using h

theorem seg_drop (p : Nat → Nat) (i n : Nat) : seg p i n = (seg p 0 (i + n)).drop i := by
  rw [seg_add p 0 i n, List.drop_append_of_le_length (by simp [length_seg]),
    List.drop_of_length_le (by simp [length_seg])]
  simp

theorem seg_shift (p : Nat → Nat) (i n : Nat) : seg (fun k => p (k + 1)) i n = seg p (i + 1) n := by
  unfold seg bytesOf
  apply List.map_congr_left
  intro k _
  show p (i + k + 1) = p (i + 1 + k)
  congr 1
  omega

theorem takeWhile_append_stop {α : Type} (q : α → Bool) (l r : List α) (a : α) (h : q a = false) :
    (l ++ a :: r).takeWhile q = l.takeWhile q := by
  induction l with
  | nil => simp [List.takeWhile_cons, h]
  | cons b l ih =>
    simp only [List.cons_append, List.takeWhile_cons, ih]

/-- A scan of the stored line that stops at NUL sees the line only. -/
theorem takeWhile_seg_fgetsStore (q : Nat → Bool) (hq : q 0 = false) (old : Nat → Nat)
    (c : List Nat) (i n : Nat) (hi : i ≤ c.length) (hn : c.length < i + n) :
    (seg (fgetsStore old c) i n).takeWhile q = (c.drop i).takeWhile q := by
  have h1 : seg (fgetsStore old c) i n
      = seg (fgetsStore old c) i (c.length + 1 - i) ++ seg (fgetsStore old c) (c.length + 1)
          (i + n - (c.length + 1)) := by
    have h := seg_add (fgetsStore old c) i (c.length + 1 - i) (i + n - (c.length + 1))
    rw [show c.length + 1 - i + (i + n - (c.length + 1)) = n by omega,
      show i + (c.length + 1 - i) = c.length + 1 by omega] at h
    exact h
  have h2 : seg (fgetsStore old c) i (c.length + 1 - i) = c.drop i ++ [0] := by
    rw [seg_drop, show i + (c.length + 1 - i) = c.length + 1 by omega, seg_fgetsStore,
      List.drop_append_of_le_length hi]
  rw [h1, h2, List.append_assoc, List.singleton_append, takeWhile_append_stop q _ _ 0 hq]

theorem fastaCopy_eq (p : Nat → Nat) (n i : Nat) :
    fastaCopy p n i = (seg p i n).takeWhile (fun b => decide (32 ≤ cchar b)) := by
  induction n generalizing i with
  | zero => rfl
  | succ n ih =>
    simp only [fastaCopy, seg_succ, List.takeWhile_cons, ih]
    by_cases h : cchar (p i) < 32
    · have h2 : ¬ 32 ≤ cchar (p i) := by omega
      simp [h, h2]
    · have h2 : 32 ≤ cchar (p i) := by omega
      simp [h, h2]

theorem labelText_fgetsStore (old : Nat → Nat) (c : List Nat) (hc : c ≠ [])
    (hlen : c.length < FASTALINELEN) :
    labelText (fun i => fgetsStore old c (i + 1)) FASTALINELEN = headerLabel c := by
  have hpos : 1 ≤ c.length := List.length_pos.2 hc
  rw [labelText_eq]
  unfold labelRun headerLabel
  rw [seg_shift]
  exact takeWhile_seg_fgetsStore _ (by decide) old c 1 FASTALINELEN hpos (by omega)

theorem fastaLine_eq (cap : Nat) (old : Nat → Nat) (c : List Nat) (s : FastaState) (hc : c ≠ [])
    (hlen : c.length < FASTALINELEN) :
    fastaLine cap (fgetsStore old c) s = fastaStep cap c s := by
  have hpos : 0 < c.length := List.length_pos.2 hc
  unfold fastaLine fastaStep
  rw [parseLabel_eq, labelText_fgetsStore old c hc hlen, fastaCopy_eq,
    takeWhile_seg_fgetsStore _ (by decide) old c 0 FASTALINELEN (by omega) (by omega),
    fgetsStore_lt old c 0 hpos]
  rfl

theorem fastaLoop_eq (cap : Nat) (cs : List (List Nat)) (old : Nat → Nat) (s : FastaState)
    (h : ∀ c ∈ cs, c ≠ [] ∧ c.length < FASTALINELEN) :
    fastaLoop cap cs old s = fastaSteps cap cs s := by
  induction cs generalizing old s with
  | nil => rfl
  | cons c cs ih =>
    have hc := h c (List.mem_cons_self _ _)
    simp only [fastaLoop, fastaSteps, fastaLine_eq cap old c s hc.1 hc.2]
    cases fastaStep cap c s with
    | ok t => exact ih _ _ (fun c hc => h c (List.mem_cons_of_mem _ hc))
    | ioError m => rfl
    | fault f => rfl

/-- `parseFasta` as a function of the lines of the file. -/
theorem parseFasta_eq (cap : Nat) (junk : Nat → Nat) (file : List Nat) :
    parseFasta cap junk file =
      (fastaSteps cap (fgetsAll FASTALINELEN file []) fastaInit).andThen fastaFinish := by
  unfold parseFasta
  rw [fastaLoop_eq cap _ junk fastaInit (fun c hc => by
    obtain ⟨h1, h2, _⟩ := fgetsAll_chunk FASTALINELEN file [] c (by decide) hc
    exact ⟨h1, by omega⟩)]

/-! ## FASTA records -/

theorem labelStop_ten : labelStop 10 = true := by decide

theorem not_mem_of_labelOk (l : List Nat) (h : LabelOk l) : 10 ∉ l := by
  intro h10
  have := h.2 10 h10
  rw [labelStop_ten] at this
  exact absurd this (by decide)

theorem not_mem_of_lineOk (l : List Nat) (h : LineOk l) : 10 ∉ l := by
  intro h10
  have := h.2.1 10 h10
  exact absurd this (by decide)

theorem fgetsAll_header (label rest : List Nat) (h : LabelOk label) :
    fgetsAll FASTALINELEN (62 :: (label ++ 10 :: rest)) []
      = headerChunks label ++ fgetsAll FASTALINELEN rest [] := by
  have h10 : 10 ∉ (62 :: label) := by
    intro hm
    rcases List.mem_cons.1 hm with e | e
    · exact absurd e (by decide)
    · exact not_mem_of_labelOk label h e
  unfold headerChunks
  by_cases h998 : label.length = 998
  · rw [if_pos h998]
    have e1 := fgetsAll_full FASTALINELEN (62 :: label) (10 :: rest) [] h10 (by simp)
      (by simp [FASTALINELEN, h998])
    have e2 := fgetsAll_line FASTALINELEN [] rest [] (by simp) (by simp [FASTALINELEN])
    simp only [List.nil_append, List.cons_append] at e1 e2
    rw [e1, e2]
    rfl
  · rw [if_neg h998]
    have e1 := fgetsAll_line FASTALINELEN (62 :: label) rest [] h10
      (by have := h.1; simp [FASTALINELEN]; omega)
    simp only [List.nil_append, List.cons_append] at e1
    rw [e1]
    rfl

theorem fgetsAll_lines (lines : List (List Nat)) (rest : List Nat) (h : ∀ l ∈ lines, LineOk l) :
    fgetsAll FASTALINELEN ((lines.map (fun l => l ++ [10])).flatten ++ rest) []
      = lines.map (fun l => l ++ [10]) ++ fgetsAll FASTALINELEN rest [] := by
  induction lines with
  | nil => rfl
  | cons l lines ih =>
    have hl := h l (List.mem_cons_self _ _)
    simp only [List.map_cons, List.flatten_cons, List.append_assoc, List.singleton_append,
      List.cons_append, List.nil_append]
    have e1 := fgetsAll_line FASTALINELEN l
      ((lines.map (fun l => l ++ [10])).flatten ++ rest) [] (not_mem_of_lineOk l hl)
      (by have := hl.1; simp [FASTALINELEN]; omega)
    simp only [List.nil_append] at e1
    rw [e1, ih (fun l hl => h l (List.mem_cons_of_mem _ hl))]

theorem fgetsAll_record (r : List Nat × List (List Nat)) (rest : List Nat) (h1 : LabelOk r.1)
    (h2 : ∀ l ∈ r.2, LineOk l) :
    fgetsAll FASTALINELEN (recordText r.1 r.2 ++ rest) []
      = recordChunks r ++ fgetsAll FASTALINELEN rest [] := by
  unfold recordText recordChunks
  simp only [List.singleton_append, List.cons_append, List.append_assoc, List.nil_append]
  rw [fgetsAll_header _ _ h1, fgetsAll_lines _ _ h2]

theorem fgetsAll_fastaText (recs : List (List Nat × List (List Nat))) (rest : List Nat)
    (h : ∀ r ∈ recs, LabelOk r.1 ∧ ∀ l ∈ r.2, LineOk l) :
    fgetsAll FASTALINELEN (fastaText recs ++ rest) []
      = (recs.map recordChunks).flatten ++ fgetsAll FASTALINELEN rest [] := by
  induction recs with
  | nil => rfl
  | cons r recs ih =>
    have hr := h r (List.mem_cons_self _ _)
    simp only [fastaText, List.map_cons, List.flatten_cons, List.append_assoc] at ih ⊢
    rw [fgetsAll_record r _ hr.1 hr.2, ih (fun r hr => h r (List.mem_cons_of_mem _ hr))]

theorem fastaSteps_append (cap : Nat) (a b : List (List Nat)) (s : FastaState) :
    fastaSteps cap (a ++ b) s = (fastaSteps cap a s).andThen (fastaSteps cap b) := by
  induction a generalizing s with
  | nil => rfl
  | cons c a ih =>
    simp only [List.cons_append, fastaSteps]
    cases fastaStep cap c s with
    | ok t => exact ih t
    | ioError m => rfl
    | fault f => rfl

theorem headerLabel_line (label : List Nat) (h : LabelOk label) :
    headerLabel (62 :: label ++ [10]) = label := by
  unfold headerLabel
  simp only [List.cons_append, List.drop_succ_cons, List.drop_zero]
  rw [takeWhile_append_stop _ _ _ _ (by simp [labelStop_ten])]
  rw [List.takeWhile_eq_self_iff]
  intro b hb
  simp [h.2 b hb]

theorem headerLabel_full (label : List Nat) (h : LabelOk label) :
    headerLabel (62 :: label) = label := by
  unfold headerLabel
  simp only [List.drop_succ_cons, List.drop_zero]
  rw [List.takeWhile_eq_self_iff]
  intro b hb
  simp [h.2 b hb]

theorem seqBytes_line (l : List Nat) (h : ∀ b ∈ l, 32 ≤ cchar b) : seqBytes (l ++ [10]) = l := by
  unfold seqBytes
  rw [takeWhile_append_stop _ _ _ _ (by decide)]
  rw [List.takeWhile_eq_self_iff]
  intro b hb
  simp [h b hb]

theorem getD_zero_line (l : List Nat) (h : cchar (l.getD 0 0) ≠ 62) :
    cchar ((l ++ [10]).getD 0 0) ≠ 62 := by
  cases l with
  | nil => decide
  | cons b l => simpa using h

/-- A sequence line: its bytes are appended to the matrix. -/
theorem fastaStep_line (cap : Nat) (l : List Nat) (s : FastaState) (h : LineOk l)
    (hcap : s.data.length + l.length ≤ cap) :
    fastaStep cap (l ++ [10]) s =
      Parsed.ok { s with data := s.data ++ l, iline := s.iline + 1,
                         curlen := s.curlen + l.length } := by
  unfold fastaStep
  rw [if_neg (getD_zero_line l h.2.2), seqBytes_line l h.2.1, if_neg (by omega)]

theorem fastaSteps_lines (cap : Nat) (lines : List (List Nat)) (s : FastaState)
    (h : ∀ l ∈ lines, LineOk l) (hcap : s.data.length + lines.flatten.length ≤ cap) :
    fastaSteps cap (lines.map (fun l => l ++ [10])) s =
      Parsed.ok { s with data := s.data ++ lines.flatten, iline := s.iline + lines.length,
                         curlen := s.curlen + lines.flatten.length } := by
  induction lines generalizing s with
  | nil => simp [fastaSteps]
  | cons l lines ih =>
    have hl := h l (List.mem_cons_self _ _)
    simp only [List.flatten_cons, List.length_append] at hcap
    simp only [List.map_cons, fastaSteps]
    rw [fastaStep_line cap l s hl (by omega)]
    simp only [Parsed.andThen_ok]
    rw [ih _ (fun l hl => h l (List.mem_cons_of_mem _ hl))
      (by show (s.data ++ l).length + lines.flatten.length ≤ cap
          rw [List.length_append]; omega)]
    simp only [List.flatten_cons, List.length_append, List.append_assoc, List.length_cons]
    congr 2 <;> omega

/-- A header: an error when the previous record has not the reference length, otherwise
the label is registered. -/
theorem fastaSteps_header (cap : Nat) (label : List Nat) (s : FastaState) (h : LabelOk label)
    (hcap : s.data.length ≤ cap) :
    fastaSteps cap (headerChunks label) s =
      if s.seqlen ≠ s.curlen ∧ s.seqlen ≠ 0 then
        Parsed.ioError (intcat fastaErrmsg ((s.iline : Int) + 1))
      else
        Parsed.ok
          { labels := s.labels ++ [label],
            mapping := registryAdd s.mapping (keyOfLabel label) s.labels.length,
            count := s.count + 1, data := s.data,
            iline := s.iline + (headerChunks label).length,
            seqlen := if s.seqlen ≠ s.curlen then s.curlen else s.seqlen,
            curlen := 0 } := by
  unfold headerChunks
  by_cases h998 : label.length = 998
  · simp only [h998, if_true, fastaSteps, fastaStep, List.getD_cons_zero,
      headerLabel_full label h, show cchar 62 = 62 by decide]
    by_cases hbad : s.seqlen ≠ s.curlen ∧ s.seqlen ≠ 0
    · rw [if_pos hbad, if_pos hbad]
      rfl
    · rw [if_neg hbad, if_neg hbad]
      have e : seqBytes [10] = [] := by decide
      simp only [show ¬ (cchar 10 = 62) by decide, if_false, e, List.length_nil, Nat.add_zero,
        List.append_nil, List.length_cons, Parsed.andThen_ok]
      rw [if_neg (by omega)]
      rfl
  · simp only [h998, if_false, fastaSteps, fastaStep, List.cons_append, List.getD_cons_zero,
      show cchar 62 = 62 by decide, if_true]
    have e := headerLabel_line label h
    simp only [List.cons_append] at e
    rw [e]
    by_cases hbad : s.seqlen ≠ s.curlen ∧ s.seqlen ≠ 0
    · rw [if_pos hbad, if_pos hbad]
      rfl
    · rw [if_neg hbad, if_neg hbad]
      simp only [List.length_cons, List.length_nil, Parsed.andThen_ok]

/-- One record read from a state in which the header raises no error. -/
theorem fastaSteps_record (cap : Nat) (r : List Nat × List (List Nat)) (s : FastaState)
    (h1 : LabelOk r.1) (h2 : ∀ l ∈ r.2, LineOk l)
    (hs : ¬ (s.seqlen ≠ s.curlen ∧ s.seqlen ≠ 0))
    (hcap : s.data.length + r.2.flatten.length ≤ cap) :
    fastaSteps cap (recordChunks r) s =
      Parsed.ok
        { labels := s.labels ++ [r.1],
          mapping := registryAdd s.mapping (keyOfLabel r.1) s.labels.length,
          count := s.count + 1, data := s.data ++ r.2.flatten,
          iline := s.iline + (recordChunks r).length,
          seqlen := if s.seqlen ≠ s.curlen then s.curlen else s.seqlen,
          curlen := r.2.flatten.length } := by
  unfold recordChunks
  rw [fastaSteps_append, fastaSteps_header cap r.1 s h1 (by omega), if_neg hs]
  simp only [Parsed.andThen_ok]
  rw [fastaSteps_lines cap r.2 _ h2 (by simpa using hcap)]
  simp only [List.length_append, List.length_map, Nat.zero_add, Nat.add_assoc]

theorem length_recordsData (recs : List (List Nat × List (List Nat))) (L : Nat)
    (h : ∀ r ∈ recs, r.2.flatten.length = L) : (recordsData recs).length = recs.length * L := by
  induction recs with
  | nil => simp [recordsData]
  | cons r recs ih =>
    have e : recordsData (r :: recs) = r.2.flatten ++ recordsData recs := rfl
    rw [e, List.length_append, h r (List.mem_cons_self _ _),
      ih (fun r hr => h r (List.mem_cons_of_mem _ hr)), List.length_cons, Nat.add_mul]
    omega

/-- Records of one length read after a record of that length. -/
theorem fastaSteps_records (cap L : Nat) (recs : List (List Nat × List (List Nat)))
    (s : FastaState)
    (h : ∀ r ∈ recs, LabelOk r.1 ∧ (∀ l ∈ r.2, LineOk l) ∧ r.2.flatten.length = L)
    (hcur : s.curlen = L) (hseq : s.seqlen = L ∨ s.seqlen = 0)
    (hcap : s.data.length + recs.length * L ≤ cap) :
    fastaSteps cap (recs.map recordChunks).flatten s =
      Parsed.ok
        { labels := s.labels ++ recs.map (fun r => r.1),
          mapping := registerAll s.mapping s.labels.length (recs.map (fun r => r.1)),
          count := s.count + recs.length, data := s.data ++ recordsData recs,
          iline := s.iline + recordsLines recs,
          seqlen := if recs = [] then s.seqlen else L,
          curlen := L } := by
  induction recs generalizing s with
  | nil =>
    subst hcur
    simp [fastaSteps, registerAll, recordsData, recordsLines]
  | cons r recs ih =>
    obtain ⟨hl, hln, hlen⟩ := h r (List.mem_cons_self _ _)
    have hcap2 : s.data.length + L + recs.length * L ≤ cap := by
      rw [List.length_cons, Nat.add_mul] at hcap; omega
    simp only [List.map_cons, List.flatten_cons]
    rw [fastaSteps_append, fastaSteps_record cap r s hl hln (by omega) (by omega)]
    simp only [Parsed.andThen_ok]
    rw [ih _ (fun r hr => h r (List.mem_cons_of_mem _ hr)) hlen
      (by left; show (if s.seqlen ≠ s.curlen then s.curlen else s.seqlen) = L
          split <;> omega)
      (by show (s.data ++ r.2.flatten).length + recs.length * L ≤ cap
          rw [List.length_append, hlen]; omega)]
    have e1 : (if s.seqlen ≠ s.curlen then s.curlen else s.seqlen) = L := by split <;> omega
    have e2 : recordsData (r :: recs) = r.2.flatten ++ recordsData recs := rfl
    have e3 : recordsLines (r :: recs) = (recordChunks r).length + recordsLines recs := by
      simp [recordsLines]
    simp only [e1, e2, e3, List.append_assoc, List.singleton_append, registerAll,
      List.length_append, List.length_cons, List.length_nil, if_neg (List.cons_ne_nil r recs),
      ite_self]
    congr 2 <;> omega

theorem fastaSteps_fastaInit_record (cap : Nat) (r : List Nat × List (List Nat))
    (h1 : LabelOk r.1) (h2 : ∀ l ∈ r.2, LineOk l) (hcap : r.2.flatten.length ≤ cap) :
    fastaSteps cap (recordChunks r) fastaInit =
      Parsed.ok
        { labels := [r.1], mapping := registryAdd [] (keyOfLabel r.1) 0, count := 1,
          data := r.2.flatten, iline := (recordChunks r).length, seqlen := 0,
          curlen := r.2.flatten.length } := by
  rw [fastaSteps_record cap r fastaInit h1 h2 (by simp [fastaInit]) (by simpa [fastaInit] using hcap)]
  simp [fastaInit]

/-- The reading loop of `parseFasta` on one or more well-formed records of one length. -/
theorem fastaSteps_fastaText (cap L : Nat) (r : List Nat × List (List Nat))
    (recs : List (List Nat × List (List Nat)))
    (h : ∀ x ∈ r :: recs, LabelOk x.1 ∧ (∀ l ∈ x.2, LineOk l) ∧ x.2.flatten.length = L)
    (hcap : (recs.length + 1) * L ≤ cap) :
    fastaSteps cap ((r :: recs).map recordChunks).flatten fastaInit =
      Parsed.ok
        { labels := (r :: recs).map (fun x => x.1),
          mapping := registerAll [] 0 ((r :: recs).map (fun x => x.1)),
          count := recs.length + 1, data := recordsData (r :: recs),
          iline := recordsLines (r :: recs),
          seqlen := if recs = [] then 0 else L,
          curlen := L } := by
  obtain ⟨hl, hln, hlen⟩ := h r (List.mem_cons_self _ _)
  have hcap2 : L + recs.length * L ≤ cap := by rw [Nat.add_mul] at hcap; omega
  simp only [List.map_cons, List.flatten_cons]
  rw [fastaSteps_append, fastaSteps_fastaInit_record cap r hl hln (by omega)]
  simp only [Parsed.andThen_ok]
  rw [fastaSteps_records cap L recs _ (fun x hx => h x (List.mem_cons_of_mem _ hx)) hlen
    (Or.inr rfl) (by show r.2.flatten.length + recs.length * L ≤ cap; omega)]
  have e2 : recordsData (r :: recs) = r.2.flatten ++ recordsData recs := rfl
  have e3 : recordsLines (r :: recs) = (recordChunks r).length + recordsLines recs := by
    simp [recordsLines]
  simp only [e2, e3, List.singleton_append, registerAll, List.length_cons, List.length_nil,
    List.cons_append, List.nil_append]
  congr 2
  omega

/-- Two or more well-formed records of one length `L ≥ 1`: `parseFasta` returns the
matrix of their sequences and the list of their labels. -/
theorem parseFasta_fastaText (cap L : Nat) (junk : Nat → Nat)
    (recs : List (List Nat × List (List Nat)))
    (h : ∀ x ∈ recs, LabelOk x.1 ∧ (∀ l ∈ x.2, LineOk l) ∧ x.2.flatten.length = L)
    (hN : 2 ≤ recs.length) (hL : 1 ≤ L) (hcap : recs.length * L ≤ cap) :
    parseFasta cap junk (fastaText recs) =
      Parsed.ok
        { rows := recs.length, cols := L, data := recordsData recs,
          labels := recs.map (fun x => x.1),
          mapping := registerAll [] 0 (recs.map (fun x => x.1)),
          count := recs.length } := by
  match recs, hN with
  | r :: r2 :: recs, _ =>
    have hch := fgetsAll_fastaText (r :: r2 :: recs) [] (fun x hx => ⟨(h x hx).1, (h x hx).2.1⟩)
    rw [List.append_nil] at hch
    have hlen := length_recordsData (r :: r2 :: recs) L (fun x hx => (h x hx).2.2)
    rw [parseFasta_eq, hch, show fgetsAll FASTALINELEN [] [] = [] from rfl, List.append_nil,
      fastaSteps_fastaText cap L r (r2 :: recs) h (by simpa using hcap)]
    simp only [Parsed.andThen_ok, fastaFinish, if_neg (List.cons_ne_nil r2 recs), ne_eq,
      not_true_eq_false, if_false, hlen]
    rw [if_neg (by omega), Nat.mul_div_cancel _ (by omega), ← hlen, List.take_length]
    simp

/-- A single well-formed record: the final length check of `parseFasta` fails. -/
theorem parseFasta_single (cap L : Nat) (junk : Nat → Nat) (r : List Nat × List (List Nat))
    (h : LabelOk r.1 ∧ (∀ l ∈ r.2, LineOk l) ∧ r.2.flatten.length = L)
    (hL : 1 ≤ L) (hcap : L ≤ cap) :
    parseFasta cap junk (fastaText [r]) =
      Parsed.ioError (intcat fastaErrmsg (recordsLines [r] : Nat)) := by
  have hch := fgetsAll_fastaText [r] [] (fun x hx => by
    rw [List.mem_singleton] at hx; subst hx; exact ⟨h.1, h.2.1⟩)
  rw [List.append_nil] at hch
  rw [parseFasta_eq, hch, show fgetsAll FASTALINELEN [] [] = [] from rfl, List.append_nil,
    fastaSteps_fastaText cap L r [] (fun x hx => by
      rw [List.mem_singleton] at hx; subst hx; exact h) (by simpa using hcap)]
  simp only [Parsed.andThen_ok, fastaFinish, if_true]
  rw [if_pos (by omega)]

theorem recordsLines_append (a b : List (List Nat × List (List Nat))) :
    recordsLines (a ++ b) = recordsLines a + recordsLines b := by
  simp [recordsLines]

/-- A record whose length differs from that of the records before it: `parseFasta`
fails at the next header line, or at the last line when no header follows. -/
theorem parseFasta_uneven (cap L : Nat) (junk : Nat → Nat)
    (pre : List (List Nat × List (List Nat))) (bad : List Nat × List (List Nat))
    (rest : List Nat)
    (hpre : ∀ x ∈ pre, LabelOk x.1 ∧ (∀ l ∈ x.2, LineOk l) ∧ x.2.flatten.length = L)
    (hne : pre ≠ []) (hL : 1 ≤ L)
    (hbad : LabelOk bad.1 ∧ ∀ l ∈ bad.2, LineOk l) (hlen : bad.2.flatten.length ≠ L)
    (hcap : pre.length * L + bad.2.flatten.length ≤ cap)
    (hrest : rest = [] ∨ ∃ t, rest = 62 :: t) :
    parseFasta cap junk (fastaText (pre ++ [bad]) ++ rest) =
      Parsed.ioError (intcat fastaErrmsg
        ((recordsLines (pre ++ [bad]) : Nat) + (if rest = [] then 0 else 1))) := by
  match pre, hne with
  | r :: recs, _ =>
    have hch := fgetsAll_fastaText ((r :: recs) ++ [bad]) rest (fun x hx => by
      rcases List.mem_append.1 hx with hx | hx
      · exact ⟨(hpre x hx).1, (hpre x hx).2.1⟩
      · rw [List.mem_singleton] at hx; subst hx; exact hbad)
    have hcap1 : (recs.length + 1) * L ≤ cap := by
      simp only [List.length_cons] at hcap; omega
    have hdata := length_recordsData (r :: recs) L (fun x hx => (hpre x hx).2.2)
    rw [parseFasta_eq, hch, List.map_append, List.flatten_append, fastaSteps_append,
      fastaSteps_append, fastaSteps_fastaText cap L r recs hpre hcap1]
    simp only [List.map_cons, List.map_nil, List.flatten_cons, List.flatten_nil, List.append_nil,
      Parsed.andThen_ok]
    rw [fastaSteps_record cap bad _ hbad.1 hbad.2 (by
        show ¬ ((if recs = [] then 0 else L) ≠ L ∧ (if recs = [] then 0 else L) ≠ 0)
        split <;> omega) (by
        show (recordsData (r :: recs)).length + bad.2.flatten.length ≤ cap
        rw [hdata]; simpa using hcap)]
    have e1 : (if (if recs = [] then 0 else L) ≠ L then L else (if recs = [] then 0 else L)) = L := by
      split <;> split <;> omega
    simp only [e1, Parsed.andThen_ok]
    rcases hrest with rfl | ⟨t, rfl⟩
    · simp only [show fgetsAll FASTALINELEN [] [] = [] from rfl, fastaSteps, fastaFinish, if_true,
        Nat.cast_add, Int.add_zero, Parsed.andThen_ok]
      rw [if_pos (by omega), recordsLines_append]
      have : recordsLines [bad] = (recordChunks bad).length := by simp [recordsLines]
      rw [this]
      simp
    · obtain ⟨c, cs, e, hc⟩ := fgetsAll_head FASTALINELEN 62 t
      rw [e]
      simp only [fastaSteps, fastaStep, hc, show cchar 62 = 62 by decide, if_true]
      rw [if_pos ⟨by omega, by omega⟩, recordsLines_append]
      simp only [Parsed.andThen_ioError]
      have : recordsLines [bad] = (recordChunks bad).length := by simp [recordsLines]
      rw [this]
      simp

/-! ## SELEX lines -/

theorem fgetsStore_le (old : Nat → Nat) (c : List Nat) (i : Nat) (h : i ≤ c.length) :
    fgetsStore old c i = (c ++ [0]).getD i 0 := by
  by_cases hi : i < c.length
  · rw [fgetsStore_lt _ _ _ hi, getD_append_left _ _ _ hi]
  · have : i = c.length := by omega
    subst this
    rw [fgetsStore_length, getD_append_right _ _ _ (le_refl _)]
    simp

theorem getD_of_drop_eq (c : List Nat) (i a : Nat) (r : List Nat) (h : c.drop i = a :: r) :
    c.getD i 0 = a ∧ i < c.length ∧ c.drop (i + 1) = r := by
  have hi : i < c.length := by
    by_contra hc
    rw [List.drop_of_length_le (by omega)] at h
    exact absurd h (by simp)
  have e := getD_eq_head_drop c i hi
  rw [h] at e
  injection e with e1 e2
  exact ⟨e1.symm, hi, e2.symm⟩

/-- A scan of the stored line that runs over `l` and stops at `a`. -/
theorem scanFrom_fgetsStore (stop : Nat → Bool) (old : Nat → Nat) (c l r : List Nat) (a n i : Nat)
    (h : (c ++ [0]).drop i = l ++ a :: r) (hl : ∀ b ∈ l, stop b = false) (ha : stop a = true)
    (hn : l.length < n) :
    scanFrom stop (fgetsStore old c) n i = i + l.length := by
  induction l generalizing i n with
  | nil =>
    obtain ⟨e1, e2, _⟩ := getD_of_drop_eq _ _ _ _ h
    simp only [List.length_append, List.length_singleton] at e2
    cases n with
    | zero => simp at hn
    | succ n =>
      simp only [scanFrom]
      rw [fgetsStore_le old c i (by omega), e1, ha]
      simp
  | cons b l ih =>
    obtain ⟨e1, e2, e3⟩ := getD_of_drop_eq _ _ _ _ h
    simp only [List.length_append, List.length_singleton] at e2
    cases n with
    | zero => simp at hn
    | succ n =>
      simp only [scanFrom]
      rw [fgetsStore_le old c i (by omega), e1, hl b (List.mem_cons_self _ _)]
      simp only [Bool.false_eq_true, if_false]
      rw [ih n (i + 1) e3 (fun b hb => hl b (List.mem_cons_of_mem _ hb))
        (by simp only [List.length_cons] at hn; omega)]
      simp only [List.length_cons]
      omega

theorem seg_fgetsStore_take (old : Nat → Nat) (c : List Nat) (i n : Nat) (h : i + n ≤ c.length) :
    seg (fgetsStore old c) i n = (c.drop i).take n := by
  rw [seg_drop, ← take_seg _ 0 (i + n) (c.length + 1) (by omega), seg_fgetsStore,
    List.take_append_of_le_length h, List.drop_take]
  congr 1
  omega

theorem selexLine_eq (cap beg en : Nat) (old : Nat → Nat) (c : List Nat) (s : SelexState)
    (hbeg : 1 ≤ beg) (h : SelexInRange beg en c) :
    selexLine cap beg en (fgetsStore old c) s = selexStep cap beg en c s := by
  obtain ⟨hc, hr⟩ := h
  have hpos : 0 < c.length := List.length_pos.2 hc
  unfold selexLine selexStep
  rw [fgetsStore_lt old c 0 hpos]
  by_cases hcom : isSelexComment (c.getD 0 0) = true
  · rw [if_pos hcom, if_pos hcom]
  · rw [if_neg hcom, if_neg hcom, if_neg (by omega)]
    rcases hr with hr | ⟨hb, hr⟩
    · exact absurd hr hcom
    · rw [fgetsStore_lt old c (beg - 1) (by omega)]
      by_cases hsp : c.getD (beg - 1) 0 ≠ 32
      · rw [if_pos hsp, if_pos hsp]
      · rw [if_neg hsp, if_neg hsp]
        have hen : en ≤ c.length := by
          rcases hr with hr | hr
          · exact absurd hr hsp
          · exact hr
        have e1 : (List.range (en - beg)).map (fun k => fgetsStore old c (beg + k))
            = (c.drop beg).take (en - beg) := by
          have := seg_fgetsStore_take old c beg (en - beg) (by omega)
          simpa [seg, bytesOf] using this
        have e2 : labelText (fgetsStore old c) (beg - 1)
            = (c.take (beg - 1)).takeWhile (fun b => !labelStop b) := by
          rw [labelText_eq]
          unfold labelRun
          rw [seg_fgetsStore_take old c 0 (beg - 1) (by omega)]
          simp
        rw [parseLabel_eq, e1, e2]

/-- Buffer content after the lines `cs` were read one after the other. -/
theorem selexLoop_eq (cap beg en : Nat) (cs : List (List Nat)) (old : Nat → Nat) (s : SelexState)
    (hbeg : 1 ≤ beg) (h : ∀ c ∈ cs, SelexInRange beg en c) :
    selexLoop cap beg en cs old s = selexSteps cap beg en cs s := by
  induction cs generalizing old s with
  | nil => rfl
  | cons c cs ih =>
    simp only [selexLoop, selexSteps, selexLine_eq cap beg en old c s hbeg
      (h c (List.mem_cons_self _ _))]
    cases selexStep cap beg en c s with
    | ok t => exact ih _ _ (fun c hc => h c (List.mem_cons_of_mem _ hc))
    | ioError m => rfl
    | fault f => rfl

theorem selexLoop_append (cap beg en : Nat) (a b : List (List Nat)) (old : Nat → Nat)
    (s : SelexState) :
    selexLoop cap beg en (a ++ b) old s =
      (selexLoop cap beg en a old s).andThen (selexLoop cap beg en b (a.foldl fgetsStore old)) := by
  induction a generalizing old s with
  | nil => rfl
  | cons c a ih =>
    simp only [List.cons_append, selexLoop, List.foldl_cons]
    cases selexLine cap beg en (fgetsStore old c) s with
    | ok t => exact ih _ t
    | ioError m => rfl
    | fault f => rfl

theorem fgetsAll_map_line (size : Nat) (lines : List (List Nat)) (rest : List Nat)
    (h : ∀ l ∈ lines, 10 ∉ l ∧ l.length + 2 ≤ size) :
    fgetsAll size ((lines.map (fun l => l ++ [10])).flatten ++ rest) []
      = lines.map (fun l => l ++ [10]) ++ fgetsAll size rest [] := by
  induction lines with
  | nil => rfl
  | cons l lines ih =>
    have hl := h l (List.mem_cons_self _ _)
    simp only [List.map_cons, List.flatten_cons, List.append_assoc, List.singleton_append,
      List.cons_append, List.nil_append]
    have e1 := fgetsAll_line size l
      ((lines.map (fun l => l ++ [10])).flatten ++ rest) [] hl.1 (by simp; omega)
    simp only [List.nil_append] at e1
    rw [e1, ih (fun l hl => h l (List.mem_cons_of_mem _ hl))]

theorem selexText_append (a b : List SelexLine) : selexText (a ++ b) = selexText a ++ selexText b := by
  simp [selexText]

theorem selexText_cons (l : SelexLine) (ls : List SelexLine) :
    selexText (l :: ls) = l.text ++ [10] ++ selexText ls := by
  simp [selexText]

theorem not_mem_ten_of_nonstop (f : List Nat) (h : ∀ b ∈ f, labelStop b = false) : 10 ∉ f := by
  intro h10
  have := h 10 h10
  rw [labelStop_ten] at this
  exact absurd this (by decide)

theorem not_mem_ten_of_printable (s : List Nat) (h : ∀ b ∈ s, 32 ≤ cchar b) : 10 ∉ s := by
  intro h10
  exact absurd (h 10 h10) (by decide)

theorem selexLine_text_ok (beg L : Nat) (l : SelexLine) (h : SelexLineOk beg L l) :
    10 ∉ l.text ∧ l.text.length + 2 ≤ SELEXLINELEN + 1 := by
  cases l with
  | comment t =>
    obtain ⟨_, h2, h3⟩ := h
    exact ⟨h2, by simp only [SelexLine.text]; omega⟩
  | data f s =>
    obtain ⟨h1, h2, h3, h4, _, h6⟩ := h
    refine ⟨?_, by simp [SelexLine.text]; omega⟩
    simp only [SelexLine.text, List.mem_append, List.mem_singleton, not_or]
    exact ⟨⟨not_mem_ten_of_nonstop f h3, by decide⟩, not_mem_ten_of_printable s h4⟩

theorem fgetsAll_selexText (beg L : Nat) (lines : List SelexLine) (rest : List Nat)
    (h : ∀ l ∈ lines, SelexLineOk beg L l) :
    fgetsAll (SELEXLINELEN + 1) (selexText lines ++ rest) []
      = lines.map (fun l => l.text ++ [10]) ++ fgetsAll (SELEXLINELEN + 1) rest [] := by
  have e := fgetsAll_map_line (SELEXLINELEN + 1) (lines.map (fun l => l.text)) rest (by
    intro t ht
    obtain ⟨l, hl, rfl⟩ := List.mem_map.1 ht
    exact selexLine_text_ok beg L l (h l hl))
  simpa [selexText, List.map_map, Function.comp_def] using e

theorem selexInRange_of_ok (beg L : Nat) (l : SelexLine) (h : SelexLineOk beg L l) :
    SelexInRange beg (beg + L) (l.text ++ [10]) := by
  refine ⟨by simp, ?_⟩
  cases l with
  | comment t =>
    obtain ⟨h1, _, _⟩ := h
    left
    have ht : t ≠ [] := by
      intro e; subst e; exact absurd h1 (by decide)
    simp only [SelexLine.text]
    rw [getD_append_left _ _ _ (List.length_pos.2 ht)]
    exact h1
  | data f s =>
    obtain ⟨h1, h2, _⟩ := h
    right
    simp only [SelexLine.text, List.length_append, List.length_singleton, List.length_cons,
      List.length_nil]
    exact ⟨by omega, Or.inr (by omega)⟩

/-- The second loop on a comment line. -/
theorem selexStep_comment (cap beg en : Nat) (t : List Nat) (s : SelexState) (h : CommentOk t) :
    selexStep cap beg en (t ++ [10]) s = Parsed.ok { s with iline := s.iline + 1 } := by
  have ht : t ≠ [] := by
    intro e; subst e; exact absurd h.1 (by decide)
  unfold selexStep
  rw [getD_append_left _ _ _ (List.length_pos.2 ht), if_pos h.1]

theorem takeWhile_nonstop (f : List Nat) (h : ∀ b ∈ f, labelStop b = false) :
    f.takeWhile (fun b => !labelStop b) = f := by
  rw [List.takeWhile_eq_self_iff]
  intro b hb
  simp [h b hb]

/-- The second loop on a data line: the field is registered as label and the sequence
is appended to the matrix. -/
theorem selexStep_data (cap beg L : Nat) (f sq : List Nat) (s : SelexState)
    (h : DataOk beg L f sq) (hcap : s.data.length + L ≤ cap) :
    selexStep cap beg (beg + L) (f ++ [32] ++ sq ++ [10]) s =
      Parsed.ok
        { labels := s.labels ++ [f],
          mapping := registryAdd s.mapping (keyOfLabel f) s.labels.length,
          count := s.count + 1, data := s.data ++ sq, iline := s.iline + 1 } := by
  obtain ⟨h1, h2, h3, h4, h5, h6⟩ := h
  have e0 : (f ++ [32] ++ sq ++ [10]).getD 0 0 = (f ++ [32]).getD 0 0 := by
    rw [List.append_assoc, List.append_assoc]
    rw [← List.append_assoc f]
    exact getD_append_left _ _ _ (by simp)
  have e1 : (f ++ [32] ++ sq ++ [10]).getD (beg - 1) 0 = 32 := by
    rw [List.append_assoc, List.append_assoc, getD_append_right _ _ _ (by omega)]
    rw [show beg - 1 - f.length = 0 by omega]
    rfl
  have e2 : (f ++ [32] ++ sq ++ [10]).take (beg - 1) = f := by
    rw [List.append_assoc, List.append_assoc, List.take_append_of_le_length (by omega),
      List.take_of_length_le (by omega)]
  have e3 : ((f ++ [32] ++ sq ++ [10]).drop beg).take (beg + L - beg) = sq := by
    have : (f ++ [32] ++ sq ++ [10]).drop beg = sq ++ [10] := by
      rw [List.append_assoc, List.drop_append_of_le_length (by simp; omega)]
      rw [List.drop_of_length_le (by simp; omega)]
      rfl
    rw [this, List.take_append_of_le_length (by omega), List.take_of_length_le (by omega)]
  unfold selexStep
  rw [e0, h5, e1, e2, e3, takeWhile_nonstop f h3]
  simp only [Bool.false_eq_true, if_false, ne_eq, not_true_eq_false]
  rw [if_neg (by omega)]

/-- Number of data lines. -/
theorem length_selexSeqs (beg L : Nat) (lines : List SelexLine)
    (h : ∀ l ∈ lines, SelexLineOk beg L l) :
    (selexSeqs lines).length = (selexFields lines).length * L := by
  induction lines with
  | nil => simp [selexSeqs, selexFields]
  | cons l lines ih =>
    have hl := h l (List.mem_cons_self _ _)
    have ih2 := ih (fun l hl => h l (List.mem_cons_of_mem _ hl))
    cases l with
    | comment t => simpa [selexSeqs, selexFields] using ih2
    | data f s =>
      simp only [selexSeqs, selexFields, List.length_append, List.length_cons, ih2, hl.2.1,
        Nat.add_mul]
      omega

/-- The second loop of `parseSelex` on well-formed lines. -/
theorem selexSteps_lines (cap beg L : Nat) (lines : List SelexLine) (s : SelexState)
    (h : ∀ l ∈ lines, SelexLineOk beg L l)
    (hcap : s.data.length + (selexFields lines).length * L ≤ cap) :
    selexSteps cap beg (beg + L) (lines.map (fun l => l.text ++ [10])) s =
      Parsed.ok
        { labels := s.labels ++ selexFields lines,
          mapping := registerAll s.mapping s.labels.length (selexFields lines),
          count := s.count + (selexFields lines).length,
          data := s.data ++ selexSeqs lines,
          iline := s.iline + (lines.length : Nat) } := by
  induction lines generalizing s with
  | nil => simp [selexSteps, selexFields, selexSeqs, registerAll]
  | cons l lines ih =>
    have hl := h l (List.mem_cons_self _ _)
    have hrest : ∀ l ∈ lines, SelexLineOk beg L l := fun l hl => h l (List.mem_cons_of_mem _ hl)
    cases l with
    | comment t =>
      rw [List.map_cons]
      simp only [selexSteps]
      rw [show (SelexLine.comment t).text = t from rfl, selexStep_comment cap beg _ t s hl]
      simp only [Parsed.andThen_ok]
      rw [ih _ hrest (by simpa [selexFields] using hcap)]
      simp only [selexFields, selexSeqs, List.length_cons, Nat.cast_add, Nat.cast_one]
      congr 2
      omega
    | data f sq =>
      simp only [selexFields, List.length_cons, Nat.add_mul, Nat.one_mul] at hcap
      rw [List.map_cons]
      simp only [selexSteps]
      rw [show (SelexLine.data f sq).text = f ++ [32] ++ sq from rfl,
        selexStep_data cap beg L f sq s hl (by omega)]
      simp only [Parsed.andThen_ok]
      rw [ih _ hrest (by
        show (s.data ++ sq).length + (selexFields lines).length * L ≤ cap
        rw [List.length_append, hl.2.1]; omega)]
      simp only [selexFields, selexSeqs, List.length_cons, Nat.cast_add, Nat.cast_one,
        List.append_assoc, List.singleton_append, registerAll, List.length_append,
        List.length_nil]
      congr 2 <;> omega

theorem replicate_append_cons (j a : Nat) (X : List Nat) :
    List.replicate j a ++ a :: X = a :: (List.replicate j a ++ X) := by
  induction j with
  | zero => rfl
  | succ j ih => simp [List.replicate_succ, ih]

theorem selexGeometry_comments (size : Nat) (cms : List (List Nat)) (hc : ∀ t ∈ cms, CommentOk t)
    (cs : List (List Nat)) (line : Nat → Nat) (iline : Int) (pos : Nat) :
    selexGeometry size (cms.map (fun t => t ++ [10]) ++ cs) line iline pos =
      selexGeometry size cs ((cms.map (fun t => t ++ [10])).foldl fgetsStore line)
        (iline + (cms.length : Nat)) (pos + ((cms.map (fun t => t ++ [10])).flatten).length) := by
  induction cms generalizing line iline pos with
  | nil => simp
  | cons t cms ih =>
    have ht := hc t (List.mem_cons_self _ _)
    have hne : t ≠ [] := by
      intro e; subst e; exact absurd ht.1 (by decide)
    have h0 : fgetsStore line (t ++ [10]) 0 = t.getD 0 0 := by
      rw [fgetsStore_lt _ _ _ (by simp), getD_append_left _ _ _ (List.length_pos.2 hne)]
    simp only [List.map_cons, List.cons_append, selexGeometry, h0, ht.1, if_true, List.foldl_cons,
      List.flatten_cons, List.length_append, List.length_cons, List.length_nil, List.append_eq]
    rw [ih (fun t ht => hc t (List.mem_cons_of_mem _ ht))]
    congr 1
    · push_cast; omega
    · omega

/-- Column geometry that the first loop of `parseSelex` finds on a first data line made
of a label without space, one or more spaces, and a sequence that starts with a
byte other than a space. -/
theorem selexGeometry_data (beg L : Nat) (lab seq0 : List Nat) (j : Nat) (cs : List (List Nat))
    (line : Nat → Nat) (iline : Int) (pos : Nat)
    (h : DataOk beg L (lab ++ List.replicate j 32) seq0) (hlab : 32 ∉ lab)
    (hs0 : seq0.getD 0 0 ≠ 32) (hL : 1 ≤ L) :
    selexGeometry (SELEXLINELEN + 1)
        ((lab ++ List.replicate j 32 ++ [32] ++ seq0 ++ [10]) :: cs) line iline pos =
      { line := fgetsStore line (lab ++ List.replicate j 32 ++ [32] ++ seq0 ++ [10]),
        iline := iline + 1,
        pos := pos + (lab ++ List.replicate j 32 ++ [32] ++ seq0 ++ [10]).length,
        beg := beg, endCol := beg + L, seqlen := L } := by
  obtain ⟨h1, h2, h3, h4, h5, h6⟩ := h
  simp only [List.length_append, List.length_replicate] at h1
  have hsize : SELEXLINELEN = 10000 := rfl
  generalize hc : lab ++ List.replicate j 32 ++ [32] ++ seq0 ++ [10] = c
  have hclen : c.length = beg + L + 1 := by
    rw [← hc]; simp; omega
  obtain ⟨s0, sq, rfl⟩ : ∃ s0 sq, seq0 = s0 :: sq := by
    cases seq0 with
    | nil => simp at h2; omega
    | cons a b => exact ⟨a, b, rfl⟩
  have hs0' : s0 ≠ 32 := by simpa using hs0
  have hc0 : (c ++ [0]) = lab ++ 32 :: (List.replicate j 32 ++ (s0 :: sq) ++ [10, 0]) := by
    rw [← hc]
    simp only [List.append_assoc, List.cons_append, List.nil_append]
    rw [replicate_append_cons]
  have hc1 : (c ++ [0]) = lab ++ (List.replicate (j + 1) 32 ++ s0 :: (sq ++ [10, 0])) := by
    rw [hc0]; simp [List.replicate_succ]
  have hc2 : (c ++ [0]) = (lab ++ List.replicate (j + 1) 32) ++ ((s0 :: sq) ++ 10 :: [0]) := by
    rw [hc1]; simp
  have hfirst : fgetsStore line c 0 = (lab ++ [32]).getD 0 0 := by
    rw [fgetsStore_lt _ _ _ (by omega), ← hc]
    rw [List.append_assoc, List.append_assoc, List.append_assoc]
    cases lab with
    | nil =>
      cases j with
      | zero => rfl
      | succ j => rfl
    | cons a lab => rfl
  have hfirst2 : (lab ++ [32]).getD 0 0 = (lab ++ List.replicate j 32 ++ [32]).getD 0 0 := by
    cases lab with
    | nil =>
      cases j with
      | zero => rfl
      | succ j => rfl
    | cons a lab => rfl
  have e1 : scanFrom (fun b => b == 32) (fgetsStore line c) (SELEXLINELEN + 1) 0 = lab.length := by
    have := scanFrom_fgetsStore (fun b => b == 32) line c lab
      (List.replicate j 32 ++ (s0 :: sq) ++ [10, 0]) 32 (SELEXLINELEN + 1) 0
      (by rw [List.drop_zero, hc0])
      (fun b hb => by
        have : b ≠ 32 := fun e => hlab (e ▸ hb)
        simpa using this)
      (by simp) (by omega)
    simpa using this
  have e2 : scanFrom (fun b => b != 32) (fgetsStore line c) (SELEXLINELEN + 1 - lab.length)
      lab.length = beg := by
    have := scanFrom_fgetsStore (fun b => b != 32) line c (List.replicate (j + 1) 32)
      (sq ++ [10, 0]) s0 (SELEXLINELEN + 1 - lab.length) lab.length
      (by rw [hc1, List.drop_left' rfl])
      (fun b hb => by
        have : b = 32 := (List.mem_replicate.1 hb).2
        simp [this])
      (by simpa using hs0') (by simp; omega)
    rw [this]
    simp; omega
  have e3 : scanFrom (fun b => decide (cchar b < 32)) (fgetsStore line c)
      (SELEXLINELEN + 1 - beg) beg = beg + L := by
    have := scanFrom_fgetsStore (fun b => decide (cchar b < 32)) line c (s0 :: sq) [0] 10
      (SELEXLINELEN + 1 - beg) beg
      (by rw [hc2, List.drop_left' (by simp; omega)])
      (fun b hb => by
        have := h4 b hb
        simp; omega)
      (by decide) (by omega)
    rw [this, h2]
  simp only [selexGeometry, hfirst]
  have h5' : isSelexComment ((lab ++ [32]).getD 0 0) = false := by
    rw [hfirst2]; exact h5
  rw [h5']
  simp only [Bool.false_eq_true, if_false, e1, e2, e3]
  congr 1
  omega

theorem labelStop_zero : labelStop 0 = true := by decide

/-- `parseSelex` on a file that begins with comment lines, a first data line and further
well-formed lines: the second loop reaches the rest of the file in the state that
holds the labels and sequences of these lines. -/
theorem parseSelex_reaches (cap beg L : Nat) (junk : Nat → Nat) (before : List (List Nat))
    (lab : List Nat) (j : Nat) (seq0 : List Nat) (after : List SelexLine) (rest : List Nat)
    (hbefore : ∀ t ∈ before, CommentOk t)
    (hfirst : DataOk beg L (lab ++ List.replicate j 32) seq0) (hlab : 32 ∉ lab)
    (hs0 : seq0.getD 0 0 ≠ 32) (hL : 1 ≤ L)
    (hafter : ∀ l ∈ after, SelexLineOk beg L l)
    (hcap : ((selexFields after).length + 1) * L ≤ cap) :
    ∃ buf : Nat → Nat,
      parseSelex cap junk
          (selexText (before.map SelexLine.comment
            ++ SelexLine.data (lab ++ List.replicate j 32) seq0 :: after) ++ rest) =
        (selexLoop cap beg (beg + L) (fgetsAll (SELEXLINELEN + 1) rest []) buf
            { labels := (lab ++ List.replicate j 32) :: selexFields after,
              mapping := registerAll [] 0 ((lab ++ List.replicate j 32) :: selexFields after),
              count := (selexFields after).length + 1,
              data := seq0 ++ selexSeqs after,
              iline := ((before.length + 1 + after.length : Nat) : Int) }).andThen
          (selexFinish L) := by
  have hbeg : 1 ≤ beg := by have := hfirst.1; omega
  have hsize : SELEXLINELEN = 10000 := rfl
  have h6 : beg + L + 1 ≤ SELEXLINELEN := hfirst.2.2.2.2.2
  generalize hfirstLine : SelexLine.data (lab ++ List.replicate j 32) seq0 = first at *
  have hfok : SelexLineOk beg L first := by rw [← hfirstLine]; exact hfirst
  have hgood : ∀ l ∈ first :: after, SelexLineOk beg L l := by
    intro l hl
    rcases List.mem_cons.1 hl with rfl | hl
    · exact hfok
    · exact hafter l hl
  have hall : ∀ l ∈ before.map SelexLine.comment ++ first :: after, SelexLineOk beg L l := by
    intro l hl
    rcases List.mem_append.1 hl with hl | hl
    · obtain ⟨t, ht, rfl⟩ := List.mem_map.1 hl
      exact hbefore t ht
    · exact hgood l hl
  have hmapc : (before.map SelexLine.comment).map (fun l => l.text ++ [10])
      = before.map (fun t => t ++ [10]) := by
    rw [List.map_map]; rfl
  have htextc : selexText (before.map SelexLine.comment)
      = (before.map (fun t => t ++ [10])).flatten := by
    unfold selexText; rw [hmapc]
  have hc0 : first.text ++ [10] = lab ++ List.replicate j 32 ++ [32] ++ seq0 ++ [10] := by
    rw [← hfirstLine]; rfl
  have hc0len : (first.text ++ [10]).length = beg + L + 1 := by
    rw [hc0]
    have := hfirst.1
    have := hfirst.2.1
    simp at *; omega
  -- the first loop
  have hchunks := fgetsAll_selexText beg L _ rest hall
  have hgeom : selexGeometry (SELEXLINELEN + 1)
      (fgetsAll (SELEXLINELEN + 1)
        (selexText (before.map SelexLine.comment ++ first :: after) ++ rest) []) junk 0 0
      = { line := fgetsStore ((before.map (fun t => t ++ [10])).foldl fgetsStore junk)
            (first.text ++ [10]),
          iline := ((before.length : Nat) : Int) + 1,
          pos := ((before.map (fun t => t ++ [10])).flatten).length + (first.text ++ [10]).length,
          beg := beg, endCol := beg + L, seqlen := L } := by
    rw [hchunks, List.map_append, hmapc, List.map_cons, List.append_assoc,
      selexGeometry_comments _ _ hbefore, hc0, List.cons_append,
      selexGeometry_data beg L lab seq0 j _ _ _ _ hfirst hlab hs0 hL]
    simp
  -- the length of the first data line
  have hnz : ∀ b ∈ first.text ++ [10], (b == 0) = false := by
    intro b hb
    rw [hc0] at hb
    have hb' : b ≠ 0 := by
      intro e
      subst e
      simp only [List.mem_append, List.mem_singleton] at hb
      rcases hb with ((hb | hb) | hb) | hb
      · have := hfirst.2.2.1 0 (by simpa using hb)
        rw [labelStop_zero] at this
        exact absurd this (by decide)
      · exact absurd hb (by decide)
      · exact absurd (hfirst.2.2.2.1 0 hb) (by decide)
      · exact absurd hb (by decide)
    simpa using hb'
  have hstrlen : scanFrom (fun b => b == 0)
      (fgetsStore ((before.map (fun t => t ++ [10])).foldl fgetsStore junk) (first.text ++ [10]))
      (SELEXLINELEN + 1) 0 = (first.text ++ [10]).length := by
    have := scanFrom_fgetsStore (fun b => b == 0)
      ((before.map (fun t => t ++ [10])).foldl fgetsStore junk) (first.text ++ [10])
      (first.text ++ [10]) [] 0 (SELEXLINELEN + 1) 0 (by simp) hnz (by simp) (by omega)
    simpa using this
  have hdrop : (selexText (before.map SelexLine.comment ++ first :: after) ++ rest).drop
      ((before.map (fun t => t ++ [10])).flatten).length = selexText (first :: after) ++ rest := by
    rw [selexText_append, htextc, List.append_assoc, List.drop_left' rfl]
  have hchunks2 := fgetsAll_selexText beg L (first :: after) rest hgood
  have hfields : selexFields (first :: after) = (lab ++ List.replicate j 32) :: selexFields after := by
    rw [← hfirstLine]; rfl
  have hseqs : selexSeqs (first :: after) = seq0 ++ selexSeqs after := by
    rw [← hfirstLine]; rfl
  refine ⟨((first :: after).map (fun l => l.text ++ [10])).foldl fgetsStore
    (fgetsStore ((before.map (fun t => t ++ [10])).foldl fgetsStore junk) (first.text ++ [10])), ?_⟩
  unfold parseSelex
  simp only [hgeom, hstrlen]
  rw [if_neg (by omega), if_pos (by omega), Nat.add_sub_cancel, hdrop, hchunks2, selexLoop_append,
    selexLoop_eq cap beg (beg + L) _ _ _ hbeg (by
      intro c hc
      obtain ⟨l, hl, rfl⟩ := List.mem_map.1 hc
      exact selexInRange_of_ok beg L l (hgood l hl)),
    selexSteps_lines cap beg L (first :: after) _ hgood (by
      rw [hfields]; simpa using hcap)]
  simp only [hfields, hseqs, List.nil_append, Nat.zero_add, List.length_nil, List.length_cons,
    Int.add_sub_cancel, Parsed.andThen_ok]
  have e : ((before.length : Nat) : Int) + ((after.length + 1 : Nat) : Int)
      = ((before.length + 1 + after.length : Nat) : Int) := by push_cast; omega
  rw [e]

/-- A line with a byte other than a space in the column before the sequence, after a
first data line and further well-formed lines: `parseSelex` fails at that line. -/
theorem parseSelex_misaligned (cap beg L : Nat) (junk : Nat → Nat) (before : List (List Nat))
    (lab : List Nat) (j : Nat) (seq0 : List Nat) (after : List SelexLine) (bad rest : List Nat)
    (hbefore : ∀ t ∈ before, CommentOk t)
    (hfirst : DataOk beg L (lab ++ List.replicate j 32) seq0) (hlab : 32 ∉ lab)
    (hs0 : seq0.getD 0 0 ≠ 32) (hL : 1 ≤ L)
    (hafter : ∀ l ∈ after, SelexLineOk beg L l)
    (hcap : ((selexFields after).length + 1) * L ≤ cap)
    (hbad10 : 10 ∉ bad) (hbadlen : bad.length + 1 ≤ SELEXLINELEN)
    (hbadcom : isSelexComment (bad.getD 0 0) = false)
    (hbadbeg : beg ≤ bad.length) (hbadsp : bad.getD (beg - 1) 0 ≠ 32) :
    parseSelex cap junk
        (selexText (before.map SelexLine.comment
          ++ SelexLine.data (lab ++ List.replicate j 32) seq0 :: after) ++ (bad ++ 10 :: rest)) =
      Parsed.ioError (intcat selexErrmsg
        (((before.length + 1 + after.length : Nat) : Int) + 1)) := by
  obtain ⟨buf, e⟩ := parseSelex_reaches cap beg L junk before lab j seq0 after (bad ++ 10 :: rest)
    hbefore hfirst hlab hs0 hL hafter hcap
  have hbeg : 1 ≤ beg := by have := hfirst.1; omega
  have hchunk := fgetsAll_line (SELEXLINELEN + 1) bad rest [] hbad10 (by simp; omega)
  rw [List.nil_append] at hchunk
  have hr : SelexInRange beg (beg + L) (bad ++ [10]) := by
    refine ⟨by simp, Or.inr ⟨by simp; omega, Or.inl ?_⟩⟩
    rw [getD_append_left _ _ _ (by omega)]
    exact hbadsp
  rw [e, hchunk]
  simp only [selexLoop]
  rw [selexLine_eq cap beg (beg + L) buf _ _ hbeg hr]
  unfold selexStep
  rw [getD_append_left _ _ _ (by omega), getD_append_left _ _ _ (by omega), hbadcom]
  simp only [Bool.false_eq_true, if_false]
  rw [if_pos hbadsp]
  rfl

theorem scanFrom_of_drop (stop : Nat → Bool) (old : Nat → Nat) (c l r : List Nat) (a n i : Nat)
    (h : (c ++ [0]).drop i = l ++ a :: r) (hl : ∀ b ∈ l, stop b = false) (ha : stop a = true)
    (hn : l.length < n) (k : Nat) (hk : k = i + l.length) :
    scanFrom stop (fgetsStore old c) n i = k := by
  rw [hk]; exact scanFrom_fgetsStore stop old c l r a n i h hl ha hn

/-- A data line of more than `SELEXLINELEN` bytes: `fgets` returns it in two pieces and
the second piece fails the column test. -/
theorem parseSelex_long_line (junk : Nat → Nat) (A : List Nat) (hA : ∀ b ∈ A, b = 65)
    (hlen : A.length = 9998) :
    parseSelex 9999 junk (97 :: 32 :: (A ++ [65, 10]))
      = Parsed.ioError (intcat selexErrmsg 2) := by
  have hsize : SELEXLINELEN + 1 = 10001 := rfl
  have hch : fgetsAll (SELEXLINELEN + 1) (97 :: 32 :: (A ++ [65, 10])) []
      = [97 :: 32 :: A, [65, 10]] := by
    have h10 : 10 ∉ (97 :: 32 :: A) := by
      intro h
      rcases List.mem_cons.1 h with h | h
      · exact absurd h (by decide)
      · rcases List.mem_cons.1 h with h | h
        · exact absurd h (by decide)
        · exact absurd (hA 10 h) (by decide)
    have := fgetsAll_full (SELEXLINELEN + 1) (97 :: 32 :: A) [65, 10] [] h10 (by simp)
      (by simp [hlen, hsize])
    simp only [List.cons_append, List.nil_append] at this
    rw [this]
    rfl
  obtain ⟨a0, A', rfl⟩ : ∃ a0 A', A = a0 :: A' := by
    cases A with
    | nil => simp at hlen
    | cons a b => exact ⟨a, b, rfl⟩
  have ha0 : a0 = 65 := hA a0 (List.mem_cons_self _ _)
  subst ha0
  have hlen' : A'.length = 9997 := by simpa using hlen
  simp only [List.cons_append] at hch
  have e1 : scanFrom (fun b => b == 32) (fgetsStore junk (97 :: 32 :: 65 :: A'))
      (SELEXLINELEN + 1) 0 = 1 :=
    scanFrom_of_drop _ junk _ [97] (65 :: A' ++ [0]) 32 _ 0 (by simp) (by simp) (by simp)
      (by simp [hsize]) 1 (by simp)
  have e2 : scanFrom (fun b => b != 32) (fgetsStore junk (97 :: 32 :: 65 :: A'))
      (SELEXLINELEN + 1 - 1) 1 = 2 :=
    scanFrom_of_drop _ junk _ [32] (A' ++ [0]) 65 _ 1 (by simp) (by simp) (by simp)
      (by simp [hsize]) 2 (by simp)
  have e3 : scanFrom (fun b => decide (cchar b < 32)) (fgetsStore junk (97 :: 32 :: 65 :: A'))
      (SELEXLINELEN + 1 - 2) 2 = 10000 :=
    scanFrom_of_drop _ junk _ (65 :: A') [] 0 _ 2 (by simp)
      (fun b hb => by rw [hA b hb]; decide) (by decide) (by simp [hsize, hlen'])
      10000 (by simp [hlen'])
  have e4 : scanFrom (fun b => b == 0) (fgetsStore junk (97 :: 32 :: 65 :: A'))
      (SELEXLINELEN + 1) 0 = 10000 :=
    scanFrom_of_drop _ junk _ (97 :: 32 :: 65 :: A') [] 0 _ 0 (by simp)
      (fun b hb => by
        rcases List.mem_cons.1 hb with h | h
        · rw [h]; decide
        · rcases List.mem_cons.1 h with h | h
          · rw [h]; decide
          · rw [hA b h]; decide)
      (by decide) (by simp [hsize, hlen']) 10000 (by simp [hlen'])
  have hr1 : SelexInRange 2 10000 (97 :: 32 :: 65 :: A') :=
    ⟨by simp, Or.inr ⟨by simp, Or.inr (by simp [hlen'])⟩⟩
  have hr2 : SelexInRange 2 10000 [65, 10] :=
    ⟨by simp, Or.inr ⟨by simp, Or.inl (by decide)⟩⟩
  have hgeom : selexGeometry (SELEXLINELEN + 1) [97 :: 32 :: 65 :: A', [65, 10]] junk 0 0
      = { line := fgetsStore junk (97 :: 32 :: 65 :: A'), iline := 1,
          pos := 10000, beg := 2, endCol := 10000, seqlen := 9998 } := by
    have h0 : fgetsStore junk (97 :: 32 :: 65 :: A') 0 = 97 := by
      rw [fgetsStore_lt _ _ _ (by simp)]; rfl
    simp only [selexGeometry, h0, e1, e2, e3, show isSelexComment 97 = false by decide,
      Bool.false_eq_true, if_false, List.length_cons, hlen']
    rfl
  unfold parseSelex
  simp only [hch, List.cons_append, hgeom, e4]
  rw [if_neg (by rw [hsize]; omega), if_pos (le_refl _), Nat.sub_self, List.drop_zero, hch]
  rw [selexLoop_eq 9999 2 10000 _ _ _ (by omega) (by
    intro c hc
    rcases List.mem_cons.1 hc with h | h
    · rw [h]; exact hr1
    · rw [List.mem_singleton] at h; rw [h]; exact hr2)]
  have hstep1 : selexStep 9999 2 10000 (97 :: 32 :: 65 :: A')
      { labels := [], mapping := [], count := 0, data := [], iline := 1 - 1 } =
      Parsed.ok { labels := [[97]], mapping := registryAdd [] (keyOfLabel [97]) 0, count := 1,
                  data := 65 :: A', iline := 1 } := by
    have ht : (List.take 9998 (65 :: A')) = 65 :: A' := List.take_of_length_le (by simp [hlen'])
    simp only [selexStep, List.getD_cons_zero, show isSelexComment 97 = false by decide,
      Bool.false_eq_true, if_false, List.getD_cons_succ, ne_eq, not_true_eq_false,
      List.drop_succ_cons, List.drop_zero, List.length_nil, Nat.zero_add, ht, List.length_cons,
      hlen', List.take_succ_cons, List.take_zero, List.nil_append]
    rw [if_neg (by omega)]
    have : List.takeWhile (fun b => !labelStop b) [97] = [97] := by decide
    rw [this]
    rfl
  simp only [selexSteps, hstep1, Parsed.andThen_ok]
  simp only [selexStep, List.getD_cons_zero, show isSelexComment 65 = false by decide,
    Bool.false_eq_true, if_false, List.getD_cons_succ, ne_eq]
  rw [if_pos (by decide)]
  rfl

/-! ## What `parseFasta` returns on any file -/

theorem registerAll_append (m : Registry) (i : Nat) (ls : List (List Nat)) (l : List Nat) :
    registerAll m i (ls ++ [l]) = registryAdd (registerAll m i ls) (keyOfLabel l) (i + ls.length) := by
  induction ls generalizing m i with
  | nil => simp [registerAll]
  | cons a ls ih =>
    simp only [List.cons_append, registerAll, List.length_cons, List.append_eq]
    rw [ih, show i + 1 + ls.length = i + (ls.length + 1) by omega]

theorem mem_takeWhile_imp {α : Type} (q : α → Bool) (l : List α) (a : α)
    (h : a ∈ l.takeWhile q) : q a = true ∧ a ∈ l := by
  induction l with
  | nil => simp at h
  | cons b l ih =>
    rw [List.takeWhile_cons] at h
    by_cases hb : q b = true
    · rw [if_pos hb] at h
      rcases List.mem_cons.1 h with e | e
      · rw [e]; exact ⟨hb, List.mem_cons_self _ _⟩
      · exact ⟨(ih e).1, List.mem_cons_of_mem _ (ih e).2⟩
    · rw [if_neg hb] at h
      simp at h

theorem labelOk_headerLabel (c : List Nat) (hlen : c.length < FASTALINELEN) :
    LabelOk (headerLabel c) := by
  constructor
  · have h1 := length_takeWhile_le (fun b => !labelStop b) (c.drop 1)
    rw [List.length_drop] at h1
    have : FASTALINELEN = 1000 := rfl
    unfold headerLabel
    omega
  · intro b hb
    have := (mem_takeWhile_imp _ _ _ hb).1
    simpa using this

theorem fastaInv_init (cap : Nat) : FastaInv cap fastaInit := by
  refine ⟨?_, ?_, rfl, rfl, ?_, ?_⟩ <;> simp [fastaInit]

theorem fastaInv_step (cap : Nat) (c : List Nat) (s t : FastaState)
    (hlen : c.length < FASTALINELEN) (hs : FastaInv cap s)
    (hstep : fastaStep cap c s = Parsed.ok t) : FastaInv cap t := by
  obtain ⟨h1, h2, h3, h4, h5, h6⟩ := hs
  unfold fastaStep at hstep
  by_cases hh : cchar (c.getD 0 0) = 62
  · rw [if_pos hh] at hstep
    by_cases hbad : s.seqlen ≠ s.curlen ∧ s.seqlen ≠ 0
    · rw [if_pos hbad] at hstep
      exact absurd hstep (by simp)
    · rw [if_neg hbad] at hstep
      injection hstep with hstep
      subst hstep
      refine ⟨h1, ?_, ?_, ?_, ?_, h6⟩
      · intro l hl
        rcases List.mem_append.1 hl with hl | hl
        · exact h2 l hl
        · rw [List.mem_singleton] at hl
          rw [hl]
          exact labelOk_headerLabel c hlen
      · show registryAdd s.mapping _ _ = registerAll [] 0 (s.labels ++ [headerLabel c])
        rw [registerAll_append, h3, Nat.zero_add]
      · show s.count + 1 = (s.labels ++ [headerLabel c]).length
        rw [h4]; simp
      · show (if s.seqlen ≠ s.curlen then s.curlen else s.seqlen) + 0 ≤ s.data.length
        split <;> omega
  · rw [if_neg hh] at hstep
    by_cases hov : cap < s.data.length + (seqBytes c).length
    · rw [if_pos hov] at hstep
      exact absurd hstep (by simp)
    · rw [if_neg hov] at hstep
      injection hstep with hstep
      subst hstep
      refine ⟨?_, h2, h3, h4, ?_, ?_⟩
      · intro b hb
        rcases List.mem_append.1 hb with hb | hb
        · exact h1 b hb
        · have := mem_takeWhile_imp _ _ _ hb
          simpa using this.1
      · show s.seqlen + (s.curlen + (seqBytes c).length) ≤ (s.data ++ seqBytes c).length
        rw [List.length_append]; omega
      · show (s.data ++ seqBytes c).length ≤ cap
        rw [List.length_append]; omega

theorem fastaInv_steps (cap : Nat) (cs : List (List Nat)) (s t : FastaState)
    (hcs : ∀ c ∈ cs, c.length < FASTALINELEN) (hs : FastaInv cap s)
    (hsteps : fastaSteps cap cs s = Parsed.ok t) : FastaInv cap t := by
  induction cs generalizing s with
  | nil =>
    simp only [fastaSteps] at hsteps
    injection hsteps with e
    rw [← e]; exact hs
  | cons c cs ih =>
    simp only [fastaSteps] at hsteps
    cases hst : fastaStep cap c s with
    | ok u =>
      rw [hst] at hsteps
      have hc := hcs c (List.mem_cons_self _ _)
      exact ih u (fun c hc => hcs c (List.mem_cons_of_mem _ hc))
        (fastaInv_step cap c s u hc hs hst) hsteps
    | ioError m => rw [hst] at hsteps; exact absurd hsteps (by simp)
    | fault f => rw [hst] at hsteps; exact absurd hsteps (by simp)

theorem fastaBytes_step (cap : Nat) (c : List Nat) (s t : FastaState)
    (hbytes : ∀ b ∈ c, b < 256) (hs : ∀ b ∈ s.data, b < 256)
    (hstep : fastaStep cap c s = Parsed.ok t) : ∀ b ∈ t.data, b < 256 := by
  unfold fastaStep at hstep
  by_cases hh : cchar (c.getD 0 0) = 62
  · rw [if_pos hh] at hstep
    by_cases hbad : s.seqlen ≠ s.curlen ∧ s.seqlen ≠ 0
    · rw [if_pos hbad] at hstep
      exact absurd hstep (by simp)
    · rw [if_neg hbad] at hstep
      injection hstep with hstep
      subst hstep
      exact hs
  · rw [if_neg hh] at hstep
    by_cases hov : cap < s.data.length + (seqBytes c).length
    · rw [if_pos hov] at hstep
      exact absurd hstep (by simp)
    · rw [if_neg hov] at hstep
      injection hstep with hstep
      subst hstep
      intro b hb
      rcases List.mem_append.1 hb with hb | hb
      · exact hs b hb
      · exact hbytes b (mem_takeWhile_imp _ _ _ hb).2

theorem fastaBytes_steps (cap : Nat) (cs : List (List Nat)) (s t : FastaState)
    (hcs : ∀ c ∈ cs, ∀ b ∈ c, b < 256) (hs : ∀ b ∈ s.data, b < 256)
    (hsteps : fastaSteps cap cs s = Parsed.ok t) : ∀ b ∈ t.data, b < 256 := by
  induction cs generalizing s with
  | nil =>
    simp only [fastaSteps] at hsteps
    injection hsteps with e
    rw [← e]; exact hs
  | cons c cs ih =>
    simp only [fastaSteps] at hsteps
    cases hst : fastaStep cap c s with
    | ok u =>
      rw [hst] at hsteps
      exact ih u (fun c hc => hcs c (List.mem_cons_of_mem _ hc))
        (fastaBytes_step cap c s u (hcs c (List.mem_cons_self _ _)) hs hst) hsteps
    | ioError m => rw [hst] at hsteps; exact absurd hsteps (by simp)
    | fault f => rw [hst] at hsteps; exact absurd hsteps (by simp)

/-- What a successful `parseFasta` returns, whatever the file: at least two rows of at
least one column, bytes that are at least 32 as a `char`, labels that the label scan
passes over whole, and the registry and count that follow from the labels. -/
theorem parseFasta_ok_inv (cap : Nat) (junk : Nat → Nat) (file : List Nat) (r : Alignment)
    (h : parseFasta cap junk file = Parsed.ok r) :
    2 ≤ r.rows ∧ 1 ≤ r.cols ∧ r.data.length = r.rows * r.cols ∧ r.rows * r.cols ≤ cap ∧
      (∀ b ∈ r.data, 32 ≤ cchar b) ∧ (∀ l ∈ r.labels, LabelOk l) ∧
      r.mapping = registerAll [] 0 r.labels ∧ r.count = r.labels.length := by
  rw [parseFasta_eq] at h
  cases hst : fastaSteps cap (fgetsAll FASTALINELEN file []) fastaInit with
  | ioError m => rw [hst] at h; exact absurd h (by simp)
  | fault f => rw [hst] at h; exact absurd h (by simp)
  | ok s =>
    rw [hst] at h
    have hinv := fastaInv_steps cap _ fastaInit s (fun c hc => by
      obtain ⟨_, h2, _⟩ := fgetsAll_chunk FASTALINELEN file [] c (by decide) hc
      omega) (fastaInv_init cap) hst
    obtain ⟨h1, h2, h3, h4, h5, h6⟩ := hinv
    simp only [Parsed.andThen_ok, fastaFinish] at h
    by_cases hne : s.seqlen ≠ s.curlen
    · rw [if_pos hne] at h; exact absurd h (by simp)
    · rw [if_neg hne] at h
      by_cases hz : s.seqlen = 0
      · rw [if_pos hz] at h; exact absurd h (by simp)
      · rw [if_neg hz] at h
        injection h with h
        subst h
        have hpos : 0 < s.seqlen := by omega
        have hdiv : s.data.length / s.seqlen * s.seqlen ≤ s.data.length := Nat.div_mul_le_self _ _
        have h2rows : 2 ≤ s.data.length / s.seqlen := by
          rw [Nat.le_div_iff_mul_le hpos]; omega
        refine ⟨h2rows, hpos, ?_, by simp only; omega, ?_, h2, h3, h4⟩
        · simp only [List.length_take]; omega
        · intro b hb; exact h1 b (List.mem_of_mem_take hb)

/-- The bytes of the matrix that `parseFasta` returns are bytes of the file. -/
theorem parseFasta_ok_bytes (cap : Nat) (junk : Nat → Nat) (file : List Nat) (r : Alignment)
    (hbytes : ∀ b ∈ file, b < 256) (h : parseFasta cap junk file = Parsed.ok r) :
    ∀ b ∈ r.data, b < 256 := by
  rw [parseFasta_eq] at h
  cases hst : fastaSteps cap (fgetsAll FASTALINELEN file []) fastaInit with
  | ioError m => rw [hst] at h; exact absurd h (by simp)
  | fault f => rw [hst] at h; exact absurd h (by simp)
  | ok s =>
    rw [hst] at h
    have hb := fastaBytes_steps cap _ fastaInit s (fun c hc b hb => by
      obtain ⟨_, _, h3⟩ := fgetsAll_chunk FASTALINELEN file [] c (by decide) hc
      rcases h3 b hb with e | e
      · simp at e
      · exact hbytes b e) (by simp [fastaInit]) hst
    simp only [Parsed.andThen_ok, fastaFinish] at h
    by_cases hne : s.seqlen ≠ s.curlen
    · rw [if_pos hne] at h; exact absurd h (by simp)
    · rw [if_neg hne] at h
      by_cases hz : s.seqlen = 0
      · rw [if_pos hz] at h; exact absurd h (by simp)
      · rw [if_neg hz] at h
        injection h with h
        subst h
        intro b hb2
        exact hb b (List.mem_of_mem_take hb2)

theorem flatten_chunksOf (w q : Nat) (row : List Nat) :
    (chunksOf w q row).flatten = row.take (w * q) := by
  induction q generalizing row with
  | zero => simp [chunksOf]
  | succ q ih =>
    simp only [chunksOf, List.flatten_cons, ih]
    rw [Nat.mul_succ, Nat.add_comm (w * q) w, List.take_add]

theorem flatten_fastaRowLines (w : Nat) (row : List Nat) : (fastaRowLines w row).flatten = row := by
  unfold fastaRowLines
  rw [List.flatten_append, flatten_chunksOf]
  simp

theorem getD_drop (l : List Nat) (i j : Nat) : (l.drop i).getD j 0 = l.getD (i + j) 0 := by
  simp [List.getD_eq_getElem?_getD, List.getElem?_drop]

theorem getD_take_zero (l : List Nat) (w : Nat) (hw : 0 < w) : (l.take w).getD 0 0 = l.getD 0 0 := by
  cases l with
  | nil => simp
  | cons a l =>
    cases w with
    | zero => omega
    | succ w => simp

theorem lineOf_drop (w : Nat) (row line : List Nat) (h : LineOf w (row.drop w) line) :
    LineOf w row line := by
  obtain ⟨h1, h2, h3⟩ := h
  refine ⟨fun b hb => List.mem_of_mem_drop (h1 b hb), h2, ?_⟩
  rcases h3 with h3 | ⟨k, hk, e⟩
  · exact Or.inl h3
  · right
    refine ⟨k + 1, ?_, ?_⟩
    · rw [List.length_drop] at hk
      rw [Nat.mul_succ]; omega
    · rw [e, getD_drop, Nat.mul_succ, Nat.add_comm]

theorem lineOf_chunksOf (w q : Nat) (hw : 0 < w) (row line : List Nat)
    (h : line ∈ chunksOf w q row) : LineOf w row line := by
  induction q generalizing row with
  | zero => simp [chunksOf] at h
  | succ q ih =>
    simp only [chunksOf, List.mem_cons] at h
    rcases h with rfl | h
    · refine ⟨fun b hb => List.mem_of_mem_take hb, by rw [List.length_take]; omega, ?_⟩
      cases row with
      | nil => left; simp
      | cons a row =>
        right
        exact ⟨0, by simp, by rw [getD_take_zero _ _ hw]; simp⟩
    · exact lineOf_drop w row line (ih _ h)

theorem lineOf_fastaRowLines (w : Nat) (hw : 0 < w) (row line : List Nat)
    (h : line ∈ fastaRowLines w row) : LineOf w row line := by
  unfold fastaRowLines at h
  rcases List.mem_append.1 h with h | h
  · exact lineOf_chunksOf w _ hw row line h
  · rw [List.mem_singleton] at h
    subst h
    refine ⟨fun b hb => List.mem_of_mem_drop hb, ?_, ?_⟩
    · rw [List.length_drop]
      have := Nat.mod_lt row.length hw
      have := Nat.div_add_mod row.length w
      omega
    · by_cases hlt : w * (row.length / w) < row.length
      · right
        exact ⟨row.length / w, hlt, by rw [getD_drop]; simp⟩
      · left
        exact List.drop_of_length_le (by omega)

theorem lineOk_of_lineOf (row line : List Nat) (h : LineOf 60 row line)
    (hrow : ∀ b ∈ row, 32 ≤ cchar b ∧ b < 256)
    (hgt : ∀ k, 60 * k < row.length → row.getD (60 * k) 0 ≠ 62) : LineOk line := by
  obtain ⟨h1, h2, h3⟩ := h
  refine ⟨by omega, fun b hb => (hrow b (h1 b hb)).1, ?_⟩
  rcases h3 with rfl | ⟨k, hk, e⟩
  · decide
  · rw [e]
    have hb : row.getD (60 * k) 0 ∈ row := by
      rw [List.getD_eq_getElem _ _ hk]
      exact List.getElem_mem _
    intro hc
    exact hgt k hk ((cchar_eq_iff _ 62 (hrow _ hb).2 (by norm_num)).1 (by exact_mod_cast hc))

/-- The records that `writeFasta` prints at width 60 are well formed when the labels
and rows are and no line of a row starts with `>`. -/
theorem fastaRecordsSpec_ok (L : Nat) (labels : List (List Nat)) (seq : List Nat)
    (hlab : ∀ l ∈ labels, LabelOk l) (hlen : labels.length * L ≤ seq.length)
    (hrow : ∀ row ∈ chunksOf L labels.length seq, (∀ b ∈ row, 32 ≤ cchar b ∧ b < 256) ∧
      ∀ k, 60 * k < row.length → row.getD (60 * k) 0 ≠ 62) :
    (∀ x ∈ fastaRecordsSpec 60 L labels seq,
        LabelOk x.1 ∧ (∀ l ∈ x.2, LineOk l) ∧ x.2.flatten.length = L) ∧
      (fastaRecordsSpec 60 L labels seq).map (fun x => x.1) = labels ∧
      recordsData (fastaRecordsSpec 60 L labels seq) = seq.take (labels.length * L) := by
  induction labels generalizing seq with
  | nil => simp [fastaRecordsSpec, recordsData]
  | cons label rest ih =>
    have hL : L + rest.length * L ≤ seq.length := by
      rw [List.length_cons, Nat.add_mul] at hlen; omega
    have hr0 := hrow (seq.take L) (by simp [chunksOf])
    obtain ⟨i1, i2, i3⟩ := ih (seq.drop L) (fun l hl => hlab l (List.mem_cons_of_mem _ hl))
      (by rw [List.length_drop]; omega)
      (fun row hr => hrow row (by simp only [List.length_cons, chunksOf]; exact List.mem_cons_of_mem _ hr))
    refine ⟨?_, ?_, ?_⟩
    · intro x hx
      simp only [fastaRecordsSpec, List.mem_cons] at hx
      rcases hx with rfl | hx
      · refine ⟨hlab label (List.mem_cons_self _ _), fun l hl => ?_, ?_⟩
        · exact lineOk_of_lineOf _ l (lineOf_fastaRowLines 60 (by norm_num) _ l hl) hr0.1 hr0.2
        · simp only [flatten_fastaRowLines, List.length_take]; omega
      · exact i1 x hx
    · simp only [fastaRecordsSpec, List.map_cons, i2]
    · have e : recordsData (fastaRecordsSpec 60 L (label :: rest) seq)
          = (fastaRowLines 60 (seq.take L)).flatten ++ recordsData (fastaRecordsSpec 60 L rest (seq.drop L)) := rfl
      rw [e, flatten_fastaRowLines, i3, List.length_cons, Nat.add_mul, Nat.one_mul,
        Nat.add_comm (rest.length * L) L, List.take_add]

theorem length_fastaRecordsSpec (w L : Nat) (labels : List (List Nat)) (seq : List Nat) :
    (fastaRecordsSpec w L labels seq).length = labels.length := by
  induction labels generalizing seq with
  | nil => rfl
  | cons label rest ih => simp [fastaRecordsSpec, ih]

theorem chunksOf_append (w q : Nat) (x tail : List Nat) (h : w * q ≤ x.length) :
    chunksOf w q (x ++ tail) = chunksOf w q x := by
  rw [← chunksOf_take w q x.length (x ++ tail) h, List.take_left' rfl]

theorem labelOk_no_nul (l : List Nat) (h : LabelOk l) : 0 ∉ l := by
  intro h0
  have := h.2 0 h0
  rw [labelStop_zero] at this
  exact absurd this (by decide)

theorem registryOk_registerAll (labels : List (List Nat)) :
    RegistryOk labels (registerAll [] 0 labels) := by
  induction labels using List.reverseRecOn with
  | nil => exact registryOk_nil
  | append_singleton ls l ih =>
    rw [registerAll_append, Nat.zero_add]
    exact registryOk_add ls _ l ih

theorem keyPositions_none (k : List Nat) (ls : List (List Nat)) (s : Nat)
    (h : ∀ (m : Nat) (l : List Nat), ls[m]? = some l → keyOfLabel l ≠ k) : keyPositions k ls s = [] := by
  induction ls generalizing s with
  | nil => rfl
  | cons a ls ih =>
    simp only [keyPositions]
    rw [if_neg (h 0 a (by simp))]
    exact ih (s + 1) (fun m l hm => h (m + 1) l (by simpa using hm))

theorem keyPositions_one (k : List Nat) (ls : List (List Nat)) (s i : Nat) (hi : i < ls.length)
    (h : ∀ (m : Nat) (l : List Nat), ls[m]? = some l → (keyOfLabel l = k ↔ m = i)) :
    keyPositions k ls s = [s + i] := by
  induction ls generalizing s i with
  | nil => simp at hi
  | cons a ls ih =>
    simp only [keyPositions]
    cases i with
    | zero =>
      rw [if_pos ((h 0 a (by simp)).2 rfl)]
      rw [keyPositions_none k ls (s + 1) (fun m l hm hk => by
        have := (h (m + 1) l (by simpa using hm)).1 hk
        omega)]
      rfl
    | succ i =>
      rw [if_neg (fun hk => by have := (h 0 a (by simp)).1 hk; omega)]
      rw [ih (s + 1) i (by simpa using hi) (fun m l hm => by
        have := h (m + 1) l (by simpa using hm)
        rw [this]; omega)]
      congr 1
      omega

theorem keyPositions_two (k : List Nat) (ls : List (List Nat)) (s i j : Nat) (hij : i < j)
    (hj : j < ls.length)
    (h : ∀ (m : Nat) (l : List Nat), ls[m]? = some l → (keyOfLabel l = k ↔ m = i ∨ m = j)) :
    keyPositions k ls s = [s + i, s + j] := by
  induction ls generalizing s i j with
  | nil => simp at hj
  | cons a ls ih =>
    simp only [keyPositions]
    cases j with
    | zero => omega
    | succ j =>
      cases i with
      | zero =>
        rw [if_pos ((h 0 a (by simp)).2 (Or.inl rfl))]
        rw [keyPositions_one k ls (s + 1) j (by simpa using hj) (fun m l hm => by
          have := h (m + 1) l (by simpa using hm)
          rw [this]; omega)]
        simp only [Nat.add_zero, List.cons.injEq, and_true, true_and]
        omega
      | succ i =>
        rw [if_neg (fun hk => by have := (h 0 a (by simp)).1 hk; omega)]
        rw [ih (s + 1) i j (by omega) (by simpa using hj) (fun m l hm => by
          have := h (m + 1) l (by simpa using hm)
          rw [this]; omega)]
        simp only [List.cons.injEq, and_true]
        omega

/-! ## Further lemmas -/

theorem headerChunks_length (label : List Nat) (h : label.length ≤ 997) :
    (headerChunks label).length = 1 := by
  unfold headerChunks
  rw [if_neg (by omega)]
  rfl

theorem recordsLines_eq_sum (recs : List (List Nat × List (List Nat)))
    (h : ∀ x ∈ recs, x.1.length ≤ 997) :
    recordsLines recs = (recs.map (fun x => 1 + x.2.length)).sum := by
  induction recs with
  | nil => rfl
  | cons r recs ih =>
    have e : recordsLines (r :: recs) = (recordChunks r).length + recordsLines recs := by
      simp [recordsLines]
    rw [e, ih (fun x hx => h x (List.mem_cons_of_mem _ hx))]
    simp only [recordChunks, List.length_append, List.length_map, List.map_cons, List.sum_cons,
      headerChunks_length r.1 (h r (List.mem_cons_self _ _))]

theorem getD_lt_of_forall (l : List Nat) (n : Nat) (h : ∀ b ∈ l, b < n) (hn : 0 < n) (i : Nat) :
    l.getD i 0 < n := by
  by_cases hi : i < l.length
  · rw [List.getD_eq_getElem _ _ hi]
    exact h _ (List.getElem_mem _)
  · rw [List.getD_eq_default _ _ (by omega)]
    exact hn

theorem writeSelexRows_ne_valueError (w lenseq : Nat) (labels : List (List Nat)) (seq : List Nat)
    (old : Nat → Nat) (m : List Char) :
    writeSelexRows w lenseq labels seq old ≠ Written.valueError m := by
  induction labels generalizing seq old with
  | nil => simp [writeSelexRows]
  | cons label rest ih =>
    simp only [writeSelexRows]
    split
    · simp
    · have := ih (seq.drop lenseq) (selexOutline w lenseq old label (seq.take lenseq))
      cases h : writeSelexRows w lenseq rest (seq.drop lenseq)
          (selexOutline w lenseq old label (seq.take lenseq)) with
      | valueError m2 =>
        rw [h] at this
        simp only [Written.wrap]
        intro e
        injection e with e
        exact this (by rw [e])
      | file out => simp [Written.wrap]
      | fault f => simp [Written.wrap]

/-! ## Label bytes -/

theorem takeWhile_congr_mem {α : Type} (p q : α → Bool) (l : List α)
    (h : ∀ a ∈ l, p a = q a) : l.takeWhile p = l.takeWhile q := by
  induction l with
  | nil => rfl
  | cons a t ih =>
    simp only [List.takeWhile_cons]
    rw [h a (List.mem_cons_self _ _), ih (fun b hb => h b (List.mem_cons_of_mem _ hb))]

theorem labelStop_byte (b : Nat) (hb : b < 256) :
    labelStop b = decide ((b < 32 ∧ b ≠ 20) ∨ 128 ≤ b) := by
  unfold labelStop cchar
  by_cases h : b < 128
  · simp only [h, if_true]
    apply decide_eq_decide.2
    constructor
    · rintro ⟨h1, h2⟩
      left
      constructor
      · exact_mod_cast h1
      · intro e; apply h2; rw [e]; rfl
    · rintro (⟨h1, h2⟩ | h1)
      · constructor
        · exact_mod_cast h1
        · intro e; apply h2; exact_mod_cast e
      · omega
  · simp only [h, if_false]
    apply decide_eq_decide.2
    constructor
    · intro _; right; omega
    · intro _; constructor <;> omega

theorem mem_bytesOf_lt (p : Nat → Nat) (n : Nat) (h : ∀ k, p k < 256) : ∀ b ∈ bytesOf p n, b < 256 := by
  intro b hb
  unfold bytesOf at hb
  obtain ⟨k, _, rfl⟩ := List.mem_map.1 hb
  exact h k

/-! ## Comment lines of a SELEX file -/

theorem selexFields_dataLines (ls : List SelexLine) : selexFields (dataLines ls) = selexFields ls := by
  induction ls with
  | nil => rfl
  | cons l t ih =>
    cases l with
    | comment c => simpa [dataLines, selexFields] using ih
    | data f s => simp [dataLines, selexFields, ih]

theorem selexSeqs_dataLines (ls : List SelexLine) : selexSeqs (dataLines ls) = selexSeqs ls := by
  induction ls with
  | nil => rfl
  | cons l t ih =>
    cases l with
    | comment c => simpa [dataLines, selexSeqs] using ih
    | data f s => simp [dataLines, selexSeqs, ih]

theorem parseSelex_wellformed (cap beg L : Nat) (junk : Nat → Nat) (before : List (List Nat))
    (lab : List Nat) (j : Nat) (seq0 : List Nat) (after : List SelexLine)
    (hbefore : ∀ t ∈ before, CommentOk t)
    (hfirst : DataOk beg L (lab ++ List.replicate j 32) seq0) (hlab : 32 ∉ lab)
    (hs0 : seq0.getD 0 0 ≠ 32) (hL : 1 ≤ L)
    (hafter : ∀ l ∈ after, SelexLineOk beg L l)
    (hcap : ((selexFields after).length + 1) * L ≤ cap) :
    parseSelex cap junk
        (selexText (before.map SelexLine.comment
          ++ SelexLine.data (lab ++ List.replicate j 32) seq0 :: after)) =
      Parsed.ok
        { rows := (selexFields after).length + 1, cols := L,
          data := seq0 ++ selexSeqs after,
          labels := (lab ++ List.replicate j 32) :: selexFields after,
          mapping := registerAll [] 0 ((lab ++ List.replicate j 32) :: selexFields after),
          count := (selexFields after).length + 1 } := by
  obtain ⟨buf, e⟩ := parseSelex_reaches cap beg L junk before lab j seq0 after [] hbefore hfirst
    hlab hs0 hL hafter hcap
  rw [List.append_nil] at e
  have hlen : (seq0 ++ selexSeqs after).length = ((selexFields after).length + 1) * L := by
    rw [List.length_append, length_selexSeqs beg L after hafter, hfirst.2.1, Nat.add_mul]
    omega
  rw [e, show fgetsAll (SELEXLINELEN + 1) [] [] = [] from rfl]
  simp only [selexLoop, Parsed.andThen_ok, selexFinish, hlen]
  rw [if_neg (by omega), Nat.mul_div_cancel _ (by omega), ← hlen, List.take_length]

/-! ## The capacity of the matrix buffer -/

theorem fastaStep_cap (cap cap2 : Nat) (h : cap ≤ cap2) (c : List Nat) (s : FastaState) :
    fastaStep cap c s = fastaStep cap2 c s ∨ fastaStep cap c s = Parsed.fault Fault.bufferOverrun := by
  unfold fastaStep
  by_cases h1 : cchar (c.getD 0 0) = 62
  · left; rw [if_pos h1, if_pos h1]
  · rw [if_neg h1, if_neg h1]
    by_cases h2 : cap < s.data.length + (seqBytes c).length
    · right; rw [if_pos h2]
    · left; rw [if_neg h2, if_neg (by omega)]

theorem fastaSteps_cap (cap cap2 : Nat) (h : cap ≤ cap2) (cs : List (List Nat)) (s : FastaState) :
    fastaSteps cap cs s = fastaSteps cap2 cs s ∨
      fastaSteps cap cs s = Parsed.fault Fault.bufferOverrun := by
  induction cs generalizing s with
  | nil => left; rfl
  | cons c cs ih =>
    simp only [fastaSteps]
    rcases fastaStep_cap cap cap2 h c s with e | e
    · rw [e]
      cases h3 : fastaStep cap2 c s with
      | ok t => simp only [Parsed.andThen_ok]; exact ih t
      | ioError m => left; rfl
      | fault f => left; rfl
    · right; rw [e]; rfl

theorem parseFasta_cap (cap cap2 : Nat) (h : cap ≤ cap2) (junk junk2 : Nat → Nat) (file : List Nat) :
    parseFasta cap junk file = parseFasta cap2 junk2 file ∨
      parseFasta cap junk file = Parsed.fault Fault.bufferOverrun := by
  rw [parseFasta_eq, parseFasta_eq]
  rcases fastaSteps_cap cap cap2 h (fgetsAll FASTALINELEN file []) fastaInit with e | e
  · left; rw [e]
  · right; rw [e]; rfl

theorem selexLine_cap (cap cap2 : Nat) (h : cap ≤ cap2) (beg en : Nat) (line : Nat → Nat)
    (s : SelexState) :
    selexLine cap beg en line s = selexLine cap2 beg en line s ∨
      selexLine cap beg en line s = Parsed.fault Fault.bufferOverrun := by
  unfold selexLine
  by_cases h1 : isSelexComment (line 0) = true
  · left; rw [if_pos h1, if_pos h1]
  · rw [if_neg h1, if_neg h1]
    by_cases h2 : beg = 0
    · left; rw [if_pos h2, if_pos h2]
    · rw [if_neg h2, if_neg h2]
      by_cases h3 : line (beg - 1) ≠ 32
      · left; rw [if_pos h3, if_pos h3]
      · rw [if_neg h3, if_neg h3]
        simp only
        by_cases h4 : cap < s.data.length +
            ((List.range (en - beg)).map (fun k => line (beg + k))).length
        · right; rw [if_pos h4]
        · left; rw [if_neg h4, if_neg (by omega)]

theorem selexLoop_cap (cap cap2 : Nat) (h : cap ≤ cap2) (beg en : Nat) (cs : List (List Nat))
    (line : Nat → Nat) (s : SelexState) :
    selexLoop cap beg en cs line s = selexLoop cap2 beg en cs line s ∨
      selexLoop cap beg en cs line s = Parsed.fault Fault.bufferOverrun := by
  induction cs generalizing s line with
  | nil => left; rfl
  | cons c cs ih =>
    simp only [selexLoop]
    rcases selexLine_cap cap cap2 h beg en (fgetsStore line c) s with e | e
    · rw [e]
      cases h3 : selexLine cap2 beg en (fgetsStore line c) s with
      | ok t => simp only [Parsed.andThen_ok]; exact ih _ t
      | ioError m => left; rfl
      | fault f => left; rfl
    · right; rw [e]; rfl

theorem parseSelex_cap (cap cap2 : Nat) (h : cap ≤ cap2) (junk : Nat → Nat) (file : List Nat) :
    parseSelex cap junk file = parseSelex cap2 junk file ∨
      parseSelex cap junk file = Parsed.fault Fault.bufferOverrun := by
  unfold parseSelex
  simp only
  split
  · left; rfl
  · rename_i hlen
    generalize hg : selexGeometry (SELEXLINELEN + 1) (fgetsAll (SELEXLINELEN + 1) file []) junk 0 0 = g
    rcases selexLoop_cap cap cap2 h g.beg g.endCol
      (fgetsAll (SELEXLINELEN + 1)
        (file.drop (if scanFrom (fun b => b == 0) g.line (SELEXLINELEN + 1) 0 ≤ g.pos
          then g.pos - scanFrom (fun b => b == 0) g.line (SELEXLINELEN + 1) 0 else g.pos)) [])
      g.line { labels := [], mapping := [], count := 0, data := [], iline := g.iline - 1 }
      with e | e
    · left; rw [e]
    · right; rw [e]; rfl

theorem selexLine_data_le (cap beg en : Nat) (line : Nat → Nat) (s t : SelexState)
    (hs : s.data.length ≤ cap) (h : selexLine cap beg en line s = Parsed.ok t) :
    t.data.length ≤ cap := by
  unfold selexLine at h
  split at h
  · injection h with h; subst h; exact hs
  · split at h
    · cases h
    · split at h
      · cases h
      · simp only at h
        split at h
        · cases h
        · rename_i hc
          injection h with h; subst h
          simp only [List.length_append]
          omega

theorem selexLoop_data_le (cap beg en : Nat) (cs : List (List Nat)) (line : Nat → Nat)
    (s t : SelexState) (hs : s.data.length ≤ cap)
    (h : selexLoop cap beg en cs line s = Parsed.ok t) : t.data.length ≤ cap := by
  induction cs generalizing s line with
  | nil => simp only [selexLoop] at h; injection h with h; subst h; exact hs
  | cons c cs ih =>
    simp only [selexLoop] at h
    cases h3 : selexLine cap beg en (fgetsStore line c) s with
    | ok u =>
      rw [h3, Parsed.andThen_ok] at h
      exact ih _ u (selexLine_data_le cap beg en _ s u hs h3) h
    | ioError m => rw [h3] at h; cases h
    | fault f => rw [h3] at h; cases h

theorem parseSelex_ok_le (cap : Nat) (junk : Nat → Nat) (file : List Nat) (r : Alignment)
    (h : parseSelex cap junk file = Parsed.ok r) : r.rows * r.cols ≤ cap ∧ r.data.length ≤ cap := by
  unfold parseSelex at h
  simp only at h
  split at h
  · cases h
  · generalize hg : selexGeometry (SELEXLINELEN + 1) (fgetsAll (SELEXLINELEN + 1) file []) junk 0 0 = g
      at h
    cases h3 : selexLoop cap g.beg g.endCol
      (fgetsAll (SELEXLINELEN + 1)
        (file.drop (if scanFrom (fun b => b == 0) g.line (SELEXLINELEN + 1) 0 ≤ g.pos
          then g.pos - scanFrom (fun b => b == 0) g.line (SELEXLINELEN + 1) 0 else g.pos)) [])
      g.line { labels := [], mapping := [], count := 0, data := [], iline := g.iline - 1 } with
    | ok u =>
      rw [h3, Parsed.andThen_ok] at h
      have hu := selexLoop_data_le cap _ _ _ _ _ u (by simp) h3
      unfold selexFinish at h
      split at h
      · cases h
      · injection h with h; subst h
        simp only [List.length_take]
        have := Nat.div_mul_le_self u.data.length g.seqlen
        omega
    | ioError m => rw [h3] at h; cases h
    | fault f => rw [h3] at h; cases h

/-! ## Consistency of the registry -/

theorem keyPositions_ge (k : List Nat) (ls : List (List Nat)) (i m : Nat)
    (h : m ∈ keyPositions k ls i) : i ≤ m := by
  obtain ⟨j, _, e, _⟩ := (mem_keyPositions k ls i m).1 h
  omega

theorem keyPositions_pairwise (k : List Nat) (ls : List (List Nat)) (i : Nat) :
    (keyPositions k ls i).Pairwise (fun a b => a < b) := by
  induction ls generalizing i with
  | nil => exact List.Pairwise.nil
  | cons l t ih =>
    unfold keyPositions
    split
    · refine List.Pairwise.cons ?_ (ih (i + 1))
      intro m hm
      have := keyPositions_ge k t (i + 1) m hm
      omega
    · exact ih (i + 1)

theorem mem_keyPositions_zero (k : List Nat) (ls : List (List Nat)) (i : Nat) :
    i ∈ keyPositions k ls 0 ↔ ∃ l, ls[i]? = some l ∧ keyOfLabel l = k := by
  rw [mem_keyPositions]
  constructor
  · rintro ⟨j, hj, e, hk⟩
    have : i = j := by omega
    subst this
    exact ⟨ls.get ⟨i, hj⟩, by simp [List.getElem?_eq_getElem hj], hk⟩
  · rintro ⟨l, hl, hk⟩
    obtain ⟨hi, e⟩ := List.getElem?_eq_some_iff.1 hl
    refine ⟨i, hi, by omega, ?_⟩
    rw [List.get_eq_getElem, e]
    exact hk

theorem registryConsistent_of_ok (labels : List (List Nat)) (mapping : Registry) (count : Nat)
    (h : RegistryOk labels mapping) (hc : count = labels.length) :
    RegistryConsistent labels mapping count :=
  ⟨h, fun k => keyPositions_pairwise k labels 0, fun k i => mem_keyPositions_zero k labels i, hc⟩

theorem parseLabelCalls_ok (calls : List ((Nat → Nat) × Nat)) (st : List (List Nat) × Registry × Nat)
    (h : RegistryOk st.1 st.2.1) (hc : st.2.2 = st.1.length) :
    RegistryOk (parseLabelCalls calls st).1 (parseLabelCalls calls st).2.1 ∧
      (parseLabelCalls calls st).2.2 = (parseLabelCalls calls st).1.length := by
  induction calls generalizing st with
  | nil => exact ⟨h, hc⟩
  | cons c cs ih =>
    simp only [parseLabelCalls]
    apply ih
    · exact registryOk_parseLabel st.1 st.2.1 c.1 c.2 h
    · simp only [parseLabel, List.length_append, List.length_singleton]
      omega

theorem selexLine_registry (cap beg en : Nat) (line : Nat → Nat) (s t : SelexState)
    (hs : RegistryOk s.labels s.mapping ∧ s.count = s.labels.length)
    (h : selexLine cap beg en line s = Parsed.ok t) :
    RegistryOk t.labels t.mapping ∧ t.count = t.labels.length := by
  unfold selexLine at h
  split at h
  · injection h with h; subst h; exact hs
  · split at h
    · cases h
    · split at h
      · cases h
      · simp only at h
        split at h
        · cases h
        · injection h with h; subst h
          refine ⟨registryOk_parseLabel s.labels s.mapping line (beg - 1) hs.1, ?_⟩
          simp only [parseLabel, List.length_append, List.length_singleton]
          omega

theorem selexLoop_registry (cap beg en : Nat) (cs : List (List Nat)) (line : Nat → Nat)
    (s t : SelexState) (hs : RegistryOk s.labels s.mapping ∧ s.count = s.labels.length)
    (h : selexLoop cap beg en cs line s = Parsed.ok t) :
    RegistryOk t.labels t.mapping ∧ t.count = t.labels.length := by
  induction cs generalizing s line with
  | nil => simp only [selexLoop] at h; injection h with h; subst h; exact hs
  | cons c cs ih =>
    simp only [selexLoop] at h
    cases h3 : selexLine cap beg en (fgetsStore line c) s with
    | ok u =>
      rw [h3, Parsed.andThen_ok] at h
      exact ih _ u (selexLine_registry cap beg en _ s u hs h3) h
    | ioError m => rw [h3] at h; cases h
    | fault f => rw [h3] at h; cases h

theorem parseSelex_ok_registry (cap : Nat) (junk : Nat → Nat) (file : List Nat) (r : Alignment)
    (h : parseSelex cap junk file = Parsed.ok r) :
    RegistryOk r.labels r.mapping ∧ r.count = r.labels.length := by
  unfold parseSelex at h
  simp only at h
  split at h
  · cases h
  · generalize hg : selexGeometry (SELEXLINELEN + 1) (fgetsAll (SELEXLINELEN + 1) file []) junk 0 0 = g
      at h
    cases h3 : selexLoop cap g.beg g.endCol
      (fgetsAll (SELEXLINELEN + 1)
        (file.drop (if scanFrom (fun b => b == 0) g.line (SELEXLINELEN + 1) 0 ≤ g.pos
          then g.pos - scanFrom (fun b => b == 0) g.line (SELEXLINELEN + 1) 0 else g.pos)) [])
      g.line { labels := [], mapping := [], count := 0, data := [], iline := g.iline - 1 } with
    | ok u =>
      rw [h3, Parsed.andThen_ok] at h
      have hu := selexLoop_registry cap _ _ _ _ _ u ⟨registryOk_nil, rfl⟩ h3
      unfold selexFinish at h
      split at h
      · cases h
      · injection h with h; subst h
        exact hu
    | ioError m => rw [h3] at h; cases h
    | fault f => rw [h3] at h; cases h

/-! ## The shape of the matrix `parseFasta` returns -/

theorem fastaDiv_step (cap : Nat) (c : List Nat) (s t : FastaState)
    (hs : ∃ k, s.data.length = k * s.seqlen + s.curlen)
    (hstep : fastaStep cap c s = Parsed.ok t) :
    ∃ k, t.data.length = k * t.seqlen + t.curlen := by
  obtain ⟨k, hk⟩ := hs
  unfold fastaStep at hstep
  split at hstep
  · split at hstep
    · cases hstep
    · rename_i hne
      injection hstep with hstep; subst hstep
      simp only
      by_cases h1 : s.seqlen = s.curlen
      · refine ⟨k + 1, ?_⟩
        rw [if_neg (by simpa using h1), hk, ← h1, Nat.add_mul]
        omega
      · have h0 : s.seqlen = 0 := by
          by_contra h0
          exact hne ⟨h1, h0⟩
        refine ⟨1, ?_⟩
        rw [if_pos h1, hk, h0]
        omega
  · split at hstep
    · cases hstep
    · injection hstep with hstep; subst hstep
      refine ⟨k, ?_⟩
      simp only [List.length_append]
      omega

theorem fastaDiv_steps (cap : Nat) (cs : List (List Nat)) (s t : FastaState)
    (hs : ∃ k, s.data.length = k * s.seqlen + s.curlen)
    (hsteps : fastaSteps cap cs s = Parsed.ok t) :
    ∃ k, t.data.length = k * t.seqlen + t.curlen := by
  induction cs generalizing s with
  | nil => simp only [fastaSteps] at hsteps; injection hsteps with h; subst h; exact hs
  | cons c cs ih =>
    simp only [fastaSteps] at hsteps
    cases h3 : fastaStep cap c s with
    | ok u =>
      rw [h3, Parsed.andThen_ok] at hsteps
      exact ih u (fastaDiv_step cap c s u hs h3) hsteps
    | ioError m => rw [h3] at hsteps; cases hsteps
    | fault f => rw [h3] at hsteps; cases hsteps

theorem fgetsAll_short (file : List Nat) :
    ∀ c ∈ fgetsAll FASTALINELEN file [], c ≠ [] ∧ c.length < FASTALINELEN := by
  intro c hc
  have := fgetsAll_chunk FASTALINELEN file [] c (by decide) hc
  exact ⟨this.1, by omega⟩

theorem parseFasta_ok_state (cap : Nat) (junk : Nat → Nat) (file : List Nat) (r : Alignment)
    (hparse : parseFasta cap junk file = Parsed.ok r) :
    ∃ s, fastaLoop cap (fgetsAll FASTALINELEN file []) junk fastaInit = Parsed.ok s ∧
      fastaSteps cap (fgetsAll FASTALINELEN file []) fastaInit = Parsed.ok s ∧
      s.seqlen = s.curlen ∧ 0 < s.seqlen ∧ s.data.length % s.seqlen = 0 ∧
      r = { rows := s.data.length / s.seqlen, cols := s.seqlen, data := s.data,
            labels := s.labels, mapping := s.mapping, count := s.count } := by
  have hloop := fastaLoop_eq cap (fgetsAll FASTALINELEN file []) junk fastaInit (fgetsAll_short file)
  rw [parseFasta_eq] at hparse
  cases h3 : fastaSteps cap (fgetsAll FASTALINELEN file []) fastaInit with
  | ok s =>
    rw [h3, Parsed.andThen_ok] at hparse
    obtain ⟨k, hk⟩ := fastaDiv_steps cap _ fastaInit s ⟨0, rfl⟩ h3
    unfold fastaFinish at hparse
    split at hparse
    · cases hparse
    · rename_i h1
      split at hparse
      · cases hparse
      · rename_i h2
        have h1b : s.seqlen = s.curlen := by simpa using h1
        have hmul : s.data.length = (k + 1) * s.seqlen := by rw [hk, ← h1b, Nat.add_mul]; omega
        have hmod : s.data.length % s.seqlen = 0 := by rw [hmul]; exact Nat.mul_mod_left _ _
        refine ⟨s, by rw [hloop, h3], rfl, h1b, by omega, hmod, ?_⟩
        injection hparse with hparse
        rw [← hparse, Nat.div_mul_cancel (Nat.dvd_of_mod_eq_zero hmod), List.take_length]
  | ioError m => rw [h3] at hparse; cases hparse
  | fault f => rw [h3] at hparse; cases hparse

theorem fastaSizes_step (cap : Nat) (c : List Nat) (cs : List (List Nat)) (s t : FastaState)
    (em : List Nat)
    (h1 : s.labels.length = em.length) (h2 : s.data.length = em.sum + s.curlen)
    (h3 : ∀ x ∈ em, x = 0 ∨ x = s.seqlen)
    (hstep : fastaStep cap c s = Parsed.ok t) :
    ∃ em2, em2 ++ fastaRecordSizes cs t.curlen = em ++ fastaRecordSizes (c :: cs) s.curlen ∧
      t.labels.length = em2.length ∧ t.data.length = em2.sum + t.curlen ∧
      ∀ x ∈ em2, x = 0 ∨ x = t.seqlen := by
  unfold fastaStep at hstep
  split at hstep
  · rename_i hh
    split at hstep
    · cases hstep
    · rename_i hne
      injection hstep with hstep; subst hstep
      refine ⟨em ++ [s.curlen], ?_, ?_, ?_, ?_⟩
      · simp only [fastaRecordSizes, if_pos hh, List.append_assoc, List.singleton_append]
      · simp only [List.length_append, List.length_singleton]; omega
      · simp only [List.sum_append, List.sum_singleton]; omega
      · intro x hx
        simp only
        rcases List.mem_append.1 hx with hx | hx
        · by_cases e : s.seqlen = s.curlen
          · rw [if_neg (by simpa using e)]; exact h3 x hx
          · have h0 : s.seqlen = 0 := by
              by_contra h0
              exact hne ⟨e, h0⟩
            left
            rcases h3 x hx with h | h
            · exact h
            · omega
        · rw [List.mem_singleton] at hx
          right
          by_cases e : s.seqlen = s.curlen
          · rw [if_neg (by simpa using e)]; omega
          · rw [if_pos e]; exact hx
  · rename_i hh
    split at hstep
    · cases hstep
    · injection hstep with hstep; subst hstep
      refine ⟨em, ?_, h1, ?_, h3⟩
      · simp only [fastaRecordSizes, if_neg hh]
      · simp only [List.length_append]; omega

theorem fastaSizes_steps (cap : Nat) (cs : List (List Nat)) (s t : FastaState) (em : List Nat)
    (h1 : s.labels.length = em.length) (h2 : s.data.length = em.sum + s.curlen)
    (h3 : ∀ x ∈ em, x = 0 ∨ x = s.seqlen)
    (hsteps : fastaSteps cap cs s = Parsed.ok t) :
    ∃ em2, em2 ++ [t.curlen] = em ++ fastaRecordSizes cs s.curlen ∧
      t.labels.length = em2.length ∧ t.data.length = em2.sum + t.curlen ∧
      ∀ x ∈ em2, x = 0 ∨ x = t.seqlen := by
  induction cs generalizing s em with
  | nil =>
    simp only [fastaSteps] at hsteps; injection hsteps with h; subst h
    exact ⟨em, rfl, h1, h2, h3⟩
  | cons c cs ih =>
    simp only [fastaSteps] at hsteps
    cases h4 : fastaStep cap c s with
    | ok u =>
      rw [h4, Parsed.andThen_ok] at hsteps
      obtain ⟨em1, e1, e2, e3, e4⟩ := fastaSizes_step cap c cs s u em h1 h2 h3 h4
      obtain ⟨em2, f1, f2, f3, f4⟩ := ih u em1 e2 e3 e4 hsteps
      exact ⟨em2, by rw [f1, e1], f2, f3, f4⟩
    | ioError m => rw [h4] at hsteps; cases hsteps
    | fault f => rw [h4] at hsteps; cases hsteps

theorem sum_zero_or (L : Nat) (em : List Nat) (h : ∀ x ∈ em, x = 0 ∨ x = L) (hL : 0 < L) :
    em.sum = (em.filter (fun x => decide (0 < x))).length * L := by
  induction em with
  | nil => simp
  | cons a t ih =>
    have iht := ih (fun x hx => h x (List.mem_cons_of_mem _ hx))
    rcases h a (List.mem_cons_self _ _) with ha | ha
    · subst ha
      simp [iht]
    · subst ha
      simp [hL, iht, Nat.add_mul]
      omega


/-! ## Reading back what `writeSelex` wrote -/

theorem selexRowsSpec_eq_text (w L : Nat) (labels : List (List Nat)) (seq : List Nat)
    (h : ∀ l ∈ labels, l.length + 1 ≤ w) :
    selexRowsSpec w L labels seq = selexText (selexRowLines w L labels seq) := by
  induction labels generalizing seq with
  | nil => rfl
  | cons l t ih =>
    have hl := h l (List.mem_cons_self _ _)
    simp only [selexRowsSpec, selexRowLines]
    rw [selexText_cons, ih _ (fun x hx => h x (List.mem_cons_of_mem _ hx))]
    simp only [SelexLine.text, padField]
    have e : List.replicate (w - l.length) 32 = List.replicate (w - 1 - l.length) 32 ++ [32] := by
      rw [show w - l.length = (w - 1 - l.length) + 1 from by omega, List.replicate_succ']
    rw [e]
    simp only [List.append_assoc]

theorem selexFields_rowLines (w L : Nat) (labels : List (List Nat)) (seq : List Nat) :
    selexFields (selexRowLines w L labels seq) = labels.map (padField w) := by
  induction labels generalizing seq with
  | nil => rfl
  | cons l t ih => simp only [selexRowLines, selexFields, List.map_cons, ih]

theorem selexSeqs_rowLines (w L : Nat) (labels : List (List Nat)) (seq : List Nat)
    (h : seq.length = labels.length * L) : selexSeqs (selexRowLines w L labels seq) = seq := by
  induction labels generalizing seq with
  | nil =>
    simp only [List.length_nil, Nat.zero_mul, List.length_eq_zero] at h
    subst h; rfl
  | cons l t ih =>
    simp only [selexRowLines, selexSeqs]
    rw [ih (seq.drop L) (by
      rw [List.length_drop, h, List.length_cons, Nat.add_mul]; omega)]
    exact List.take_append_drop L seq

theorem labelStop_printable (b : Nat) (h1 : 32 ≤ b) (h2 : b < 128) : labelStop b = false := by
  unfold labelStop cchar
  rw [if_pos h2]
  apply decide_eq_false
  intro h
  have : (b : Int) < 32 := h.1
  omega

theorem cchar_printable (b : Nat) (h1 : 32 ≤ b) (h2 : b < 128) : 32 ≤ cchar b := by
  unfold cchar
  rw [if_pos h2]
  omega

theorem dataOk_row (w L : Nat) (l row : List Nat) (hl : l ≠ []) (hlen : l.length + 1 ≤ w)
    (hb : ∀ b ∈ l, 32 < b ∧ b < 128) (hc : isSelexComment (l.getD 0 0) = false)
    (hrow : row.length = L) (hrb : ∀ b ∈ row, 32 < b ∧ b < 128)
    (hbuf : w + L + 1 ≤ SELEXLINELEN) : DataOk w L (padField w l) row := by
  refine ⟨?_, hrow, ?_, ?_, ?_, hbuf⟩
  · simp only [padField, List.length_append, List.length_replicate]; omega
  · intro b hb2
    simp only [padField, List.mem_append, List.mem_replicate] at hb2
    rcases hb2 with h | h
    · exact labelStop_printable b (by have := (hb b h).1; omega) (hb b h).2
    · rw [h.2]; decide
  · intro b hb2
    exact cchar_printable b (by have := (hrb b hb2).1; omega) (hrb b hb2).2
  · cases l with
    | nil => exact absurd rfl hl
    | cons a t => simpa [padField] using hc

theorem selexRowLines_ok (w L : Nat) (labels : List (List Nat)) (seq : List Nat)
    (hlab : ∀ l ∈ labels, l ≠ [] ∧ l.length + 1 ≤ w ∧ (∀ b ∈ l, 32 < b ∧ b < 128) ∧
      isSelexComment (l.getD 0 0) = false)
    (hseq : seq.length = labels.length * L) (hbytes : ∀ b ∈ seq, 32 < b ∧ b < 128)
    (hbuf : w + L + 1 ≤ SELEXLINELEN) :
    ∀ x ∈ selexRowLines w L labels seq, SelexLineOk w L x := by
  induction labels generalizing seq with
  | nil => intro x hx; simp [selexRowLines] at hx
  | cons l t ih =>
    intro x hx
    simp only [selexRowLines, List.mem_cons] at hx
    have hl := hlab l (List.mem_cons_self _ _)
    rw [List.length_cons, Nat.add_mul] at hseq
    rcases hx with hx | hx
    · subst hx
      exact dataOk_row w L l _ hl.1 hl.2.1 hl.2.2.1 hl.2.2.2
        (by rw [List.length_take]; omega)
        (fun b hb => hbytes b (List.mem_of_mem_take hb)) hbuf
    · exact ih (seq.drop L) (fun y hy => hlab y (List.mem_cons_of_mem _ hy))
        (by rw [List.length_drop]; omega)
        (fun b hb => hbytes b (List.mem_of_mem_drop hb)) x hx

theorem getD_zero_mem (l : List Nat) (h : l ≠ []) : l.getD 0 0 ∈ l := by
  cases l with
  | nil => exact absurd rfl h
  | cons a t => simp

/-! ## Labels longer than the field of `writeSelex` -/

theorem getD_take (l : List Nat) (w i : Nat) (h : i < w) : (l.take w).getD i 0 = l.getD i 0 := by
  simp only [List.getD_eq_getElem?_getD]
  rw [List.getElem?_take_of_lt h]

theorem selexOutline_cut (w lenseq : Nat) (old : Nat → Nat) (label row : List Nat)
    (hlen : w < label.length) (hlen2 : label.length < w + lenseq) (hlab : 0 ∉ label)
    (hrow : row.length = lenseq) (hrow0 : 0 ∉ row)
    (h1 : old (w + lenseq) = 10) (h2 : old (w + lenseq + 1) = 0) :
    cstr (bytesOf (selexOutline w lenseq old label row) (w + lenseq + 2))
        = label.take w ++ row ++ [10]
      ∧ selexOutline w lenseq old label row (w + lenseq) = 10
      ∧ selexOutline w lenseq old label row (w + lenseq + 1) = 0 := by
  have hc : cstr label = label := cstr_eq_self label hlab
  have htl : (label.take w).length = w := by rw [List.length_take]; omega
  refine ⟨?_, ?_, ?_⟩
  · have hb : bytesOf (selexOutline w lenseq old label row) (w + lenseq + 2)
        = (label.take w ++ row ++ [10]) ++ 0 :: [] := by
      have hlen3 : (label.take w ++ row ++ [10] ++ [0]).length = w + lenseq + 2 := by
        simp only [List.length_append, htl, hrow, List.length_singleton]
      rw [← hlen3]
      apply bytesOf_eq_of_getD
      intro i hi
      rw [hlen3] at hi
      simp only [selexOutline, hc]
      by_cases c1 : w ≤ i ∧ i < w + lenseq
      · rw [if_pos c1]
        rw [getD_append_left _ _ _ (by simp only [List.length_append, htl, hrow, List.length_singleton]; omega),
          getD_append_left _ _ _ (by simp only [List.length_append, htl, hrow]; omega),
          getD_append_right _ _ _ (by rw [htl]; omega), htl]
      · rw [if_neg c1]
        by_cases c2 : i < w
        · rw [if_neg (by omega), if_pos (by omega)]
          rw [getD_append_left _ _ _ (by simp only [List.length_append, htl, hrow, List.length_singleton]; omega),
            getD_append_left _ _ _ (by simp only [List.length_append, htl, hrow]; omega),
            getD_append_left _ _ _ (by rw [htl]; omega), getD_take _ _ _ c2]
        · have c4 : w + lenseq ≤ i := by omega
          rw [if_neg (by omega), if_neg (by omega), if_neg (by omega)]
          by_cases c5 : i = w + lenseq
          · subst c5
            rw [h1, getD_append_left _ _ _ (by simp only [List.length_append, htl, hrow, List.length_singleton]; omega),
              getD_append_right _ _ _ (by simp only [List.length_append, htl, hrow]; omega)]
            have : w + lenseq - (label.take w ++ row).length = 0 := by
              simp only [List.length_append, htl, hrow]; omega
            rw [this]; rfl
          · have c6 : i = w + lenseq + 1 := by omega
            subst c6
            rw [h2, getD_append_right _ _ _ (by simp only [List.length_append, htl, hrow, List.length_singleton]; omega)]
            have : w + lenseq + 1 - (label.take w ++ row ++ [10]).length = 0 := by
              simp only [List.length_append, htl, hrow, List.length_singleton]; omega
            rw [this]; rfl
    rw [hb, cstr_append_zero]
    simp only [List.mem_append, List.mem_singleton, not_or]
    exact ⟨⟨fun h => hlab (List.mem_of_mem_take h), hrow0⟩, by decide⟩
  · simp only [selexOutline, hc]
    rw [if_neg (by omega), if_neg (by omega), if_neg (by omega), if_neg (by omega), h1]
  · simp only [selexOutline, hc]
    rw [if_neg (by omega), if_neg (by omega), if_neg (by omega), if_neg (by omega), h2]

theorem writeSelexRows_cut (w lenseq : Nat) (hL : 1 ≤ lenseq) (labels : List (List Nat))
    (seq : List Nat) (old : Nat → Nat)
    (hlab : ∀ l ∈ labels, l.length < w + lenseq ∧ 0 ∉ l)
    (hseq : seq.length = labels.length * lenseq) (hseq0 : 0 ∉ seq)
    (h1 : old (w + lenseq) = 10) (h2 : old (w + lenseq + 1) = 0) :
    writeSelexRows w lenseq labels seq old = Written.file (selexRowsCut w lenseq labels seq) := by
  induction labels generalizing seq old with
  | nil => rfl
  | cons label rest ih =>
    have hl := hlab label (List.mem_cons_self _ _)
    have hc : cstr label = label := cstr_eq_self label hl.2
    have hlen : (seq.take lenseq).length = lenseq := by
      rw [List.length_take, hseq, List.length_cons, Nat.add_mul]; simp
    have h0 : 0 ∉ seq.take lenseq := fun h => hseq0 (List.mem_of_mem_take h)
    have key : cstr (bytesOf (selexOutline w lenseq old label (seq.take lenseq)) (w + lenseq + 2))
          = selexField w label ++ seq.take lenseq ++ [10]
        ∧ selexOutline w lenseq old label (seq.take lenseq) (w + lenseq) = 10
        ∧ selexOutline w lenseq old label (seq.take lenseq) (w + lenseq + 1) = 0 := by
      unfold selexField
      by_cases hw : w < label.length
      · rw [if_pos hw]
        exact selexOutline_cut w lenseq old label (seq.take lenseq) hw hl.1 hl.2 hlen h0 h1 h2
      · rw [if_neg hw]
        exact selexOutline_line w lenseq old label (seq.take lenseq) hL (by omega) hl.2 hlen h0 h1 h2
    obtain ⟨e1, e2, e3⟩ := key
    simp only [writeSelexRows, hc]
    rw [if_neg (by omega)]
    rw [ih (seq.drop lenseq) _ (fun l hl => hlab l (List.mem_cons_of_mem _ hl))
      (by rw [List.length_drop, hseq, List.length_cons, Nat.add_mul]; simp)
      (fun h => hseq0 (List.mem_of_mem_drop h)) e2 e3]
    simp only [e1, selexRowsCut, Written.wrap, List.append_nil]

/-! ## Records, labels and rows of `parseFasta` -/

theorem fastaLabels_steps (cap : Nat) (cs : List (List Nat)) (s t : FastaState)
    (hsteps : fastaSteps cap cs s = Parsed.ok t) : t.labels = s.labels ++ fastaHeaders cs := by
  induction cs generalizing s with
  | nil =>
    simp only [fastaSteps] at hsteps; injection hsteps with h; subst h
    simp [fastaHeaders]
  | cons c cs ih =>
    simp only [fastaSteps] at hsteps
    cases h4 : fastaStep cap c s with
    | ok u =>
      rw [h4, Parsed.andThen_ok] at hsteps
      rw [ih u hsteps]
      unfold fastaStep at h4
      split at h4
      · rename_i hh
        split at h4
        · cases h4
        · injection h4 with h4; subst h4
          simp only [fastaHeaders, if_pos hh, List.append_assoc, List.singleton_append]
      · rename_i hh
        split at h4
        · cases h4
        · injection h4 with h4; subst h4
          simp only [fastaHeaders, if_neg hh]
    | ioError m => rw [h4] at hsteps; cases hsteps
    | fault f => rw [h4] at hsteps; cases hsteps

theorem fastaStretch_step (cap : Nat) (c : List Nat) (cs : List (List Nat)) (s t : FastaState)
    (em : List (List Nat)) (cur : List Nat)
    (h1 : s.labels.length = em.length) (h2 : s.data = em.flatten ++ cur)
    (h3 : s.curlen = cur.length) (h4 : ∀ x ∈ em, x.length = 0 ∨ x.length = s.seqlen)
    (hstep : fastaStep cap c s = Parsed.ok t) :
    ∃ em2 cur2, em2 ++ fastaRecordBytes cs cur2 = em ++ fastaRecordBytes (c :: cs) cur ∧
      t.labels.length = em2.length ∧ t.data = em2.flatten ++ cur2 ∧ t.curlen = cur2.length ∧
      ∀ x ∈ em2, x.length = 0 ∨ x.length = t.seqlen := by
  unfold fastaStep at hstep
  split at hstep
  · rename_i hh
    split at hstep
    · cases hstep
    · rename_i hne
      injection hstep with hstep; subst hstep
      refine ⟨em ++ [cur], [], ?_, ?_, ?_, rfl, ?_⟩
      · simp only [fastaRecordBytes, if_pos hh, List.append_assoc, List.singleton_append]
      · simp only [List.length_append, List.length_singleton]; omega
      · simp only [List.flatten_append, List.flatten_cons, List.flatten_nil, List.append_nil]
        exact h2
      · intro x hx
        simp only
        rcases List.mem_append.1 hx with hx | hx
        · by_cases e : s.seqlen = s.curlen
          · rw [if_neg (by simpa using e)]; exact h4 x hx
          · have h0 : s.seqlen = 0 := by
              by_contra h0
              exact hne ⟨e, h0⟩
            left
            rcases h4 x hx with h | h
            · exact h
            · omega
        · rw [List.mem_singleton] at hx
          subst hx
          right
          by_cases e : s.seqlen = s.curlen
          · rw [if_neg (by simpa using e)]; omega
          · rw [if_pos e]; omega
  · rename_i hh
    split at hstep
    · cases hstep
    · injection hstep with hstep; subst hstep
      refine ⟨em, cur ++ seqBytes c, ?_, h1, ?_, ?_, h4⟩
      · simp only [fastaRecordBytes, if_neg hh]
      · simp only [h2, List.append_assoc]
      · simp only [List.length_append]; omega

theorem fastaStretch_steps (cap : Nat) (cs : List (List Nat)) (s t : FastaState)
    (em : List (List Nat)) (cur : List Nat)
    (h1 : s.labels.length = em.length) (h2 : s.data = em.flatten ++ cur)
    (h3 : s.curlen = cur.length) (h4 : ∀ x ∈ em, x.length = 0 ∨ x.length = s.seqlen)
    (hsteps : fastaSteps cap cs s = Parsed.ok t) :
    ∃ em2 cur2, em2 ++ [cur2] = em ++ fastaRecordBytes cs cur ∧
      t.labels.length = em2.length ∧ t.data = em2.flatten ++ cur2 ∧ t.curlen = cur2.length ∧
      ∀ x ∈ em2, x.length = 0 ∨ x.length = t.seqlen := by
  induction cs generalizing s em cur with
  | nil =>
    simp only [fastaSteps] at hsteps; injection hsteps with h; subst h
    exact ⟨em, cur, rfl, h1, h2, h3, h4⟩
  | cons c cs ih =>
    simp only [fastaSteps] at hsteps
    cases h5 : fastaStep cap c s with
    | ok u =>
      rw [h5, Parsed.andThen_ok] at hsteps
      obtain ⟨em1, cur1, e1, e2, e3, e4, e5⟩ := fastaStretch_step cap c cs s u em cur h1 h2 h3 h4 h5
      obtain ⟨em2, cur2, f1, f2, f3, f4, f5⟩ := ih u em1 cur1 e2 e3 e4 e5 hsteps
      exact ⟨em2, cur2, by rw [f1, e1], f2, f3, f4, f5⟩
    | ioError m => rw [h5] at hsteps; cases hsteps
    | fault f => rw [h5] at hsteps; cases hsteps

theorem chunksOf_flatten (w : Nat) (ls : List (List Nat)) (h : ∀ x ∈ ls, x.length = w) :
    chunksOf w ls.length ls.flatten = ls := by
  induction ls with
  | nil => rfl
  | cons a t ih =>
    have ha := h a (List.mem_cons_self _ _)
    simp only [List.length_cons, chunksOf, List.flatten_cons]
    rw [List.take_left' ha, List.drop_left' ha, ih (fun x hx => h x (List.mem_cons_of_mem _ hx))]

theorem length_flatten_const (w : Nat) (ls : List (List Nat)) (h : ∀ x ∈ ls, x.length = w) :
    ls.flatten.length = ls.length * w := by
  induction ls with
  | nil => simp
  | cons a t ih =>
    simp only [List.flatten_cons, List.length_append, List.length_cons,
      ih (fun x hx => h x (List.mem_cons_of_mem _ hx)), h a (List.mem_cons_self _ _), Nat.add_mul]
    omega

theorem parseFasta_ok_rows (cap : Nat) (junk : Nat → Nat) (file : List Nat) (r : Alignment)
    (hparse : parseFasta cap junk file = Parsed.ok r)
    (hhead : (fastaRecordBytes (fgetsAll FASTALINELEN file []) []).head? = some [])
    (htail : ∀ x ∈ (fastaRecordBytes (fgetsAll FASTALINELEN file []) []).tail, x ≠ []) :
    r.labels = fastaHeaders (fgetsAll FASTALINELEN file []) ∧
      r.rowList = (fastaRecordBytes (fgetsAll FASTALINELEN file []) []).tail ∧
      r.rows = r.labels.length := by
  obtain ⟨s, _, h2, h3, h4, h5, h6⟩ := parseFasta_ok_state cap junk file r hparse
  have hl := fastaLabels_steps cap _ fastaInit s h2
  obtain ⟨em, cur, e1, e2, e3, e4, e5⟩ := fastaStretch_steps cap _ fastaInit s [] [] rfl rfl rfl
    (fun x hx => absurd hx (List.not_mem_nil _)) h2
  rw [List.nil_append] at e1
  rw [← e1] at hhead htail
  have hcur : cur.length = s.seqlen := by omega
  cases em with
  | nil =>
    simp only [List.nil_append, List.head?_cons, Option.some.injEq] at hhead
    rw [hhead] at hcur
    simp at hcur
    omega
  | cons a em1 =>
    simp only [List.cons_append, List.head?_cons, Option.some.injEq] at hhead
    subst hhead
    simp only [List.cons_append, List.tail_cons] at htail
    have hall : ∀ x ∈ em1 ++ [cur], x.length = s.seqlen := by
      intro x hx
      rcases List.mem_append.1 hx with hx1 | hx1
      · rcases e5 x (List.mem_cons_of_mem _ hx1) with h | h
        · exact absurd (List.length_eq_zero.1 h) (htail x hx)
        · exact h
      · rw [List.mem_singleton] at hx1; rw [hx1]; exact hcur
    have hdata : s.data = (em1 ++ [cur]).flatten := by
      rw [e3]; simp
    have hlen := length_flatten_const s.seqlen _ hall
    have hrows : s.data.length / s.seqlen = (em1 ++ [cur]).length := by
      rw [hdata, hlen]; exact Nat.mul_div_cancel _ h4
    subst h6
    refine ⟨by rw [hl]; rfl, ?_, ?_⟩
    · show chunksOf s.seqlen (s.data.length / s.seqlen) s.data = _
      rw [hrows, hdata, ← e1]
      exact chunksOf_flatten s.seqlen _ hall
    · show s.data.length / s.seqlen = s.labels.length
      rw [hrows, e2]; simp

/-! ## A buffer that holds the sequence bytes -/

theorem fastaStep_fits (cap cap2 : Nat) (c : List Nat) (s t : FastaState)
    (h : fastaStep cap2 c s = Parsed.ok t) (ht : t.data.length ≤ cap) :
    fastaStep cap c s = Parsed.ok t ∧ s.data.length ≤ t.data.length := by
  unfold fastaStep at h ⊢
  by_cases h1 : cchar (c.getD 0 0) = 62
  · rw [if_pos h1] at h ⊢
    refine ⟨h, ?_⟩
    split at h
    · cases h
    · injection h with h; subst h; exact Nat.le_refl _
  · rw [if_neg h1] at h ⊢
    split at h
    · cases h
    · injection h with h; subst h
      simp only [List.length_append] at ht ⊢
      rw [if_neg (by omega)]
      exact ⟨rfl, by omega⟩

theorem fastaSteps_fits (cap cap2 : Nat) (cs : List (List Nat)) (s t : FastaState)
    (h : fastaSteps cap2 cs s = Parsed.ok t) (ht : t.data.length ≤ cap) :
    fastaSteps cap cs s = Parsed.ok t ∧ s.data.length ≤ t.data.length := by
  induction cs generalizing s with
  | nil =>
    simp only [fastaSteps] at h ⊢
    injection h with h; subst h
    exact ⟨rfl, Nat.le_refl _⟩
  | cons c cs ih =>
    simp only [fastaSteps] at h ⊢
    cases h3 : fastaStep cap2 c s with
    | ok u =>
      rw [h3, Parsed.andThen_ok] at h
      obtain ⟨i1, i2⟩ := ih u h
      obtain ⟨j1, j2⟩ := fastaStep_fits cap cap2 c s u h3 (by omega)
      rw [j1, Parsed.andThen_ok]
      exact ⟨i1, by omega⟩
    | ioError m => rw [h3] at h; cases h
    | fault f => rw [h3] at h; cases h

theorem parseFasta_fits (cap cap2 : Nat) (junk junk2 : Nat → Nat) (file : List Nat) (r : Alignment)
    (h : parseFasta cap2 junk file = Parsed.ok r) (hr : r.rows * r.cols ≤ cap) :
    parseFasta cap junk2 file = Parsed.ok r := by
  obtain ⟨s, _, h2, _, h4, h5, h6⟩ := parseFasta_ok_state cap2 junk file r h
  have hlen : r.rows * r.cols = s.data.length := by
    subst h6
    exact Nat.div_mul_cancel (Nat.dvd_of_mod_eq_zero h5)
  have h7 := (fastaSteps_fits cap cap2 _ fastaInit s h2 (by omega)).1
  rw [parseFasta_eq] at h ⊢
  rw [h2] at h
  rw [h7]
  exact h

theorem selexLine_grow (cap2 beg en : Nat) (line : Nat → Nat) (s u : SelexState) (k : Nat)
    (hk : s.data.length = k * (en - beg))
    (h : selexLine cap2 beg en line s = Parsed.ok u) :
    s.data.length ≤ u.data.length ∧ ∃ k2, u.data.length = k2 * (en - beg) := by
  unfold selexLine at h
  split at h
  · injection h with h; subst h
    exact ⟨Nat.le_refl _, k, hk⟩
  · split at h
    · cases h
    · split at h
      · cases h
      · simp only at h
        split at h
        · cases h
        · injection h with h; subst h
          simp only [List.length_append, List.length_map, List.length_range]
          exact ⟨by omega, k + 1, by rw [hk, Nat.add_mul]; omega⟩

theorem selexLine_fits (cap cap2 beg en : Nat) (line : Nat → Nat) (s u : SelexState)
    (h : selexLine cap2 beg en line s = Parsed.ok u) (hu : u.data.length ≤ cap) :
    selexLine cap beg en line s = Parsed.ok u := by
  unfold selexLine at h ⊢
  by_cases h1 : isSelexComment (line 0) = true
  · rw [if_pos h1] at h ⊢
    exact h
  · rw [if_neg h1] at h ⊢
    by_cases h2 : beg = 0
    · rw [if_pos h2] at h; cases h
    · rw [if_neg h2] at h ⊢
      by_cases h3 : line (beg - 1) ≠ 32
      · rw [if_pos h3] at h; cases h
      · rw [if_neg h3] at h ⊢
        simp only at h ⊢
        split at h
        · cases h
        · injection h with h; subst h
          simp only [List.length_append] at hu
          rw [if_neg (by omega)]

theorem selexLoop_fits (cap cap2 beg en : Nat) (cs : List (List Nat)) (line : Nat → Nat)
    (s t : SelexState) (k : Nat) (hk : s.data.length = k * (en - beg))
    (h : selexLoop cap2 beg en cs line s = Parsed.ok t) (ht : t.data.length ≤ cap) :
    selexLoop cap beg en cs line s = Parsed.ok t ∧ s.data.length ≤ t.data.length ∧
      ∃ k2, t.data.length = k2 * (en - beg) := by
  induction cs generalizing s line k with
  | nil =>
    simp only [selexLoop] at h ⊢
    injection h with h; subst h
    exact ⟨rfl, Nat.le_refl _, k, hk⟩
  | cons c cs ih =>
    simp only [selexLoop] at h ⊢
    cases h3 : selexLine cap2 beg en (fgetsStore line c) s with
    | ok u =>
      rw [h3, Parsed.andThen_ok] at h
      obtain ⟨j2, k1, j3⟩ := selexLine_grow cap2 beg en (fgetsStore line c) s u k hk h3
      obtain ⟨i1, i2, i3⟩ := ih (fgetsStore line c) u k1 j3 h
      rw [selexLine_fits cap cap2 beg en (fgetsStore line c) s u h3 (by omega), Parsed.andThen_ok]
      exact ⟨i1, by omega, i3⟩
    | ioError m => rw [h3] at h; cases h
    | fault f => rw [h3] at h; cases h

theorem selexGeometry_seqlen (size : Nat) (cs : List (List Nat)) (line : Nat → Nat) (iline : Int)
    (pos : Nat) :
    (selexGeometry size cs line iline pos).seqlen =
      (selexGeometry size cs line iline pos).endCol - (selexGeometry size cs line iline pos).beg := by
  induction cs generalizing line iline pos with
  | nil => rfl
  | cons c cs ih =>
    simp only [selexGeometry]
    split
    · exact ih _ _ _
    · rfl

theorem parseSelex_fits (cap cap2 : Nat) (junk : Nat → Nat) (file : List Nat) (r : Alignment)
    (h : parseSelex cap2 junk file = Parsed.ok r) (hr : r.rows * r.cols ≤ cap) :
    parseSelex cap junk file = Parsed.ok r := by
  unfold parseSelex at h ⊢
  simp only at h ⊢
  split at h
  · cases h
  · rename_i hlen
    rw [if_neg hlen]
    have hseq := selexGeometry_seqlen (SELEXLINELEN + 1) (fgetsAll (SELEXLINELEN + 1) file []) junk 0 0
    generalize hg : selexGeometry (SELEXLINELEN + 1) (fgetsAll (SELEXLINELEN + 1) file []) junk 0 0 = g
      at h hseq ⊢
    cases h3 : selexLoop cap2 g.beg g.endCol
      (fgetsAll (SELEXLINELEN + 1)
        (file.drop (if scanFrom (fun b => b == 0) g.line (SELEXLINELEN + 1) 0 ≤ g.pos
          then g.pos - scanFrom (fun b => b == 0) g.line (SELEXLINELEN + 1) 0 else g.pos)) [])
      g.line { labels := [], mapping := [], count := 0, data := [], iline := g.iline - 1 } with
    | ok u =>
      rw [h3, Parsed.andThen_ok] at h
      have hfin := h
      unfold selexFinish at h
      split at h
      · cases h
      · rename_i hz
        injection h with h
        have hu : ∃ k2, u.data.length = k2 * (g.endCol - g.beg) :=
          (selexLoop_fits cap2 cap2 g.beg g.endCol _ g.line _ u 0 (by simp) h3
            (selexLoop_data_le cap2 _ _ _ _ _ u (by simp) h3)).2.2
        obtain ⟨k2, hk2⟩ := hu
        rw [← hseq] at hk2
        have hul : u.data.length ≤ cap := by
          subst h
          simp only at hr
          rw [hk2, Nat.mul_div_cancel _ (by omega)] at hr
          omega
        rw [(selexLoop_fits cap cap2 g.beg g.endCol _ g.line _ u 0 (by simp) h3 hul).1,
          Parsed.andThen_ok]
        exact hfin
    | ioError m => rw [h3] at h; cases h
    | fault f => rw [h3] at h; cases h

/-! ## Comment lines and the reused line buffer -/

theorem scanFrom_agree (stop : Nat → Bool) (b1 b2 : Nat → Nat) (n i K : Nat)
    (hagree : ∀ j, j ≤ K → b1 j = b2 j)
    (hstop : ∃ j, i ≤ j ∧ j ≤ K ∧ stop (b1 j) = true) (hn : K < i + n) :
    scanFrom stop b1 n i = scanFrom stop b2 n i ∧ i ≤ scanFrom stop b1 n i ∧
      scanFrom stop b1 n i ≤ K ∧ stop (b1 (scanFrom stop b1 n i)) = true := by
  induction n generalizing i with
  | zero =>
    obtain ⟨j, h1, h2, _⟩ := hstop
    omega
  | succ n ih =>
    obtain ⟨j, h1, h2, h3⟩ := hstop
    simp only [scanFrom]
    by_cases hs : stop (b1 i) = true
    · rw [if_pos hs, if_pos (by rw [← hagree i (by omega)]; exact hs)]
      exact ⟨rfl, Nat.le_refl _, by omega, hs⟩
    · rw [if_neg hs, if_neg (by rw [← hagree i (by omega)]; exact hs)]
      have hji : j ≠ i := by
        intro e; subst e; exact hs h3
      obtain ⟨e1, e2, e3, e4⟩ := ih (i + 1) ⟨j, by omega, h2, h3⟩ (by omega)
      exact ⟨e1, by omega, e3, e4⟩

theorem scanFrom_ge (stop : Nat → Bool) (b : Nat → Nat) (n i : Nat) : i ≤ scanFrom stop b n i := by
  induction n generalizing i with
  | zero => exact Nat.le_refl _
  | succ n ih =>
    simp only [scanFrom]
    split
    · exact Nat.le_refl _
    · have := ih (i + 1); omega

theorem labelScan_agree (p q : Nat → Nat) (n i s d : Nat)
    (h : ∀ j, i ≤ j → j < i + n → p j = q j) :
    labelScan p n i s d = labelScan q n i s d := by
  induction n generalizing i s d with
  | zero => rfl
  | succ n ih =>
    have hi : p i = q i := h i (Nat.le_refl _) (by omega)
    have ih2 : ∀ s d, labelScan p n (i + 1) s d = labelScan q n (i + 1) s d :=
      fun s d => ih (i + 1) s d (fun j h1 h2 => h j (by omega) (by omega))
    simp only [labelScan, hi, ih2]

theorem labelScan_fst_le (p : Nat → Nat) (n i s d : Nat) : (labelScan p n i s d).1 ≤ i + n := by
  rw [labelScan_fst]
  have := length_labelRun_le p i n
  omega

theorem parseLabel_agree (labels : List (List Nat)) (mapping : Registry) (p q : Nat → Nat)
    (n : Nat) (h : ∀ j, j < n → p j = q j) :
    parseLabel labels mapping p n = parseLabel labels mapping q n := by
  have hs : labelScan p n 0 0 0 = labelScan q n 0 0 0 :=
    labelScan_agree p q n 0 0 0 (fun j _ h2 => h j (by omega))
  have h1 : (labelScan p n 0 0 0).1 ≤ n := by
    have := labelScan_fst_le p n 0 0 0; omega
  have h2 : (labelScan p n 0 0 0).2.1 ≤ (labelScan p n 0 0 0).1 :=
    labelScan_slash_le p n 0 0 0 (Nat.le_refl _)
  have ht : labelText p n = labelText q n := by
    unfold labelText
    rw [← hs]
    exact bytesOf_congr p q _ (fun j hj => h j (by omega))
  have hk : labelKey p n = labelKey q n := by
    unfold labelKey
    simp only
    rw [← hs]
    split
    · exact bytesOf_congr p q _ (fun j hj => h j (by omega))
    · exact bytesOf_congr p q _ (fun j hj => h j (by omega))
  unfold parseLabel
  rw [ht, hk]

theorem selexLine_agree (cap beg en : Nat) (b1 b2 : Nat → Nat) (s1 s2 : SelexState)
    (hs : s1.result = s2.result) (hbeg : 1 ≤ beg) (hen : beg ≤ en)
    (h : ∀ j, j < en → b1 j = b2 j) :
    (selexLine cap beg en b1 s1).forget SelexState.result
      = (selexLine cap beg en b2 s2).forget SelexState.result := by
  obtain ⟨l1, m1, c1, d1, i1⟩ := s1
  obtain ⟨l2, m2, c2, d2, i2⟩ := s2
  simp only [SelexState.result, Prod.mk.injEq] at hs
  obtain ⟨rfl, rfl, rfl, rfl⟩ := hs
  have h0 : b1 0 = b2 0 := h 0 (by omega)
  have hg : b1 (beg - 1) = b2 (beg - 1) := h (beg - 1) (by omega)
  have hp := parseLabel_agree l1 m1 b1 b2 (beg - 1) (fun j hj => h j (by omega))
  have hb : (List.range (en - beg)).map (fun k => b1 (beg + k))
      = (List.range (en - beg)).map (fun k => b2 (beg + k)) := by
    apply List.map_congr_left
    intro k hk
    rw [List.mem_range] at hk
    exact h (beg + k) (by omega)
  unfold selexLine
  simp only [h0, hg, hp, hb]
  split
  · rfl
  · split
    · rfl
    · split
      · rfl
      · split
        · rfl
        · rfl
theorem andThen_forget {α β γ δ : Type} (f : α → γ) (g : β → δ) (p1 p2 : Parsed α)
    (k1 k2 : α → Parsed β) (hp : p1.forget f = p2.forget f)
    (hk : ∀ a1 a2, f a1 = f a2 → (k1 a1).forget g = (k2 a2).forget g) :
    (p1.andThen k1).forget g = (p2.andThen k2).forget g := by
  cases p1 with
  | ok a1 =>
    cases p2 with
    | ok a2 =>
      simp only [Parsed.forget] at hp
      injection hp with hp
      exact hk a1 a2 hp
    | ioError m => simp [Parsed.forget] at hp
    | fault e => simp [Parsed.forget] at hp
  | ioError m1 =>
    cases p2 with
    | ok a2 => simp [Parsed.forget] at hp
    | ioError m2 => rfl
    | fault e => simp [Parsed.forget] at hp
  | fault e1 =>
    cases p2 with
    | ok a2 => simp [Parsed.forget] at hp
    | ioError m => simp [Parsed.forget] at hp
    | fault e2 =>
      simp only [Parsed.forget] at hp
      injection hp with hp
      subst hp
      rfl

theorem fgetsStore_agree (b1 b2 : Nat → Nat) (c : List Nat) (j : Nat) (h : j ≤ c.length) :
    fgetsStore b1 c j = fgetsStore b2 c j := by
  rw [fgetsStore_le b1 c j h, fgetsStore_le b2 c j h]

theorem fgetsStore_agree_on (b1 b2 : Nat → Nat) (c : List Nat) (N : Nat)
    (h : ∀ j, j < N → b1 j = b2 j) : ∀ j, j < N → fgetsStore b1 c j = fgetsStore b2 c j := by
  intro j hj
  unfold fgetsStore
  split
  · rfl
  · split
    · rfl
    · exact h j hj

theorem selexLoop_agree (cap beg en : Nat) (hbeg : 1 ≤ beg) (hen : beg ≤ en)
    (cs : List (List Nat)) (b1 b2 : Nat → Nat) (s1 s2 : SelexState)
    (hs : s1.result = s2.result) (h : ∀ j, j < en → b1 j = b2 j) :
    (selexLoop cap beg en cs b1 s1).forget SelexState.result
      = (selexLoop cap beg en cs b2 s2).forget SelexState.result := by
  induction cs generalizing b1 b2 s1 s2 with
  | nil => simp only [selexLoop, Parsed.forget, hs]
  | cons c cs ih =>
    simp only [selexLoop]
    have hb := fgetsStore_agree_on b1 b2 c en h
    exact andThen_forget _ _ _ _ _ _
      (selexLine_agree cap beg en _ _ s1 s2 hs hbeg hen hb)
      (fun a1 a2 ha => ih _ _ a1 a2 ha hb)

theorem selexLoop_filter (cap beg en : Nat) (hbeg : 1 ≤ beg) (hen : beg ≤ en)
    (cs : List (List Nat))
    (hcs : ∀ c ∈ cs, c ≠ [] ∧ (isSelexComment (c.getD 0 0) = true ∨ en ≤ c.length + 1))
    (b1 b2 : Nat → Nat) (s1 s2 : SelexState) (hs : s1.result = s2.result) :
    (selexLoop cap beg en cs b1 s1).forget SelexState.result
      = (selexLoop cap beg en (cs.filter (fun c => !isSelexComment (c.getD 0 0))) b2 s2).forget
          SelexState.result := by
  induction cs generalizing b1 b2 s1 s2 with
  | nil => simp only [List.filter_nil, selexLoop, Parsed.forget, hs]
  | cons c cs ih =>
    have hc := hcs c (List.mem_cons_self _ _)
    have ih2 := fun b1 b2 s1 s2 hs => ih (fun x hx => hcs x (List.mem_cons_of_mem _ hx)) b1 b2 s1 s2 hs
    have h0 : ∀ b : Nat → Nat, fgetsStore b c 0 = c.getD 0 0 :=
      fun b => fgetsStore_lt b c 0 (List.length_pos.2 hc.1)
    by_cases hcom : isSelexComment (c.getD 0 0) = true
    · rw [List.filter_cons_of_neg (by rw [hcom]; decide)]
      simp only [selexLoop, selexLine, h0, hcom, if_true, Parsed.andThen_ok]
      exact ih2 _ _ _ _ hs
    · rw [List.filter_cons_of_pos (by
        cases hq : isSelexComment (c.getD 0 0) with
        | true => exact absurd hq hcom
        | false => rfl)]
      have hcov : en ≤ c.length + 1 := by
        rcases hc.2 with h | h
        · exact absurd h hcom
        · exact h
      simp only [selexLoop]
      exact andThen_forget _ _ _ _ _ _
        (selexLine_agree cap beg en _ _ s1 s2 hs hbeg hen
          (fun j hj => fgetsStore_agree b1 b2 c j (by omega)))
        (fun a1 a2 ha => ih2 _ _ a1 a2 ha)

theorem selexLoop_same_data (cap beg en : Nat) (hbeg : 1 ≤ beg) (hen : beg ≤ en)
    (cs1 cs2 : List (List Nat))
    (h1 : ∀ c ∈ cs1, c ≠ [] ∧ (isSelexComment (c.getD 0 0) = true ∨ en ≤ c.length + 1))
    (h2 : ∀ c ∈ cs2, c ≠ [] ∧ (isSelexComment (c.getD 0 0) = true ∨ en ≤ c.length + 1))
    (hsame : cs1.filter (fun c => !isSelexComment (c.getD 0 0))
      = cs2.filter (fun c => !isSelexComment (c.getD 0 0)))
    (b1 b2 : Nat → Nat) (s1 s2 : SelexState) (hs : s1.result = s2.result) :
    (selexLoop cap beg en cs1 b1 s1).forget SelexState.result
      = (selexLoop cap beg en cs2 b2 s2).forget SelexState.result := by
  rw [selexLoop_filter cap beg en hbeg hen cs1 h1 b1 b1 s1 s1 rfl, hsame,
    ← selexLoop_filter cap beg en hbeg hen cs2 h2 b2 b1 s2 s1 hs.symm]
theorem selexGeometry_first (d0 : List Nat) (hlen : d0.length + 1 ≤ SELEXLINELEN)
    (hcom : isSelexComment ((d0 ++ [10]).getD 0 0) = false) (h32 : 32 ∈ d0)
    (cs : List (List Nat)) (b : Nat → Nat) (iline : Int) (pos : Nat) :
    selexGeometry (SELEXLINELEN + 1) ((d0 ++ [10]) :: cs) b iline pos =
        { line := fgetsStore b (d0 ++ [10]), iline := iline + 1,
          pos := pos + (d0 ++ [10]).length, beg := (selexColumns d0).beg,
          endCol := (selexColumns d0).endCol,
          seqlen := (selexColumns d0).endCol - (selexColumns d0).beg } ∧
      1 ≤ (selexColumns d0).beg ∧ (selexColumns d0).beg ≤ (selexColumns d0).endCol ∧
      (selexColumns d0).endCol ≤ d0.length := by
  have hsize : SELEXLINELEN = 10000 := rfl
  have hclen : (d0 ++ [10]).length = d0.length + 1 := by simp
  have h0 : ∀ x : Nat → Nat, fgetsStore x (d0 ++ [10]) 0 = (d0 ++ [10]).getD 0 0 :=
    fun x => fgetsStore_lt x _ 0 (by rw [hclen]; omega)
  have hK : ∀ x : Nat → Nat, fgetsStore x (d0 ++ [10]) d0.length = 10 := by
    intro x
    rw [fgetsStore_lt x _ _ (by rw [hclen]; omega), getD_append_right _ _ _ (Nat.le_refl _),
      Nat.sub_self]
    rfl
  obtain ⟨j, hj, hj32⟩ : ∃ j, j < d0.length ∧ d0.getD j 0 = 32 := by
    obtain ⟨n, hn, e⟩ := List.getElem_of_mem h32
    exact ⟨n, hn, by rw [List.getD_eq_getElem _ _ hn, e]⟩
  have hj2 : ∀ x : Nat → Nat, fgetsStore x (d0 ++ [10]) j = 32 := by
    intro x
    rw [fgetsStore_lt x _ _ (by rw [hclen]; omega), getD_append_left _ _ _ hj, hj32]
  have hag : ∀ x : Nat → Nat, ∀ i, i ≤ d0.length →
      fgetsStore x (d0 ++ [10]) i = fgetsStore zeroBuf (d0 ++ [10]) i :=
    fun x i hi => fgetsStore_agree x zeroBuf _ i (by rw [hclen]; omega)
  -- the three scans in any buffer
  have scans : ∀ x : Nat → Nat,
      ∃ i1 bg en, scanFrom (fun b => b == 32) (fgetsStore x (d0 ++ [10])) (SELEXLINELEN + 1) 0 = i1 ∧
        scanFrom (fun b => b != 32) (fgetsStore x (d0 ++ [10])) (SELEXLINELEN + 1 - i1) i1 = bg ∧
        scanFrom (fun b => decide (cchar b < 32)) (fgetsStore x (d0 ++ [10]))
          (SELEXLINELEN + 1 - bg) bg = en ∧
        scanFrom (fun b => b == 32) (fgetsStore zeroBuf (d0 ++ [10])) (SELEXLINELEN + 1) 0 = i1 ∧
        scanFrom (fun b => b != 32) (fgetsStore zeroBuf (d0 ++ [10])) (SELEXLINELEN + 1 - i1) i1
          = bg ∧
        scanFrom (fun b => decide (cchar b < 32)) (fgetsStore zeroBuf (d0 ++ [10]))
          (SELEXLINELEN + 1 - bg) bg = en ∧
        1 ≤ bg ∧ bg ≤ en ∧ en ≤ d0.length := by
    intro x
    obtain ⟨a1, a2, a3, a4⟩ := scanFrom_agree (fun b => b == 32) (fgetsStore x (d0 ++ [10]))
      (fgetsStore zeroBuf (d0 ++ [10])) (SELEXLINELEN + 1) 0 d0.length (hag x)
      ⟨j, Nat.zero_le _, by omega, by rw [hj2]; rfl⟩ (by omega)
    obtain ⟨i1, hi1⟩ : ∃ i1, scanFrom (fun b => b == 32) (fgetsStore x (d0 ++ [10]))
      (SELEXLINELEN + 1) 0 = i1 := ⟨_, rfl⟩
    rw [hi1] at a1 a2 a3 a4
    obtain ⟨b1, b2, b3, b4⟩ := scanFrom_agree (fun b => b != 32) (fgetsStore x (d0 ++ [10]))
      (fgetsStore zeroBuf (d0 ++ [10])) (SELEXLINELEN + 1 - i1) i1 d0.length (hag x)
      ⟨d0.length, a3, Nat.le_refl _, by rw [hK]; rfl⟩ (by omega)
    obtain ⟨bg, hbg⟩ : ∃ bg, scanFrom (fun b => b != 32) (fgetsStore x (d0 ++ [10]))
      (SELEXLINELEN + 1 - i1) i1 = bg := ⟨_, rfl⟩
    rw [hbg] at b1 b2 b3 b4
    obtain ⟨c1, c2, c3, _⟩ := scanFrom_agree (fun b => decide (cchar b < 32))
      (fgetsStore x (d0 ++ [10])) (fgetsStore zeroBuf (d0 ++ [10])) (SELEXLINELEN + 1 - bg) bg
      d0.length (hag x) ⟨d0.length, b3, Nat.le_refl _, by rw [hK]; decide⟩ (by omega)
    have hne : bg ≠ i1 := by
      intro e
      rw [e] at b4
      have a4' : fgetsStore x (d0 ++ [10]) i1 = 32 := by simpa using a4
      rw [a4'] at b4
      exact absurd b4 (by decide)
    exact ⟨i1, bg, _, hi1, hbg, rfl, a1.symm, b1.symm, c1.symm, by omega, c2, c3⟩
  obtain ⟨i1, bg, en, e1, e2, e3, f1, f2, f3, g1, g2, g3⟩ := scans b
  have hcols : selexColumns d0 =
      { line := fgetsStore zeroBuf (d0 ++ [10]), iline := 0 + 1, pos := 0 + (d0 ++ [10]).length,
        beg := bg, endCol := en, seqlen := en - bg } := by
    simp only [selexColumns, selexGeometry, h0, hcom, Bool.false_eq_true, if_false, f1, f2, f3]
  have hb : (selexColumns d0).beg = bg := by rw [hcols]
  have he : (selexColumns d0).endCol = en := by rw [hcols]
  rw [hb, he]
  refine ⟨?_, g1, g2, g3⟩
  simp only [selexGeometry, h0, hcom, Bool.false_eq_true, if_false, e1, e2, e3]
theorem fgetsAll_drop_line (size : Nat) (l rest : List Nat) (m : Nat) (h10 : 10 ∉ l)
    (hlen : l.length + 2 ≤ size) :
    fgetsAll size ((l ++ [10]).drop m ++ rest) []
      = fgetsAll size ((l ++ [10]).drop m) [] ++ fgetsAll size rest [] := by
  by_cases hm : m ≤ l.length
  · rw [List.drop_append_of_le_length hm]
    have h1 : 10 ∉ l.drop m := fun h => h10 (List.mem_of_mem_drop h)
    have h2 : (l.drop m).length ≤ l.length := by rw [List.length_drop]; omega
    have e1 := fgetsAll_line size (l.drop m) rest [] h1 (by simp; omega)
    have e2 := fgetsAll_line size (l.drop m) [] [] h1 (by simp; omega)
    simp only [List.nil_append] at e1 e2
    rw [List.append_assoc, List.singleton_append, e1, e2]
    rfl
  · rw [List.drop_eq_nil_of_le (by simp; omega)]
    rfl

theorem textOfLines_append (a b : List (List Nat)) :
    textOfLines (a ++ b) = textOfLines a ++ textOfLines b := by
  simp [textOfLines]

theorem textOfLines_cons (l : List Nat) (ls : List (List Nat)) :
    textOfLines (l :: ls) = l ++ [10] ++ textOfLines ls := by
  simp [textOfLines]

theorem parseSelex_first (cap : Nat) (junk : Nat → Nat) (pre : List (List Nat)) (d0 : List Nat)
    (rest : List (List Nat))
    (hpre : ∀ t ∈ pre, CommentOk t)
    (h10 : 10 ∉ d0) (hlen : d0.length + 1 ≤ SELEXLINELEN)
    (hcom : isSelexComment ((d0 ++ [10]).getD 0 0) = false) (h32 : 32 ∈ d0)
    (hrest : ∀ l ∈ rest, 10 ∉ l ∧ l.length + 1 ≤ SELEXLINELEN) :
    ∃ (buf : Nat → Nat) (iline : Int),
      parseSelex cap junk (textOfLines (pre ++ d0 :: rest)) =
        (selexLoop cap (selexColumns d0).beg (selexColumns d0).endCol
            (fgetsAll (SELEXLINELEN + 1)
                ((d0 ++ [10]).drop ((d0 ++ [10]).length
                  - scanFrom (fun b => b == 0) (fgetsStore zeroBuf (d0 ++ [10]))
                      (SELEXLINELEN + 1) 0)) []
              ++ rest.map (fun l => l ++ [10]))
            (fgetsStore buf (d0 ++ [10]))
            { labels := [], mapping := [], count := 0, data := [], iline := iline }).andThen
          (selexFinish ((selexColumns d0).endCol - (selexColumns d0).beg)) := by
  have hsize : SELEXLINELEN = 10000 := rfl
  have hclen : (d0 ++ [10]).length = d0.length + 1 := by simp
  have hall : ∀ l ∈ pre ++ d0 :: rest, 10 ∉ l ∧ l.length + 2 ≤ SELEXLINELEN + 1 := by
    intro l hl
    rcases List.mem_append.1 hl with hl | hl
    · exact ⟨(hpre l hl).2.1, by have := (hpre l hl).2.2; omega⟩
    · rcases List.mem_cons.1 hl with rfl | hl
      · exact ⟨h10, by omega⟩
      · exact ⟨(hrest l hl).1, by have := (hrest l hl).2; omega⟩
  have hchunks : fgetsAll (SELEXLINELEN + 1) (textOfLines (pre ++ d0 :: rest)) []
      = pre.map (fun t => t ++ [10]) ++ (d0 ++ [10]) :: rest.map (fun l => l ++ [10]) := by
    have := fgetsAll_map_line (SELEXLINELEN + 1) (pre ++ d0 :: rest) [] hall
    rw [List.append_nil] at this
    unfold textOfLines
    rw [this]
    simp [fgetsAll]
  obtain ⟨hg1, hg2, hg3, hg4⟩ := selexGeometry_first d0 hlen hcom h32
    (rest.map (fun l => l ++ [10])) ((pre.map (fun t => t ++ [10])).foldl fgetsStore junk)
    ((0 : Int) + (pre.length : Nat)) (0 + ((pre.map (fun t => t ++ [10])).flatten).length)
  have hgeom : selexGeometry (SELEXLINELEN + 1)
      (fgetsAll (SELEXLINELEN + 1) (textOfLines (pre ++ d0 :: rest)) []) junk 0 0
      = { line := fgetsStore ((pre.map (fun t => t ++ [10])).foldl fgetsStore junk) (d0 ++ [10]),
          iline := (0 : Int) + (pre.length : Nat) + 1,
          pos := 0 + ((pre.map (fun t => t ++ [10])).flatten).length + (d0 ++ [10]).length,
          beg := (selexColumns d0).beg, endCol := (selexColumns d0).endCol,
          seqlen := (selexColumns d0).endCol - (selexColumns d0).beg } := by
    rw [hchunks, selexGeometry_comments _ _ hpre, hg1]
  -- the length that `strlen` finds
  obtain ⟨k1, k2, k3, _⟩ := scanFrom_agree (fun b => b == 0)
    (fgetsStore ((pre.map (fun t => t ++ [10])).foldl fgetsStore junk) (d0 ++ [10]))
    (fgetsStore zeroBuf (d0 ++ [10])) (SELEXLINELEN + 1) 0 (d0 ++ [10]).length
    (fun j hj => fgetsStore_agree _ _ _ j hj)
    ⟨(d0 ++ [10]).length, Nat.zero_le _, Nat.le_refl _, by rw [fgetsStore_length]; rfl⟩
    (by rw [hclen]; omega)
  rw [k1] at k3
  have hdrop : (textOfLines (pre ++ d0 :: rest)).drop
      (((pre.map (fun t => t ++ [10])).flatten).length +
        ((d0 ++ [10]).length - scanFrom (fun b => b == 0) (fgetsStore zeroBuf (d0 ++ [10]))
          (SELEXLINELEN + 1) 0))
      = (d0 ++ [10]).drop ((d0 ++ [10]).length
          - scanFrom (fun b => b == 0) (fgetsStore zeroBuf (d0 ++ [10])) (SELEXLINELEN + 1) 0)
        ++ textOfLines rest := by
    rw [textOfLines_append, textOfLines_cons]
    show ((pre.map (fun t => t ++ [10])).flatten ++ _).drop _ = _
    rw [List.drop_append, List.drop_append_of_le_length (by omega)]
  have hrestc : fgetsAll (SELEXLINELEN + 1) (textOfLines rest) [] = rest.map (fun l => l ++ [10]) := by
    have := fgetsAll_map_line (SELEXLINELEN + 1) rest []
      (fun l hl => ⟨(hrest l hl).1, by have := (hrest l hl).2; omega⟩)
    rw [List.append_nil] at this
    unfold textOfLines
    rw [this]
    simp [fgetsAll]
  refine ⟨(pre.map (fun t => t ++ [10])).foldl fgetsStore junk, (0 : Int) + (pre.length : Nat) + 1 - 1, ?_⟩
  unfold parseSelex
  simp only [hgeom, k1]
  rw [if_neg (by omega), if_pos (by omega)]
  have harith : ∀ a b k : Nat, k ≤ b → 0 + a + b - k = a + (b - k) := by
    intro a b k hk; omega
  rw [harith _ _ _ k3]
  rw [hdrop, fgetsAll_drop_line _ d0 _ _ h10 (by omega), hrestc]

theorem selexFinish_result (L : Nat) (a1 a2 : SelexState) (h : a1.result = a2.result) :
    (selexFinish L a1).forget id = (selexFinish L a2).forget id := by
  obtain ⟨l1, m1, c1, d1, i1⟩ := a1
  obtain ⟨l2, m2, c2, d2, i2⟩ := a2
  simp only [SelexState.result, Prod.mk.injEq] at h
  obtain ⟨rfl, rfl, rfl, rfl⟩ := h
  rfl

theorem forget_id_ok {α : Type} (p q : Parsed α) (h : p.forget id = q.forget id) (r : α) :
    p = Parsed.ok r ↔ q = Parsed.ok r := by
  cases p with
  | ok a1 =>
    cases q with
    | ok a2 =>
      simp only [Parsed.forget, id] at h
      injection h with h
      rw [h]
    | ioError m => simp [Parsed.forget] at h
    | fault e => simp [Parsed.forget] at h
  | ioError m1 =>
    cases q with
    | ok a2 => simp [Parsed.forget] at h
    | ioError m2 => constructor <;> intro e <;> cases e
    | fault e => simp [Parsed.forget] at h
  | fault e1 =>
    cases q with
    | ok a2 => simp [Parsed.forget] at h
    | ioError m => simp [Parsed.forget] at h
    | fault e2 => constructor <;> intro e <;> cases e

theorem filter_map_line (rest : List (List Nat)) :
    (rest.map (fun l => l ++ [10])).filter (fun c => !isSelexComment (c.getD 0 0))
      = (rest.filter isDataLine).map (fun l => l ++ [10]) := by
  rw [List.filter_map]
  rfl

/-! ## The claims -/

set_option maxRecDepth 100000

/-- C1 (as stated, refuted): two inputs on which `parseFasta` succeeds and the round
trip does not.  On `exWrapFile` each row is sixty `A` and a `>`; `writeFasta` wraps the
row after sixty bytes, the `>` starts a line of its own, and parsing the written text
fails at line 4.  On `exEmptyRecordFile` the parse returns two rows and three labels,
which `writeFasta` refuses with the size-mismatch error. -/
theorem fasta_round_trip_counterexample :
    (parseFasta 200 zeroBuf exWrapFile = Parsed.ok exWrapParsed ∧
      writeFasta exWrapParsed.labels exWrapParsed.rows exWrapParsed.cols exWrapParsed.data 60
        = Written.file exWrapWritten ∧
      parseFasta 200 zeroBuf exWrapWritten = Parsed.ioError (intcat fastaErrmsg 4)) ∧
    (parseFasta 200 zeroBuf exEmptyRecordFile = Parsed.ok exEmptyRecordParsed ∧
      writeFasta exEmptyRecordParsed.labels exEmptyRecordParsed.rows exEmptyRecordParsed.cols
        exEmptyRecordParsed.data 60 = Written.valueError sizeErrmsg) := by
  decide

/-- C1 (amended): FASTA round trip.  For every file of bytes on which `parseFasta`
succeeds with a result whose matrix has as many rows as there are labels and no `>`
in a column that is a multiple of 60, `writeFasta` at line length 60 writes a text
(whatever memory `tail` follows the matrix) on which `parseFasta` succeeds again and
returns the identical result: same shape, same bytes, same labels. -/
theorem parseFasta_writeFasta (cap : Nat) (junk junk2 : Nat → Nat) (file tail : List Nat)
    (r : Alignment) (hbytes : ∀ b ∈ file, b < 256)
    (hparse : parseFasta cap junk file = Parsed.ok r)
    (hrows : r.rows = r.labels.length)
    (hgt : ∀ row ∈ r.rowList, ∀ k, 60 * k < row.length → row.getD (60 * k) 0 ≠ 62) :
    ∃ out, writeFasta r.labels r.rows r.cols (r.data ++ tail) 60 = Written.file out ∧
      parseFasta cap junk2 out = Parsed.ok r := by
  obtain ⟨h1, h2, h3, h4, h5, h6, h7, h8⟩ := parseFasta_ok_inv cap junk file r hparse
  have h5b := parseFasta_ok_bytes cap junk file r hbytes hparse
  have h0 : 0 ∉ r.data := fun h => absurd (h5 0 h) (by decide)
  have hw := writeFasta_sixty r.labels r.rows r.cols r.data tail hrows
    (fun l hl => labelOk_no_nul l (h6 l hl)) h3 h0
  refine ⟨_, hw, ?_⟩
  have hch : chunksOf r.cols r.labels.length (r.data ++ tail) = r.rowList := by
    unfold Alignment.rowList
    rw [← hrows, chunksOf_append _ _ _ _ (by rw [h3, Nat.mul_comm])]
  have hdata_mem : ∀ row ∈ r.rowList, ∀ b ∈ row, b ∈ r.data := by
    intro row hrow b hb
    have e := flatten_chunksOf r.cols r.rows r.data
    have : b ∈ (chunksOf r.cols r.rows r.data).flatten := List.mem_flatten.2 ⟨row, hrow, hb⟩
    rw [e] at this
    exact List.mem_of_mem_take this
  obtain ⟨k1, k2, k3⟩ := fastaRecordsSpec_ok r.cols r.labels (r.data ++ tail) h6
    (by rw [List.length_append, ← hrows, h3]; omega)
    (fun row hrow => by
      rw [hch] at hrow
      exact ⟨fun b hb => ⟨h5 b (hdata_mem row hrow b hb), h5b b (hdata_mem row hrow b hb)⟩,
        hgt row hrow⟩)
  have hlenrec := length_fastaRecordsSpec 60 r.cols r.labels (r.data ++ tail)
  rw [parseFasta_fastaText cap r.cols junk2 _ k1 (by rw [hlenrec]; omega) h2
    (by rw [hlenrec, ← hrows]; exact h4)]
  rw [k2, k3, hlenrec, ← hrows, ← h3, List.take_left' rfl, ← h7]
  cases r
  simp only at hrows h8 ⊢
  rw [h8, ← hrows]

/-- C1 (amended), at the file `>a`, `ACGT`, `>b`, `ACGG`. -/
theorem parseFasta_writeFasta_witness :
    ∃ out, writeFasta exPairParsed.labels exPairParsed.rows exPairParsed.cols
        (exPairParsed.data ++ [0, 7]) 60 = Written.file out ∧
      parseFasta 8 zeroBuf out = Parsed.ok exPairParsed :=
  parseFasta_writeFasta 8 zeroBuf zeroBuf exPairFile [0, 7] exPairParsed (by decide) (by decide)
    (by decide) (by
      intro row hrow k hk
      have hrow2 : row = [65, 67, 71, 84] ∨ row = [65, 67, 71, 71] := by
        simpa [Alignment.rowList, exPairParsed, chunksOf] using hrow
      have hk0 : k = 0 := by
        rcases hrow2 with rfl | rfl <;> simp at hk <;> omega
      subst hk0
      rcases hrow2 with rfl | rfl <;> decide)

/-- C2 (code defect): on the well-formed file `>a`, `ACGT` of one record `parseFasta`
does not return the 1 x 4 matrix; the final length check compares the record length 4
with the reference length, which is still 0, and raises the format error for line 2. -/
theorem parseFasta_single_record (junk : Nat → Nat) :
    parseFasta 100 junk [62, 97, 10, 65, 67, 71, 84, 10]
      = Parsed.ioError "failed to parse FASTA file at line 2".toList := by
  have h := parseFasta_single 100 4 junk ([97], [[65, 67, 71, 84]]) (by decide) (by decide)
    (by decide)
  have e1 : fastaText [([97], [[65, 67, 71, 84]])] = [62, 97, 10, 65, 67, 71, 84, 10] := by decide
  have e2 : intcat fastaErrmsg ((recordsLines [([97], [[65, 67, 71, 84]])] : Nat) : Int)
      = "failed to parse FASTA file at line 2".toList := by decide
  rw [e1, e2] at h
  exact h

/-- C6: whenever the label count differs from the row count, `writeFasta` and
`writeSelex` both end with the size-mismatch `ValueError`, the outcome of a call that
has not opened the destination and has written nothing; whenever the counts are
equal, neither call ends with a `ValueError`. -/
theorem writers_size_check (labels : List (List Nat)) (numseq lenseq : Nat) (seq : List Nat)
    (line_length : Nat) (stockholm : Bool) (label_length : Nat) (junk : Nat → Nat) :
    (numseq ≠ labels.length →
        writeFasta labels numseq lenseq seq line_length = Written.valueError sizeErrmsg ∧
        writeSelex labels numseq lenseq seq stockholm label_length junk
          = Written.valueError sizeErrmsg) ∧
      (numseq = labels.length →
        (∀ m, writeFasta labels numseq lenseq seq line_length ≠ Written.valueError m) ∧
        (∀ m, writeSelex labels numseq lenseq seq stockholm label_length junk
          ≠ Written.valueError m)) := by
  constructor
  · intro h
    simp [writeFasta, writeSelex, h]
  · intro h
    constructor
    · intro m
      unfold writeFasta
      rw [if_neg (by simpa using h)]
      split <;> simp
    · intro m
      unfold writeSelex
      rw [if_neg (by simpa using h)]
      generalize hr : writeSelexRows label_length lenseq labels seq _ = res
      cases res with
      | valueError m2 => exact absurd hr (writeSelexRows_ne_valueError _ _ _ _ _ _)
      | file out => simp [Written.wrap]
      | fault f => simp [Written.wrap]

/-- C6, at three labels and a matrix of two rows, and at two labels and two rows. -/
theorem writers_size_check_witness :
    (writeFasta [[97], [98], [99]] 2 1 [65, 66] 60 = Written.valueError sizeErrmsg ∧
      writeSelex [[97], [98], [99]] 2 1 [65, 66] false 31 zeroBuf
        = Written.valueError sizeErrmsg) ∧
    ((∀ m, writeFasta [[97], [98]] 2 1 [65, 66] 60 ≠ Written.valueError m) ∧
      (∀ m, writeSelex [[97], [98]] 2 1 [65, 66] false 31 zeroBuf ≠ Written.valueError m)) :=
  ⟨(writers_size_check [[97], [98], [99]] 2 1 [65, 66] 60 false 31 zeroBuf).1 (by decide),
   (writers_size_check [[97], [98]] 2 1 [65, 66] 60 false 31 zeroBuf).2 (by decide)⟩

/-- C7 (code defect): with wrap width 1, labels `x`, `y` and the matrix of rows `A` and
`B`, `writeFasta` prints both bytes under `x` and none under `y`, because the inner
loop runs to the constant 60 and not to `line_length`; the text the claim describes is
`>x`, `A`, empty line, `>y`, `B`, empty line. -/
theorem writeFasta_width_one :
    writeFasta [[120], [121]] 2 1 [65, 66] 1
        = Written.file [62, 120, 10, 65, 66, 10, 10, 62, 121, 10, 10, 10] ∧
      fastaText (fastaRecordsSpec 1 1 [[120], [121]] [65, 66])
        = [62, 120, 10, 65, 10, 10, 62, 121, 10, 66, 10, 10] := by
  decide

/-- C8 (as stated, refuted): a NUL byte ends the line that `writeSelex` prints.  With the
label `a`, field width 2 and the row `\0A`, the line is `a` and a space, two bytes
instead of five and no newline; with the label `a\0b` and field width 3 the label is
printed as `a` and two spaces. -/
theorem writeSelex_nul_counterexample :
    writeSelex [[97]] 1 2 [0, 65] false 2 zeroBuf = Written.file [97, 32] ∧
      writeSelex [[97, 0, 98]] 1 1 [65] false 3 zeroBuf = Written.file [97, 32, 32, 65, 10] := by
  decide

/-- C8 (amended): for every field width `w`, every matrix of `N` rows of length `L ≥ 1`
without NUL byte and every list of `N` labels without NUL byte, each of length at
most `w`, the text written by `writeSelex` is the line `# STOCKHOLM 1.0` if the flag is
set, then for each row its label, `w - len(label)` spaces, the `L` bytes of the row and
a newline (`w + L + 1` bytes a row), then the line `//` if the flag is set. -/
theorem writeSelex_text (labels : List (List Nat)) (numseq lenseq : Nat) (seq : List Nat)
    (stockholm : Bool) (w : Nat) (junk : Nat → Nat)
    (hL : 1 ≤ lenseq) (hn : numseq = labels.length) (hseq : seq.length = numseq * lenseq)
    (hlab : ∀ l ∈ labels, l.length ≤ w ∧ 0 ∉ l) (hseq0 : 0 ∉ seq) :
    writeSelex labels numseq lenseq seq stockholm w junk =
        Written.file
          ((if stockholm then [35, 32, 83, 84, 79, 67, 75, 72, 79, 76, 77, 32, 49, 46, 48, 10]
            else []) ++ selexRowsSpec w lenseq labels seq
            ++ (if stockholm then [47, 47, 10] else [])) ∧
      (selexRowsSpec w lenseq labels seq).length = numseq * (w + lenseq + 1) := by
  constructor
  · unfold writeSelex
    rw [if_neg (by omega)]
    rw [writeSelexRows_eq w lenseq hL labels seq _ hlab (by rw [hseq, hn]) hseq0 (by simp)
      (by simp)]
    rfl
  · rw [hn]
    exact length_selexRowsSpec w lenseq labels seq (fun l hl => (hlab l hl).1)
      (by rw [hseq, hn])

/-- C8 (amended), at labels `x`, `yy`, field width 4, rows `ABC`, `DEF` and the
Stockholm flag. -/
theorem writeSelex_text_witness :
    writeSelex [[120], [121, 121]] 2 3 [65, 66, 67, 68, 69, 70] true 4 zeroBuf =
        Written.file
          ((if true then [35, 32, 83, 84, 79, 67, 75, 72, 79, 76, 77, 32, 49, 46, 48, 10]
            else []) ++ selexRowsSpec 4 3 [[120], [121, 121]] [65, 66, 67, 68, 69, 70]
            ++ (if true then [47, 47, 10] else [])) ∧
      (selexRowsSpec 4 3 [[120], [121, 121]] [65, 66, 67, 68, 69, 70]).length
        = 2 * (4 + 3 + 1) :=
  writeSelex_text [[120], [121, 121]] 2 3 [65, 66, 67, 68, 69, 70] true 4 zeroBuf (by decide)
    (by decide) (by decide) (by decide) (by decide)

/-- C9 (as stated, refuted): `exLongLineFile` is one data line, the label `a`, one space
and 9999 sequence bytes.  `fgets` returns its first 10000 bytes, then the rest `A`,
newline; `parseSelex` fails on that second piece with the format error for line 2 and
returns no 1 x 9999 matrix. -/
theorem parseSelex_long_line_counterexample :
    parseSelex 9999 zeroBuf exLongLineFile
      = Parsed.ioError "failed to parse SELEX/Stockholm file at line 2".toList := by
  have h := parseSelex_long_line zeroBuf (List.replicate 9998 65)
    (fun b hb => (List.mem_replicate.1 hb).2) (List.length_replicate _ _)
  have e : intcat selexErrmsg 2 = "failed to parse SELEX/Stockholm file at line 2".toList := by
    decide
  rw [e] at h
  exact h

/-- C9 (amended): for every SELEX input made of comment lines and `N ≥ 1` data lines,
every line at most `SELEXLINELEN` bytes long with its newline, whose data lines all
consist of a field of `beg - 1` bytes that the label scan passes over (label and
padding), a space, and `L ≥ 1` sequence bytes not below 32 starting at column `beg`,
where the first data line is a label without space, spaces, and a sequence that does
not start with a space: `parseSelex` returns the `N x L` matrix whose rows are the
bytes `[beg, beg + L)` of the data lines and the `N` labels that are the bytes
`[0, beg - 1)` of the data lines. -/
theorem parseSelex_lines (cap beg L : Nat) (junk : Nat → Nat) (before : List (List Nat))
    (lab : List Nat) (j : Nat) (seq0 : List Nat) (after : List SelexLine)
    (hbefore : ∀ t ∈ before, CommentOk t)
    (hfirst : DataOk beg L (lab ++ List.replicate j 32) seq0) (hlab : 32 ∉ lab)
    (hs0 : seq0.getD 0 0 ≠ 32) (hL : 1 ≤ L)
    (hafter : ∀ l ∈ after, SelexLineOk beg L l)
    (hcap : ((selexFields after).length + 1) * L ≤ cap) :
    parseSelex cap junk
        (selexText (before.map SelexLine.comment
          ++ SelexLine.data (lab ++ List.replicate j 32) seq0 :: after)) =
      Parsed.ok
        { rows := (selexFields after).length + 1, cols := L,
          data := seq0 ++ selexSeqs after,
          labels := (lab ++ List.replicate j 32) :: selexFields after,
          mapping := registerAll [] 0 ((lab ++ List.replicate j 32) :: selexFields after),
          count := (selexFields after).length + 1 } := by
  obtain ⟨buf, e⟩ := parseSelex_reaches cap beg L junk before lab j seq0 after [] hbefore hfirst
    hlab hs0 hL hafter hcap
  rw [List.append_nil] at e
  have hlen : (seq0 ++ selexSeqs after).length = ((selexFields after).length + 1) * L := by
    rw [List.length_append, length_selexSeqs beg L after hafter, hfirst.2.1, Nat.add_mul]
    omega
  rw [e, show fgetsAll (SELEXLINELEN + 1) [] [] = [] from rfl]
  simp only [selexLoop, Parsed.andThen_ok, selexFinish, hlen]
  rw [if_neg (by omega), Nat.mul_div_cancel _ (by omega), ← hlen, List.take_length]

/-- C9 (amended), at the file `# x`, `ab  ACGT`, `//`, `cd  TTTT`. -/
theorem parseSelex_lines_witness :
    parseSelex 100 zeroBuf
        (selexText ([[35, 32, 120]].map SelexLine.comment
          ++ SelexLine.data ([97, 98] ++ List.replicate 1 32) [65, 67, 71, 84]
            :: [SelexLine.comment [47, 47], SelexLine.data [99, 100, 32] [84, 84, 84, 84]])) =
      Parsed.ok
        { rows := (selexFields [SelexLine.comment [47, 47],
              SelexLine.data [99, 100, 32] [84, 84, 84, 84]]).length + 1,
          cols := 4,
          data := [65, 67, 71, 84] ++ selexSeqs [SelexLine.comment [47, 47],
              SelexLine.data [99, 100, 32] [84, 84, 84, 84]],
          labels := ([97, 98] ++ List.replicate 1 32) :: selexFields [SelexLine.comment [47, 47],
              SelexLine.data [99, 100, 32] [84, 84, 84, 84]],
          mapping := registerAll [] 0 (([97, 98] ++ List.replicate 1 32)
            :: selexFields [SelexLine.comment [47, 47],
              SelexLine.data [99, 100, 32] [84, 84, 84, 84]]),
          count := (selexFields [SelexLine.comment [47, 47],
              SelexLine.data [99, 100, 32] [84, 84, 84, 84]]).length + 1 } :=
  parseSelex_lines 100 4 4 zeroBuf [[35, 32, 120]] [97, 98] 1 [65, 67, 71, 84]
    [SelexLine.comment [47, 47], SelexLine.data [99, 100, 32] [84, 84, 84, 84]]
    (by decide) (by decide) (by decide) (by decide) (by decide) (by decide) (by decide)

/-- C10 (as stated, refuted): in the label `a-b/1-2` a `-` comes before the first `/`,
and the registry key is still the label cut before that `/`; in the label `/1-2` the
first `/` comes before every `-` and a `-` follows it, and the key is the whole
label. -/
theorem parseLabel_key_counterexample :
    (labelText exDashLabel 7 = [97, 45, 98, 47, 49, 45, 50] ∧
        labelKey exDashLabel 7 = [97, 45, 98]) ∧
      (labelText exSlashLabel 4 = [47, 49, 45, 50] ∧
        labelKey exSlashLabel 4 = [47, 49, 45, 50]) := by
  decide

/-- C10 (amended): for every label that does not begin with `/`, the registry key
computed by `parseLabel` is the label cut just before its first `/` exactly when a `-`
occurs after that `/` (whether or not a `-` also occurs before it); in every other
case the key is the whole label.  The text appended to the label list is the whole
label. -/
theorem parseLabel_key (labels : List (List Nat)) (mapping : Registry) (line : Nat → Nat)
    (length : Nat) (hbyte : ∀ k, line k < 256)
    (hfirst : (labelText line length).head? ≠ some 47) :
    (parseLabel labels mapping line length).1 = labels ++ [labelText line length] ∧
      (parseLabel labels mapping line length).2.1 =
        registryAdd mapping
          (if 47 ∈ labelText line length ∧
              45 ∈ (labelText line length).drop ((labelText line length).indexOf 47)
           then (labelText line length).take ((labelText line length).indexOf 47)
           else labelText line length)
          labels.length := by
  refine ⟨rfl, ?_⟩
  rw [← labelKey_eq line hbyte length hfirst]
  rfl

/-- C10 (amended), at the label `a-b/1-2`. -/
theorem parseLabel_key_witness :
    (parseLabel [] [] exDashLabel 7).1 = [] ++ [labelText exDashLabel 7] ∧
      (parseLabel [] [] exDashLabel 7).2.1 =
        registryAdd []
          (if 47 ∈ labelText exDashLabel 7 ∧
              45 ∈ (labelText exDashLabel 7).drop ((labelText exDashLabel 7).indexOf 47)
           then (labelText exDashLabel 7).take ((labelText exDashLabel 7).indexOf 47)
           else labelText exDashLabel 7)
          ([] : List (List Nat)).length :=
  parseLabel_key [] [] exDashLabel 7
    (fun k => getD_lt_of_forall _ 256 (by decide) (by decide) k) (by decide)

/-- C11 (as stated, refuted): the three bytes `a`, 0xC3, 0xA9 all have a value of at
least 32 and none is a control byte, yet the label that `parseLabel` appends is `a`
alone: read through `char` the byte 0xC3 is negative and ends the scan. -/
theorem parseLabel_high_byte_counterexample :
    (parseLabel [] [] exHighLabel 3).1 = [[97]] ∧
      bytesOf exHighLabel 3 = [97, 195, 169] ∧
      ∀ b ∈ bytesOf exHighLabel 3, 32 ≤ b ∧ b ≤ 255 := by
  decide

/-- C11 (amended): for every buffer of bytes and every length `n`, the label that
`parseLabel` appends to the label list is the bytes of the buffer before the first
position below `n` that holds a byte of value 0..31 other than 0x14 or a byte of value
128..255, and the first `n` bytes if there is no such position; so a byte 0x14 and
every byte of value 32..127 is kept inside the label. -/
theorem parseLabel_label (labels : List (List Nat)) (mapping : Registry) (line : Nat → Nat)
    (n : Nat) (hbyte : ∀ k, line k < 256) :
    (parseLabel labels mapping line n).1 =
      labels ++ [(bytesOf line n).takeWhile (fun b => !decide ((b < 32 ∧ b ≠ 20) ∨ 128 ≤ b))] := by
  show labels ++ [labelText line n] = _
  rw [labelText_eq, bytesOf_eq_seg]
  unfold labelRun
  rw [takeWhile_congr_mem _ (fun b => !decide ((b < 32 ∧ b ≠ 20) ∨ 128 ≤ b))]
  intro b hb
  rw [← bytesOf_eq_seg] at hb
  rw [labelStop_byte b (mem_bytesOf_lt line n hbyte b hb)]

/-- C11 (amended), at the label `seqA/1-2` read with length 8. -/
theorem parseLabel_label_witness :
    (parseLabel [] [] exRegionLabel 8).1 =
      [] ++ [(bytesOf exRegionLabel 8).takeWhile
        (fun b => !decide ((b < 32 ∧ b ≠ 20) ∨ 128 ≤ b))] :=
  parseLabel_label [] [] exRegionLabel 8
    (fun k => getD_lt_of_forall _ 256 (by decide) (by decide) k)

/-- C12 (as stated, refuted): `exBlankFile` is the data line `ab  ACGT` and an empty
line.  `parseSelex` reads the empty line as a second data line, with the columns that
the line buffer still holds from the first line, and returns two rows `ACGT`; with the
comment line `#=GC foo` inserted before the empty line the buffer holds the comment, the
column test fails, and the call ends with the format error for line 3. -/
theorem parseSelex_comment_counterexample :
    parseSelex 100 zeroBuf exBlankFile =
        Parsed.ok { rows := 2, cols := 4, data := [65, 67, 71, 84, 65, 67, 71, 84],
                    labels := [[97, 98, 32], []],
                    mapping := [([97, 98, 32], Entry.index 0), ([], Entry.index 1)],
                    count := 2 } ∧
      parseSelex 100 zeroBuf exBlankCommentFile =
        Parsed.ioError "failed to parse SELEX/Stockholm file at line 3".toList := by
  decide

/-- C12 (amended): comment lines are ignored by `parseSelex` on inputs whose lines fit
the line buffer, whose first data line holds a space, and whose data lines reach the
end of the sequence columns.  Take two inputs made of newline-ended lines of at most
`SELEXLINELEN` bytes: comment lines (first byte `#`, `/` or `%`), then the same first
data line `d0`, then further lines, comment lines or not, with the same data lines in
the same order, where every data line with its newline and the NUL that `fgets` stores
behind it covers the columns below the end column that `d0` defines.  Then the two
calls end the same way: whenever one returns a result the other returns the same
matrix, labels, registry and count, and otherwise both fail (the line number of a format
error apart).  In particular such an input parses like the input without its comment
lines, and a Stockholm-framed file like its SELEX body. -/
theorem parseSelex_comments (cap : Nat) (junk1 junk2 : Nat → Nat) (pre1 pre2 : List (List Nat))
    (d0 : List Nat) (rest1 rest2 : List (List Nat))
    (hpre1 : ∀ t ∈ pre1, CommentOk t) (hpre2 : ∀ t ∈ pre2, CommentOk t)
    (h10 : 10 ∉ d0) (hlen : d0.length + 1 ≤ SELEXLINELEN) (hdata : isDataLine d0 = true)
    (h32 : 32 ∈ d0)
    (hrest1 : ∀ l ∈ rest1, 10 ∉ l ∧ l.length + 1 ≤ SELEXLINELEN ∧
      (isDataLine l = true → (selexColumns d0).endCol ≤ l.length + 2))
    (hrest2 : ∀ l ∈ rest2, 10 ∉ l ∧ l.length + 1 ≤ SELEXLINELEN ∧
      (isDataLine l = true → (selexColumns d0).endCol ≤ l.length + 2))
    (hsame : rest1.filter isDataLine = rest2.filter isDataLine) :
    (∀ r, parseSelex cap junk1 (textOfLines (pre1 ++ d0 :: rest1)) = Parsed.ok r ↔
        parseSelex cap junk2 (textOfLines (pre2 ++ d0 :: rest2)) = Parsed.ok r) ∧
      (parseSelex cap junk1 (textOfLines (pre1 ++ d0 :: rest1))).forget id
        = (parseSelex cap junk2 (textOfLines (pre2 ++ d0 :: rest2))).forget id := by
  have hcom : isSelexComment ((d0 ++ [10]).getD 0 0) = false := by
    unfold isDataLine at hdata
    cases hq : isSelexComment ((d0 ++ [10]).getD 0 0) with
    | true => rw [hq] at hdata; exact absurd hdata (by decide)
    | false => rfl
  obtain ⟨_, hg2, hg3, hg4⟩ := selexGeometry_first d0 hlen hcom h32 [] zeroBuf 0 0
  obtain ⟨buf1, il1, e1⟩ := parseSelex_first cap junk1 pre1 d0 rest1 hpre1 h10 hlen hcom h32
    (fun l hl => ⟨(hrest1 l hl).1, (hrest1 l hl).2.1⟩)
  obtain ⟨buf2, il2, e2⟩ := parseSelex_first cap junk2 pre2 d0 rest2 hpre2 h10 hlen hcom h32
    (fun l hl => ⟨(hrest2 l hl).1, (hrest2 l hl).2.1⟩)
  have hchunk : ∀ rest : List (List Nat),
      (∀ l ∈ rest, 10 ∉ l ∧ l.length + 1 ≤ SELEXLINELEN ∧
        (isDataLine l = true → (selexColumns d0).endCol ≤ l.length + 2)) →
      ∀ c ∈ rest.map (fun l => l ++ [10]), c ≠ [] ∧
        (isSelexComment (c.getD 0 0) = true ∨ (selexColumns d0).endCol ≤ c.length + 1) := by
    intro rest hrest c hc
    obtain ⟨l, hl, rfl⟩ := List.mem_map.1 hc
    refine ⟨by simp, ?_⟩
    cases hq : isSelexComment ((l ++ [10]).getD 0 0) with
    | true => exact Or.inl rfl
    | false =>
      right
      have := (hrest l hl).2.2 (by unfold isDataLine; rw [hq]; rfl)
      simp only [List.length_append, List.length_singleton]
      omega
  have key : (parseSelex cap junk1 (textOfLines (pre1 ++ d0 :: rest1))).forget id
      = (parseSelex cap junk2 (textOfLines (pre2 ++ d0 :: rest2))).forget id := by
    rw [e1, e2, selexLoop_append, selexLoop_append]
    refine andThen_forget SelexState.result id _ _ _ _ ?_ (fun a1 a2 ha => selexFinish_result _ a1 a2 ha)
    refine andThen_forget SelexState.result SelexState.result _ _ _ _ ?_ ?_
    · exact selexLoop_agree cap _ _ hg2 hg3 _ _ _ _ _ rfl
        (fun j hj => fgetsStore_agree buf1 buf2 _ j (by simp; omega))
    · intro a1 a2 ha
      exact selexLoop_same_data cap _ _ hg2 hg3 _ _ (hchunk rest1 hrest1) (hchunk rest2 hrest2)
        (by rw [filter_map_line, filter_map_line, hsame]) _ _ a1 a2 ha
  exact ⟨fun r => forget_id_ok _ _ key r, key⟩

/-- C12 (amended), at the Stockholm file `# STOCKHOLM 1.0`, `ab  ACGT`, `cd  TTTT`,
`//` and its SELEX body `ab  ACGT`, `cd  TTTT`, which both parse to the rows `ACGT`
and `TTTT`. -/
theorem parseSelex_comments_witness :
    ((∀ r, parseSelex 100 zeroBuf
          (textOfLines ([[35, 32, 83, 84, 79, 67, 75, 72, 79, 76, 77, 32, 49, 46, 48]]
            ++ [97, 98, 32, 32, 65, 67, 71, 84]
              :: [[99, 100, 32, 32, 84, 84, 84, 84], [47, 47]])) = Parsed.ok r ↔
        parseSelex 100 zeroBuf
          (textOfLines ([] ++ [97, 98, 32, 32, 65, 67, 71, 84]
            :: [[99, 100, 32, 32, 84, 84, 84, 84]])) = Parsed.ok r) ∧
      (parseSelex 100 zeroBuf
          (textOfLines ([[35, 32, 83, 84, 79, 67, 75, 72, 79, 76, 77, 32, 49, 46, 48]]
            ++ [97, 98, 32, 32, 65, 67, 71, 84]
              :: [[99, 100, 32, 32, 84, 84, 84, 84], [47, 47]]))).forget id
        = (parseSelex 100 zeroBuf
          (textOfLines ([] ++ [97, 98, 32, 32, 65, 67, 71, 84]
            :: [[99, 100, 32, 32, 84, 84, 84, 84]]))).forget id) ∧
    parseSelex 100 zeroBuf
        (textOfLines ([] ++ [97, 98, 32, 32, 65, 67, 71, 84]
          :: [[99, 100, 32, 32, 84, 84, 84, 84]])) =
      Parsed.ok { rows := 2, cols := 4, data := [65, 67, 71, 84, 84, 84, 84, 84],
                  labels := [[97, 98, 32], [99, 100, 32]],
                  mapping := [([97, 98, 32], Entry.index 0), ([99, 100, 32], Entry.index 1)],
                  count := 2 } :=
  ⟨parseSelex_comments 100 zeroBuf zeroBuf
      [[35, 32, 83, 84, 79, 67, 75, 72, 79, 76, 77, 32, 49, 46, 48]] []
      [97, 98, 32, 32, 65, 67, 71, 84]
      [[99, 100, 32, 32, 84, 84, 84, 84], [47, 47]] [[99, 100, 32, 32, 84, 84, 84, 84]]
      (by decide) (by decide) (by decide) (by decide) (by decide) (by decide) (by decide)
      (by decide) (by decide),
    by decide⟩

/-- C13: on the input `>a`, `ACGT`, `>b`, `ACGG`, given a matrix buffer of at least 8
bytes, `parseFasta` succeeds and returns the 2 x 4 matrix of rows `ACGT` and `ACGG`,
the labels `a` and `b`, the registry that maps `a` to the bare index 0 and `b` to the
bare index 1, and the count 2. -/
theorem parseFasta_pair (cap : Nat) (junk : Nat → Nat) (hcap : 8 ≤ cap) :
    parseFasta cap junk [62, 97, 10, 65, 67, 71, 84, 10, 62, 98, 10, 65, 67, 71, 71, 10]
        = Parsed.ok exPairParsed ∧
      exPairParsed.rows = 2 ∧ exPairParsed.cols = 4 ∧
      exPairParsed.rowList = [[65, 67, 71, 84], [65, 67, 71, 71]] ∧
      exPairParsed.labels = [[97], [98]] ∧
      exPairParsed.mapping = [([97], Entry.index 0), ([98], Entry.index 1)] ∧
      exPairParsed.count = 2 := by
  refine ⟨?_, rfl, rfl, by decide, rfl, rfl, rfl⟩
  have h := parseFasta_fastaText cap 4 junk [([97], [[65, 67, 71, 84]]), ([98], [[65, 67, 71, 71]])]
    (by decide) (by decide) (by decide) (by simpa using hcap)
  have e1 : fastaText [([97], [[65, 67, 71, 84]]), ([98], [[65, 67, 71, 71]])]
      = [62, 97, 10, 65, 67, 71, 84, 10, 62, 98, 10, 65, 67, 71, 71, 10] := by
    decide
  rw [e1] at h
  rw [h]
  decide

/-- C13, with a buffer of exactly 8 bytes. -/
theorem parseFasta_pair_witness :
    parseFasta 8 zeroBuf [62, 97, 10, 65, 67, 71, 84, 10, 62, 98, 10, 65, 67, 71, 71, 10]
        = Parsed.ok exPairParsed ∧
      exPairParsed.rows = 2 ∧ exPairParsed.cols = 4 ∧
      exPairParsed.rowList = [[65, 67, 71, 84], [65, 67, 71, 71]] ∧
      exPairParsed.labels = [[97], [98]] ∧
      exPairParsed.mapping = [([97], Entry.index 0), ([98], Entry.index 1)] ∧
      exPairParsed.count = 2 :=
  parseFasta_pair 8 zeroBuf (by decide)

/-- C14 (as stated, refuted): with a buffer of 7 bytes `parseFasta` stores the eighth
sequence byte of `>a`, `ACGT`, `>b`, `ACGG` past the buffer, and with a buffer of 3
bytes `parseSelex` stores the fourth sequence byte of `a AC`, `b GT` past the buffer;
neither call ends with an error. -/
theorem parsers_capacity_counterexample :
    parseFasta 7 zeroBuf exPairFile = Parsed.fault Fault.bufferOverrun ∧
      parseSelex 3 zeroBuf exSelexPairFile = Parsed.fault Fault.bufferOverrun ∧
      ∀ m, (Parsed.fault Fault.bufferOverrun : Parsed Alignment) ≠ Parsed.ioError m := by
  refine ⟨by decide, by decide, ?_⟩
  intro m h
  cases h

/-- C14 (amended): `parseFasta` and `parseSelex` do not check the capacity of the
caller's buffer and raise no capacity error.  For an input that is parsed to a matrix
of `R` rows and `L` columns when the buffer is large enough (`cap2` bytes): with a
buffer of `cap ≥ R * L` bytes the call returns that same result, every byte stored
inside the buffer; with a buffer of `cap < R * L` bytes the call stores a sequence byte
past the end of the buffer, which is undefined behaviour (what the call does after that
store is not defined) and not an error. -/
theorem parsers_capacity (cap cap2 : Nat) (junk : Nat → Nat) (fasta selex : List Nat)
    (rf rs : Alignment)
    (hf : parseFasta cap2 junk fasta = Parsed.ok rf)
    (hs : parseSelex cap2 junk selex = Parsed.ok rs) :
    ((rf.rows * rf.cols ≤ cap → parseFasta cap junk fasta = Parsed.ok rf) ∧
      (cap < rf.rows * rf.cols →
        parseFasta cap junk fasta = Parsed.fault Fault.bufferOverrun)) ∧
    ((rs.rows * rs.cols ≤ cap → parseSelex cap junk selex = Parsed.ok rs) ∧
      (cap < rs.rows * rs.cols →
        parseSelex cap junk selex = Parsed.fault Fault.bufferOverrun)) := by
  refine ⟨⟨fun h => parseFasta_fits cap cap2 junk junk fasta rf hf h, fun hcapf => ?_⟩,
    ⟨fun h => parseSelex_fits cap cap2 junk selex rs hs h, fun hcaps => ?_⟩⟩
  · have h1 := (parseFasta_ok_inv cap2 junk fasta rf hf).2.2.2.1
    rcases parseFasta_cap cap cap2 (by omega) junk junk fasta with e | e
    · rw [hf] at e
      have := (parseFasta_ok_inv cap junk fasta rf e).2.2.2.1
      omega
    · exact e
  · have h2 := (parseSelex_ok_le cap2 junk selex rs hs).1
    rcases parseSelex_cap cap cap2 (by omega) junk selex with e | e
    · rw [hs] at e
      have := (parseSelex_ok_le cap junk selex rs e).1
      omega
    · exact e

/-- C14 (amended), at the FASTA file `>a`, `ACGT`, `>b`, `ACGG` (8 sequence bytes) and
the SELEX file `a AC`, `b GT` (4 sequence bytes): with a buffer of 8 bytes both calls
return their matrix, with a buffer of 3 bytes both store past the buffer. -/
theorem parsers_capacity_witness :
    (parseFasta 8 zeroBuf exPairFile = Parsed.ok exPairParsed ∧
        parseFasta 3 zeroBuf exPairFile = Parsed.fault Fault.bufferOverrun) ∧
      (parseSelex 8 zeroBuf exSelexPairFile =
          Parsed.ok { rows := 2, cols := 2, data := [65, 67, 71, 84], labels := [[97], [98]],
                      mapping := [([97], Entry.index 0), ([98], Entry.index 1)], count := 2 } ∧
        parseSelex 3 zeroBuf exSelexPairFile = Parsed.fault Fault.bufferOverrun) :=
  ⟨⟨(parsers_capacity 8 100 zeroBuf exPairFile exSelexPairFile exPairParsed
        { rows := 2, cols := 2, data := [65, 67, 71, 84], labels := [[97], [98]],
          mapping := [([97], Entry.index 0), ([98], Entry.index 1)], count := 2 }
        (by decide) (by decide)).1.1 (by decide),
     (parsers_capacity 3 100 zeroBuf exPairFile exSelexPairFile exPairParsed
        { rows := 2, cols := 2, data := [65, 67, 71, 84], labels := [[97], [98]],
          mapping := [([97], Entry.index 0), ([98], Entry.index 1)], count := 2 }
        (by decide) (by decide)).1.2 (by decide)⟩,
   ⟨(parsers_capacity 8 100 zeroBuf exPairFile exSelexPairFile exPairParsed
        { rows := 2, cols := 2, data := [65, 67, 71, 84], labels := [[97], [98]],
          mapping := [([97], Entry.index 0), ([98], Entry.index 1)], count := 2 }
        (by decide) (by decide)).2.1 (by decide),
     (parsers_capacity 3 100 zeroBuf exPairFile exSelexPairFile exPairParsed
        { rows := 2, cols := 2, data := [65, 67, 71, 84], labels := [[97], [98]],
          mapping := [([97], Entry.index 0), ([98], Entry.index 1)], count := 2 }
        (by decide) (by decide)).2.2 (by decide)⟩⟩

/-- C15: registry consistency.  After any run of `parseLabel` calls that starts from
the empty label list and registry, and in the result of every successful `parseFasta`
call and of every successful `parseSelex` call: under every key the registry holds
exactly the positions of the labels with that key, in strictly increasing order
(nothing for a key of no label, a bare index for one label, the list otherwise), so
every position of the label list is found under the key of its label and under no
other, and the count is the number of labels. -/
theorem registry_consistency (calls : List ((Nat → Nat) × Nat)) (cap : Nat) (junk : Nat → Nat)
    (fasta selex : List Nat) (rf rs : Alignment)
    (hf : parseFasta cap junk fasta = Parsed.ok rf)
    (hs : parseSelex cap junk selex = Parsed.ok rs) :
    RegistryConsistent (parseLabelCalls calls ([], [], 0)).1 (parseLabelCalls calls ([], [], 0)).2.1
        (parseLabelCalls calls ([], [], 0)).2.2 ∧
      RegistryConsistent rf.labels rf.mapping rf.count ∧
      RegistryConsistent rs.labels rs.mapping rs.count := by
  refine ⟨?_, ?_, ?_⟩
  · have h := parseLabelCalls_ok calls ([], [], 0) registryOk_nil rfl
    exact registryConsistent_of_ok _ _ _ h.1 h.2
  · obtain ⟨_, _, _, _, _, _, h7, h8⟩ := parseFasta_ok_inv cap junk fasta rf hf
    exact registryConsistent_of_ok _ _ _ (by rw [h7]; exact registryOk_registerAll rf.labels) h8
  · have hu := parseSelex_ok_registry cap junk selex rs hs
    exact registryConsistent_of_ok _ _ _ hu.1 hu.2

/-- C15, at the calls for the labels `seqA/1-2` and `a-b/1-2`, at the FASTA file
`>seqA/1-2`, `AC`, `>x`, `AC`, `>seqA/3-4`, `AC` and at the SELEX file `a AC`, `a GT`,
whose registry maps `a` to the list of 0 and 1. -/
theorem registry_consistency_witness :
    RegistryConsistent (parseLabelCalls [(exRegionLabel, 8), (exDashLabel, 7)] ([], [], 0)).1
        (parseLabelCalls [(exRegionLabel, 8), (exDashLabel, 7)] ([], [], 0)).2.1
        (parseLabelCalls [(exRegionLabel, 8), (exDashLabel, 7)] ([], [], 0)).2.2 ∧
      RegistryConsistent exSharedParsed.labels exSharedParsed.mapping exSharedParsed.count ∧
      RegistryConsistent [[97], [97]] [([97], Entry.group [0, 1])] 2 :=
  registry_consistency [(exRegionLabel, 8), (exDashLabel, 7)] 100 zeroBuf exSharedFile
    [97, 32, 65, 67, 10, 97, 32, 71, 84, 10] exSharedParsed
    { rows := 2, cols := 2, data := [65, 67, 71, 84], labels := [[97], [97]],
      mapping := [([97], Entry.group [0, 1])], count := 2 }
    (by decide) (by decide)

/-- C16: no silent truncation.  Whenever `parseFasta` succeeds, the reading loop ended
in a state `s` whose stored bytes `s.data` number an exact multiple of the (positive)
column count: rows times columns is the number of bytes stored, and the returned matrix
holds all of them. -/
theorem parseFasta_no_truncation (cap : Nat) (junk : Nat → Nat) (file : List Nat) (r : Alignment)
    (hparse : parseFasta cap junk file = Parsed.ok r) :
    ∃ s, fastaLoop cap (fgetsAll FASTALINELEN file []) junk fastaInit = Parsed.ok s ∧
      0 < r.cols ∧ s.data.length % r.cols = 0 ∧ r.rows * r.cols = s.data.length ∧
      r.data = s.data := by
  obtain ⟨s, h1, _, _, h4, h5, h6⟩ := parseFasta_ok_state cap junk file r hparse
  subst h6
  exact ⟨s, h1, h4, h5, Nat.div_mul_cancel (Nat.dvd_of_mod_eq_zero h5), rfl⟩

/-- C16, at the file `>seqA/1-2`, `AC`, `>x`, `AC`, `>seqA/3-4`, `AC`. -/
theorem parseFasta_no_truncation_witness :
    ∃ s, fastaLoop 100 (fgetsAll FASTALINELEN exSharedFile []) zeroBuf fastaInit = Parsed.ok s ∧
      0 < exSharedParsed.cols ∧ s.data.length % exSharedParsed.cols = 0 ∧
      exSharedParsed.rows * exSharedParsed.cols = s.data.length ∧
      exSharedParsed.data = s.data :=
  parseFasta_no_truncation 100 zeroBuf exSharedFile exSharedParsed (by decide)

/-- C18 (as stated, refuted): the label of the two bytes 0xC3 0xA9 (the UTF-8 text
`é`) has no space and no control byte and fits the field width 4; `writeSelex` writes
the line `é  A`, and `parseSelex` reads that line back with the empty label, not with
the label padded to three bytes. -/
theorem selex_round_trip_counterexample :
    writeSelex [[195, 169]] 1 1 [65] false 4 zeroBuf = Written.file [195, 169, 32, 32, 65, 10] ∧
      parseSelex 1 zeroBuf [195, 169, 32, 32, 65, 10] =
        Parsed.ok { rows := 1, cols := 1, data := [65], labels := [[]],
                    mapping := [([], Entry.index 0)], count := 1 } ∧
      padField 4 [195, 169] = [195, 169, 32] := by
  decide

/-- C18 (amended): SELEX round trip.  For every field width `w ≥ 2`, every matrix of
`N ≥ 1` rows of length `L ≥ 1` whose bytes are all in 33..126, and every list of `N`
labels, each non-empty, of bytes in 33..127, not beginning with `#`, `/` or `%`, and of
length at most `w - 1`, with `w + L + 1 ≤ SELEXLINELEN`: `parseSelex` (given a buffer
of at least `N * L` bytes) applied to the text written by `writeSelex`, with or without
the Stockholm flag, succeeds and returns the identical matrix, and each returned label
is the original label right-padded with spaces to exactly `w - 1` bytes. -/
theorem writeSelex_parseSelex (w L cap : Nat) (labels : List (List Nat)) (seq : List Nat)
    (stockholm : Bool) (junk junk2 : Nat → Nat)
    (hw : 2 ≤ w) (hL : 1 ≤ L) (hN : 1 ≤ labels.length)
    (hseq : seq.length = labels.length * L) (hbytes : ∀ b ∈ seq, 33 ≤ b ∧ b ≤ 126)
    (hlab : ∀ l ∈ labels, l ≠ [] ∧ l.length ≤ w - 1 ∧ (∀ b ∈ l, 32 < b ∧ b < 128) ∧
      isSelexComment (l.getD 0 0) = false)
    (hbuf : w + L + 1 ≤ SELEXLINELEN) (hcap : labels.length * L ≤ cap) :
    ∃ out, writeSelex labels labels.length L seq stockholm w junk = Written.file out ∧
      parseSelex cap junk2 out =
        Parsed.ok { rows := labels.length, cols := L, data := seq,
                    labels := labels.map (padField w),
                    mapping := registerAll [] 0 (labels.map (padField w)),
                    count := labels.length } := by
  have hlab2 : ∀ l ∈ labels, l ≠ [] ∧ l.length + 1 ≤ w ∧ (∀ b ∈ l, 32 < b ∧ b < 128) ∧
      isSelexComment (l.getD 0 0) = false := fun l hl =>
    ⟨(hlab l hl).1, by have := (hlab l hl).2.1; omega, (hlab l hl).2.2⟩
  have hbytes2 : ∀ b ∈ seq, 32 < b ∧ b < 128 := fun b hb => by
    have := hbytes b hb; omega
  have hwr : writeSelex labels labels.length L seq stockholm w junk =
      Written.file
        ((if stockholm then [35, 32, 83, 84, 79, 67, 75, 72, 79, 76, 77, 32, 49, 46, 48, 10]
          else []) ++ selexRowsSpec w L labels seq
          ++ (if stockholm then [47, 47, 10] else [])) := by
    unfold writeSelex
    rw [if_neg (by omega)]
    rw [writeSelexRows_eq w L hL labels seq _
      (fun l hl => ⟨by have := (hlab2 l hl).2.1; omega,
        fun h0 => by have := ((hlab2 l hl).2.2.1 0 h0).1; omega⟩)
      hseq (fun h0 => by have := (hbytes2 0 h0).1; omega) (by simp) (by simp)]
    rfl
  refine ⟨_, hwr, ?_⟩
  rw [selexRowsSpec_eq_text w L labels seq (fun l hl => (hlab2 l hl).2.1)]
  have hok := selexRowLines_ok w L labels seq hlab2 hseq hbytes2 hbuf
  have hfields := selexFields_rowLines w L labels seq
  have hseqs := selexSeqs_rowLines w L labels seq hseq
  cases labels with
  | nil => simp at hN
  | cons l0 rest =>
    have hl0 := hlab2 l0 (List.mem_cons_self _ _)
    simp only [selexRowLines] at hok hfields hseqs ⊢
    simp only [selexFields, List.map_cons, List.cons.injEq, true_and] at hfields
    simp only [selexSeqs] at hseqs
    have hfirst : DataOk w L (l0 ++ List.replicate (w - 1 - l0.length) 32) (seq.take L) :=
      hok _ (List.mem_cons_self _ _)
    have hrest : ∀ x ∈ selexRowLines w L rest (seq.drop L), SelexLineOk w L x :=
      fun x hx => hok x (List.mem_cons_of_mem _ hx)
    have h32 : 32 ∉ l0 := fun h => by have := (hl0.2.2.1 32 h).1; omega
    have htake : seq.take L ≠ [] := by
      intro h
      have := congrArg List.length h
      rw [List.length_take, hseq, List.length_cons, Nat.add_mul] at this
      simp at this
      omega
    have hs0 : (seq.take L).getD 0 0 ≠ 32 := by
      intro h
      have hm := getD_zero_mem _ htake
      rw [h] at hm
      have := (hbytes2 32 (List.mem_of_mem_take hm)).1
      omega
    rw [List.length_cons] at hcap
    cases stockholm with
    | false =>
      have hafter : ∀ x ∈ selexRowLines w L rest (seq.drop L), SelexLineOk w L x := hrest
      have h := parseSelex_wellformed cap w L junk2 [] l0 (w - 1 - l0.length) (seq.take L)
        (selexRowLines w L rest (seq.drop L)) (fun t ht => absurd ht (List.not_mem_nil _))
        hfirst h32 hs0 hL hafter (by rw [hfields, List.length_map]; exact hcap)
      simp only [List.map_nil, List.nil_append] at h
      simp only [Bool.false_eq_true, if_false, List.nil_append, List.append_nil]
      rw [show padField w l0 = l0 ++ List.replicate (w - 1 - l0.length) 32 from rfl, h, hfields,
        hseqs, List.length_map, List.length_cons]
      rfl
    | true =>
      have hc1 : CommentOk [35, 32, 83, 84, 79, 67, 75, 72, 79, 76, 77, 32, 49, 46, 48] := by
        decide
      have hc2 : CommentOk [47, 47] := by decide
      have hafter : ∀ x ∈ selexRowLines w L rest (seq.drop L) ++ [SelexLine.comment [47, 47]],
          SelexLineOk w L x := by
        intro x hx
        rcases List.mem_append.1 hx with hx | hx
        · exact hrest x hx
        · rw [List.mem_singleton] at hx; subst hx; exact hc2
      have hf2 : selexFields (selexRowLines w L rest (seq.drop L) ++ [SelexLine.comment [47, 47]])
          = rest.map (padField w) := by
        rw [← selexFields_dataLines, ← hfields, ← selexFields_dataLines (selexRowLines w L rest _)]
        congr 1
        generalize selexRowLines w L rest (seq.drop L) = ls
        induction ls with
        | nil => rfl
        | cons a t ih => cases a <;> simp [dataLines, ih]
      have hs2 : selexSeqs (selexRowLines w L rest (seq.drop L) ++ [SelexLine.comment [47, 47]])
          = selexSeqs (selexRowLines w L rest (seq.drop L)) := by
        rw [← selexSeqs_dataLines, ← selexSeqs_dataLines (selexRowLines w L rest _)]
        congr 1
        generalize selexRowLines w L rest (seq.drop L) = ls
        induction ls with
        | nil => rfl
        | cons a t ih => cases a <;> simp [dataLines, ih]
      have h := parseSelex_wellformed cap w L junk2
        [[35, 32, 83, 84, 79, 67, 75, 72, 79, 76, 77, 32, 49, 46, 48]] l0 (w - 1 - l0.length)
        (seq.take L) (selexRowLines w L rest (seq.drop L) ++ [SelexLine.comment [47, 47]])
        (fun t ht => by rw [List.mem_singleton] at ht; subst ht; exact hc1)
        hfirst h32 hs0 hL hafter (by rw [hf2, List.length_map]; exact hcap)
      have etext : ([35, 32, 83, 84, 79, 67, 75, 72, 79, 76, 77, 32, 49, 46, 48, 10] : List Nat)
          ++ selexText (SelexLine.data (padField w l0) (seq.take L)
              :: selexRowLines w L rest (seq.drop L)) ++ [47, 47, 10]
          = selexText ([[35, 32, 83, 84, 79, 67, 75, 72, 79, 76, 77, 32, 49, 46, 48]].map
              SelexLine.comment
              ++ SelexLine.data (l0 ++ List.replicate (w - 1 - l0.length) 32) (seq.take L)
                :: (selexRowLines w L rest (seq.drop L) ++ [SelexLine.comment [47, 47]])) := by
        rw [selexText_append, ← List.cons_append, selexText_append]
        simp only [List.map_cons, List.map_nil, padField]
        rw [List.append_assoc]
        rfl
      simp only [if_true]
      rw [etext, h, hf2, hs2, hseqs, List.length_map, List.length_cons]
      rfl

/-- C18 (amended), at labels `x`, `yy`, field width 4, rows `ABC`, `DEF` and the
Stockholm flag. -/
theorem writeSelex_parseSelex_witness :
    ∃ out, writeSelex [[120], [121, 121]] [[120], [121, 121]].length 3 [65, 66, 67, 68, 69, 70]
        true 4 zeroBuf = Written.file out ∧
      parseSelex 6 zeroBuf out =
        Parsed.ok { rows := [[120], [121, 121]].length, cols := 3,
                    data := [65, 66, 67, 68, 69, 70],
                    labels := [[120], [121, 121]].map (padField 4),
                    mapping := registerAll [] 0 ([[120], [121, 121]].map (padField 4)),
                    count := [[120], [121, 121]].length } :=
  writeSelex_parseSelex 4 3 6 [[120], [121, 121]] [65, 66, 67, 68, 69, 70] true zeroBuf zeroBuf
    (by decide) (by decide) (by decide) (by decide) (by decide) (by decide) (by decide)
    (by decide)

/-- C19 (code defect): on an input without sequence bytes neither parser reports an
error; the final-shape computation `index / seqlen` is reached with `seqlen = 0`.  This
holds for `parseFasta` on the empty file and on the file `>a`, `>b` of header lines
only, and for `parseSelex` on the empty file (with a zeroed line buffer), on the file
`# x` of one comment line, and on the data line `a` and a space without sequence. -/
theorem parsers_divide_by_zero (cap : Nat) (junk : Nat → Nat) :
    parseFasta cap junk [] = Parsed.fault Fault.divByZero ∧
      parseFasta cap junk [62, 97, 10, 62, 98, 10] = Parsed.fault Fault.divByZero ∧
      parseSelex cap zeroBuf [] = Parsed.fault Fault.divByZero ∧
      parseSelex cap junk [35, 32, 120, 10] = Parsed.fault Fault.divByZero ∧
      parseSelex cap junk [97, 32, 10] = Parsed.fault Fault.divByZero := by
  refine ⟨rfl, ?_, rfl, rfl, rfl⟩
  rw [parseFasta_eq]
  rfl

/-- C20 (as stated, refuted): with field width 1 and rows of 2 bytes, the label `yyy`
has length 3, more than the width and at most width plus row length; `writeSelex`
prints `yDE` for its row and `zFG` for the later row with label `zz`, both without the
newline, where the claim has `yDE`, newline, `zFG`, newline. -/
theorem writeSelex_long_label_counterexample :
    writeSelex [[121, 121, 121], [122, 122]] 2 2 [68, 69, 70, 71] false 1 zeroBuf
        = Written.file [121, 68, 69, 122, 70, 71] ∧
      selexRowsCut 1 2 [[121, 121, 121], [122, 122]] [68, 69, 70, 71]
        = [121, 68, 69, 10, 122, 70, 71, 10] := by
  decide

/-- C20 (amended): for every field width `w`, row length `L ≥ 1`, matrix of `N` rows
without NUL byte and list of `N` labels without NUL byte, each of length less than
`w + L`, the text written by `writeSelex` has for each row one line: the first `w`
bytes of the label when the label is longer than `w` (the label padded with spaces to
`w` bytes otherwise), the `L` bytes of the row, and a newline; a label longer than the
field leaves the lines of the later rows intact. -/
theorem writeSelex_long_label (labels : List (List Nat)) (numseq lenseq : Nat) (seq : List Nat)
    (stockholm : Bool) (w : Nat) (junk : Nat → Nat)
    (hL : 1 ≤ lenseq) (hn : numseq = labels.length) (hseq : seq.length = numseq * lenseq)
    (hlab : ∀ l ∈ labels, l.length < w + lenseq ∧ 0 ∉ l) (hseq0 : 0 ∉ seq) :
    writeSelex labels numseq lenseq seq stockholm w junk =
        Written.file
          ((if stockholm then [35, 32, 83, 84, 79, 67, 75, 72, 79, 76, 77, 32, 49, 46, 48, 10]
            else []) ++ selexRowsCut w lenseq labels seq
            ++ (if stockholm then [47, 47, 10] else [])) ∧
      ∀ l ∈ labels, w < l.length → selexField w l = l.take w := by
  constructor
  · unfold writeSelex
    rw [if_neg (by omega)]
    rw [writeSelexRows_cut w lenseq hL labels seq _ hlab (by rw [hseq, hn]) hseq0 (by simp)
      (by simp)]
    rfl
  · intro l _ hw
    unfold selexField
    rw [if_pos hw]

/-- C20 (amended), at labels `yyyy`, `z`, field width 2 and rows `ABC`, `DEF`: the
lines are `yyABC` and `z` padded to two bytes and `DEF`. -/
theorem writeSelex_long_label_witness :
    (writeSelex [[121, 121, 121, 121], [122]] 2 3 [65, 66, 67, 68, 69, 70] false 2 zeroBuf =
        Written.file
          ((if false then [35, 32, 83, 84, 79, 67, 75, 72, 79, 76, 77, 32, 49, 46, 48, 10]
            else []) ++ selexRowsCut 2 3 [[121, 121, 121, 121], [122]] [65, 66, 67, 68, 69, 70]
            ++ (if false then [47, 47, 10] else [])) ∧
      ∀ l ∈ [[121, 121, 121, 121], [122]], 2 < l.length → selexField 2 l = l.take 2) ∧
      selexRowsCut 2 3 [[121, 121, 121, 121], [122]] [65, 66, 67, 68, 69, 70]
        = [121, 121, 65, 66, 67, 10, 122, 32, 68, 69, 70, 10] :=
  ⟨writeSelex_long_label [[121, 121, 121, 121], [122]] 2 3 [65, 66, 67, 68, 69, 70] false 2
    zeroBuf (by decide) (by decide) (by decide) (by decide) (by decide), by decide⟩

end Msaio
